import Mathlib

/-!
# Duplicate-file search (`searcher.h`, `searcher.cpp`, `main.cpp`)

A shallow embedding of the size partition, the chunk hasher and the
refinement loop of the duplicate-file detector, followed by the properties
established for them.

Conventions of the embedding

* `bfs::path` is a `String`; a byte is a natural number.
* An `std::unordered_map` is an association list whose order is the
  iteration order of the container.  Where a fresh key lands among the
  existing ones is decided by a `Layout`, which is a parameter of every
  operation: the C++ standard leaves it unspecified.
* `Searcher::nextStep` inserts into `m_filesGroups` while it walks it, and
  the file follows that walk in two ways.  `passLoop`, `Searcher.nextStep`
  and `Searcher.find` are the walk as long as no insertion rehashes the
  table: the walk keeps its position, and a group created during a pass is
  met later in the same pass exactly when the layout puts it behind the
  position of the walk.  `stdPassLoop`, `stdNextStep` and `stdFind` are the
  walk over the table as the GNU C++ library keeps it, where the insertion
  of the 14th, 30th, 60th, ... entry rehashes the table and the walk goes
  on from the place the node of the iterator has in the list built anew:
  groups are then left out, met twice, or met again after they have been
  split.
* `size_t` counters (`m_pos`, `groupId`) are natural numbers: a file size
  is below `2^63`, the block size below `2^32`, and the id counter moves by
  one per created group, so none of them can reach `2^64`.
* The checksum routines of Boost, its regular-expression matcher and
  `path::filename` are parameters (`Externals`); the disk is a
  `FileSystem`.
* What happens inside a call of `Searcher::nextStep` is stated, for the
  walk without rehash, over the states `Searcher.midPass` lists, one per
  turn of the outer loop, over the cursors `splitCursor` lists, one per
  bucket of `hashGroups`, and over the calls of `FileInfo::nextHash` that
  `Searcher.hashCalls` lists; for the walk of the GNU C++ library over the
  states `stdTurn` goes through and the calls the state records.
-/

namespace Bayan

set_option linter.unusedSectionVars false

abbrev Path := String

abbrev Byte := Nat

/-- The enum `Checksum` of `searcher.h`. -/
inductive Checksum where
  | crc32
  | md5
  deriving DecidableEq, Repr

/-- Library routines the program calls: the two Boost checksums as used by
`FileInfo::md5` and `FileInfo::crc32`, `boost::regex_match` under a
case-insensitive pattern, and `path::filename`. -/
structure Externals where
  md5 : List Byte → String
  crc32 : List Byte → String
  regexMatch : String → String → Bool
  filename : Path → String

/-- What the program observes of the disk: the bytes of a file (none for
a path that cannot be opened), the entries a directory iterator yields for
a directory (full paths, in its order), and the two file-type tests. -/
structure FileSystem where
  content : Path → List Byte
  children : Path → List Path
  isDirectory : Path → Bool
  isRegularFile : Path → Bool

/-- The function `bfs::file_size`. -/
def FileSystem.fileSize (fs : FileSystem) (p : Path) : Nat :=
  (fs.content p).length

/-- Where each hash container puts a key it does not hold yet, given the
keys it holds in iteration order: the index in that order at which the new
entry appears.  One field per `unordered_map` of the program
(`sizeGroups`, `m_filesGroups`, `FilesGroup::m_group`, `hashGroups`). -/
structure Layout where
  sizeSlot : Nat → List Nat → Nat
  groupSlot : Nat → List Nat → Nat
  fileSlot : Path → List Path → Nat
  hashSlot : String → List String → Nat

/-! ## Association lists standing for `unordered_map` -/

section UMap

variable {K V : Type} [DecidableEq K]

/-- Put `x` at index `n` (at the end when `n` is too large). -/
def insertAt {α : Type} (n : Nat) (x : α) (l : List α) : List α :=
  l.take n ++ x :: l.drop n

/-- Keys in iteration order. -/
def keys (m : List (K × V)) : List K := m.map Prod.fst

/-- The value found under `k`, `dflt` when there is none. -/
def getD (dflt : V) (m : List (K × V)) (k : K) : V :=
  match m.find? (fun e => decide (e.1 = k)) with
  | some e => e.2
  | none => dflt

/-- Overwrite the value under every entry with key `k`. -/
def put (m : List (K × V)) (k : K) (v : V) : List (K × V) :=
  m.map (fun e => if e.1 = k then (e.1, v) else e)

/-- The insertion `operator[]` performs: a missing key is added with a
default-constructed value, at the slot the layout chooses. -/
def subscript (slot : K → List K → Nat) (dflt : V) (m : List (K × V)) (k : K) :
    List (K × V) :=
  if k ∈ keys m then m else insertAt (slot k (keys m)) (k, dflt) m

/-- The statement `m[k] = v`. -/
def assign (slot : K → List K → Nat) (dflt : V) (m : List (K × V)) (k : K) (v : V) :
    List (K × V) :=
  put (subscript slot dflt m k) k v

/-- The statement `m[k].push_back(x)` on a map of vectors. -/
def pushBack {α : Type} (slot : K → List K → Nat) (m : List (K × List α)) (k : K) (x : α) :
    List (K × List α) :=
  let m1 := subscript slot [] m k
  put m1 k (getD [] m1 k ++ [x])

/-- The template `Searcher::erase`: drop every entry for which `func` holds,
keeping the others in order. -/
def erase {α : Type} (cont : List α) (func : α → Bool) : List α :=
  cont.filter (fun x => !func x)

end UMap

/-! ## `FileInfo` -/

/-- The process-wide variables: `FileInfo::blockSize`, `FileInfo::checkSum`,
`Searcher::groupId`, and what has been written to `std::cout`. -/
structure Process where
  blockSize : Nat
  checkSum : Checksum
  groupId : Nat
  cout : List String

/-- Start of the process: the initialisers of the static members. -/
def Process.start : Process :=
  { blockSize := 10, checkSum := Checksum.md5, groupId := 0, cout := [] }

/-- The class `FileInfo`.  `m_ifs` is `none` while the stream is not open
and otherwise holds the bytes not read yet. -/
structure FileInfo where
  m_ifs : Option (List Byte)
  m_pos : Nat
  m_hash : String
  m_path : Path
  m_size : Nat
  deriving DecidableEq, Repr

/-- The default constructor `FileInfo()`. -/
def FileInfo.default : FileInfo :=
  { m_ifs := none, m_pos := 0, m_hash := "", m_path := "", m_size := 0 }

/-- The constructor `FileInfo(const bfs::path &)`. -/
def FileInfo.ofPath (fs : FileSystem) (path : Path) : FileInfo :=
  { m_ifs := none, m_pos := 0, m_hash := "", m_path := path, m_size := fs.fileSize path }

/-- What is left in an object after `std::move` took its stream, hash and
path: the two integers are copied, the other members are emptied.  The
object stays in the group it was moved from, which is erased at the end of
the pass.  When the walk meets that group again before, `nextHash` is
called on the object: its stream is not open and its path is empty, so the
stream cannot be opened and nothing is read. -/
def FileInfo.movedFrom (f : FileInfo) : FileInfo :=
  { m_ifs := none, m_pos := f.m_pos, m_hash := "", m_path := "", m_size := f.m_size }

/-- The function `FileInfo::setBlockSize`: the process afterwards, and the
exception when one is thrown. -/
def FileInfo.setBlockSize (value : Nat) (p : Process) : Process × Except String Unit :=
  if value > 0 then
    ({ p with blockSize := value }, Except.ok ())
  else
    (p, Except.error "Block size must be greater or equal to 1 byte")

/-- The function `FileInfo::setChecksum`. -/
def FileInfo.setChecksum (value : Checksum) (p : Process) : Process :=
  { p with checkSum := value }

/-- The function `FileInfo::isFinished`. -/
def FileInfo.isFinished (f : FileInfo) : Bool :=
  decide (f.m_pos ≥ f.m_size)

/-- The buffer `chunk` after `m_ifs.read(chunk.data(), blockSize)`: it is
created as `blockSize` zero bytes and the bytes the stream still has, at
most `blockSize` of them, are written over its beginning. -/
def readChunk (blockSize : Nat) (stream : List Byte) : List Byte :=
  stream.take blockSize ++ List.replicate (blockSize - (stream.take blockSize).length) 0

/-- The bytes the stream of `f` delivers next: the whole file when the
stream is still to be opened. -/
def FileInfo.stream (fs : FileSystem) (f : FileInfo) : List Byte :=
  match f.m_ifs with
  | some rest => rest
  | none => fs.content f.m_path

/-- The checksum selected by `FileInfo::checkSum`. -/
def digest (X : Externals) (checkSum : Checksum) (chunk : List Byte) : String :=
  if checkSum = Checksum.md5 then X.md5 chunk else X.crc32 chunk

/-- The function `FileInfo::nextHash`: the returned hash and the object
afterwards. -/
def FileInfo.nextHash (X : Externals) (fs : FileSystem) (p : Process) (f : FileInfo) :
    String × FileInfo :=
  if f.m_pos > f.m_size then
    (f.m_hash, f)
  else
    let stream := f.stream fs
    let chunk := readChunk p.blockSize stream
    let h := digest X p.checkSum chunk
    (h, { f with m_ifs := some (stream.drop p.blockSize),
                 m_pos := f.m_pos + p.blockSize,
                 m_hash := h })

/-! ## `Searcher` -/

/-- The class `Searcher::FilesGroup`: the map `m_group`. -/
abbrev FilesGroup := List (Path × FileInfo)

/-- The function `FilesGroup::isFinished`, which looks at the first entry
of the map only.  Dereferencing `begin()` of an empty map is undefined in
C++; the embedding answers `true` there. -/
def FilesGroup.isFinished (g : FilesGroup) : Bool :=
  match g with
  | [] => true
  | e :: _ => e.2.isFinished

/-- The data members of `Searcher`. -/
structure Searcher where
  m_includeDirs : List Path
  m_excludeDirs : List Path
  m_recursiveLevel : Int
  m_minSize : Nat
  m_filter : String
  m_filesGroups : List (Nat × FilesGroup)

/-- The constructor of `Searcher`, run in process state `p`: the process
afterwards, and the object or the exception thrown.  The file mask is kept
as text; that `boost::regex` may reject it is not part of the embedding. -/
def Searcher.construct (p : Process) (includeDirs excludeDirs : List Path)
    (recursiveLevel : Int) (checkSum : String) (blockSize : Nat) (filter : String)
    (minSize : Nat) : Process × Except String Searcher :=
  let p1 :=
    if checkSum = "crc32" then FileInfo.setChecksum Checksum.crc32 p
    else if checkSum = "md5" then FileInfo.setChecksum Checksum.md5 p
    else { p with cout := p.cout ++ ["checksum unknown option, md5 will used"] }
  match FileInfo.setBlockSize blockSize p1 with
  | (p2, Except.ok _) =>
    (p2, Except.ok { m_includeDirs := includeDirs, m_excludeDirs := excludeDirs,
                     m_recursiveLevel := recursiveLevel, m_minSize := minSize,
                     m_filter := filter, m_filesGroups := [] })
  | (p2, Except.error e) => (p2, Except.error e)

/-- The entries of `recursive_directory_iterator(dir)` that get past the
first test of the loop in `groupBySize`.  An entry that is excluded or lies
deeper than `level` is skipped together with everything below it, so the
iteration never goes below depth `level + 1`; `r` counts the depths still
to be read (`level + 1 - depth`). -/
def walk (fs : FileSystem) (excl : List Path) : Nat → Path → List Path
  | 0, _ => []
  | r + 1, dir =>
    (fs.children dir).flatMap fun e =>
      if e ∈ excl then [] else e :: (if fs.isDirectory e then walk fs excl r e else [])

/-- The second test of the loop in `groupBySize`. -/
def Searcher.isCandidate (X : Externals) (fs : FileSystem) (s : Searcher) (e : Path) : Bool :=
  fs.isRegularFile e && decide (fs.fileSize e ≥ s.m_minSize) &&
    (if s.m_filter.isEmpty then true else X.regexMatch s.m_filter (X.filename e))

/-- One turn of the outer loop of `groupBySize`: the files of one include
directory are appended to their buckets, then `erase` drops the buckets of
length one. -/
def Searcher.scanDirectory (X : Externals) (L : Layout) (fs : FileSystem) (s : Searcher)
    (level : Int) (sizeGroups : List (Nat × List Path)) (directory : Path) :
    List (Nat × List Path) :=
  let found := (walk fs s.m_excludeDirs (level + 1).toNat directory).filter (s.isCandidate X fs)
  let filled := found.foldl (fun m e => pushBack L.sizeSlot m (fs.fileSize e) e) sizeGroups
  erase filled (fun item => decide (item.2.length = 1))

/-- The function `Searcher::groupBySize`. -/
def Searcher.groupBySize (X : Externals) (L : Layout) (fs : FileSystem) (s : Searcher)
    (level : Int) : List (Nat × List Path) :=
  s.m_includeDirs.foldl (s.scanDirectory X L fs level) []

/-- The inner loop of `findGroups`: the group made from one bucket. -/
def makeGroup (L : Layout) (fs : FileSystem) (files : List Path) : FilesGroup :=
  files.foldl (fun g file => assign L.fileSlot FileInfo.default g file (FileInfo.ofPath fs file)) []

/-- The outer loop of `findGroups` on the table and the id counter. -/
def fillGroups (L : Layout) (fs : FileSystem) (sizeGroups : List (Nat × List Path))
    (table : List (Nat × FilesGroup)) (groupId : Nat) : List (Nat × FilesGroup) × Nat :=
  sizeGroups.foldl
    (fun acc sizeGroup =>
      (assign L.groupSlot [] acc.1 acc.2 (makeGroup L fs sizeGroup.2), acc.2 + 1))
    (table, groupId)

/-- The loop of `findGroups` over given buckets: the groups are added to the
table of the object and the id counter of the process moves on. -/
def Searcher.loadGroups (L : Layout) (fs : FileSystem) (sizeGroups : List (Nat × List Path))
    (p : Process) (s : Searcher) : Process × Searcher :=
  let r := fillGroups L fs sizeGroups s.m_filesGroups p.groupId
  ({ p with groupId := r.2 }, { s with m_filesGroups := r.1 })

/-- The function `Searcher::findGroups`. -/
def Searcher.findGroups (X : Externals) (L : Layout) (fs : FileSystem) (p : Process)
    (s : Searcher) : Process × Searcher :=
  s.loadGroups L fs (s.groupBySize X L fs s.m_recursiveLevel) p

/-- The function `Searcher::allFinished`. -/
def allFinished (table : List (Nat × FilesGroup)) : Bool :=
  table.all fun group => group.2.isFinished

/-- The members of a group after the first inner loop of `nextStep`: each
one has been asked for its next hash. -/
def hashMembers (X : Externals) (fs : FileSystem) (p : Process) (g : FilesGroup) : FilesGroup :=
  g.map fun file => (file.1, (file.2.nextHash X fs p).2)

/-- The map `hashGroups` after the first inner loop of `nextStep`. -/
def hashGroupsOf (X : Externals) (L : Layout) (fs : FileSystem) (p : Process) (g : FilesGroup) :
    List (String × List Path) :=
  g.foldl (fun hg file => pushBack L.hashSlot hg (file.2.nextHash X fs p).1 file.1) []

/-- The table while `nextStep` walks it without a rehash: the entries the
walk has passed, the entry it stands on, the entries still ahead, and the
id counter. -/
structure Cursor where
  before : List (Nat × FilesGroup)
  current : Nat × FilesGroup
  after : List (Nat × FilesGroup)
  groupId : Nat

/-- The statement `newGroup[file] = std::move(group.second[file])`, on the
pair of the new group and the group moved from. -/
def moveMember (L : Layout) (acc : FilesGroup × FilesGroup) (file : Path) :
    FilesGroup × FilesGroup :=
  let grp := subscript L.fileSlot FileInfo.default acc.2 file
  let v := getD FileInfo.default grp file
  (assign L.fileSlot FileInfo.default acc.1 file v, put grp file v.movedFrom)

/-- The loop over one hash bucket that fills `newGroup`: the new group and
what is left of the group moved from. -/
def moveMembers (L : Layout) (files : List Path) (group : FilesGroup) : FilesGroup × FilesGroup :=
  files.foldl (moveMember L) ([], group)

/-- The statement `m_filesGroups[Searcher::groupId++] = std::move(newGroup)`
during the walk, when it does not rehash the table: an id already in the
table has its group overwritten where it is, a fresh id is placed by the
layout before or behind the walk, and no other entry changes its place.
(`StdTable.assign` is the statement with the rehash.) -/
def placeNew (L : Layout) (c : Cursor) (newGroup : FilesGroup) : Cursor :=
  let id := c.groupId
  if id ∈ keys c.before then
    { c with before := put c.before id newGroup, groupId := id + 1 }
  else if id = c.current.1 then
    { c with current := (id, newGroup), groupId := id + 1 }
  else if id ∈ keys c.after then
    { c with after := put c.after id newGroup, groupId := id + 1 }
  else
    let slot := L.groupSlot id (keys (c.before ++ c.current :: c.after))
    if slot ≤ c.before.length then
      { c with before := insertAt slot (id, newGroup) c.before, groupId := id + 1 }
    else
      { c with after := insertAt (slot - c.before.length - 1) (id, newGroup) c.after,
               groupId := id + 1 }

/-- The body of the loop over `hashGroups` in `nextStep`. -/
def splitOne (L : Layout) (c : Cursor) (hashGroup : String × List Path) : Cursor :=
  if hashGroup.2.length > 1 then
    let moved := moveMembers L hashGroup.2 c.current.2
    placeNew L { c with current := (c.current.1, moved.2) } moved.1
  else c

/-- The loop over `hashGroups` in `nextStep`. -/
def splitGroup (L : Layout) (hashGroups : List (String × List Path)) (c : Cursor) : Cursor :=
  hashGroups.foldl (splitOne L) c

/-- The state of one call of `nextStep` between two turns of its outer loop,
for the walk without rehash. -/
structure Pass where
  before : List (Nat × FilesGroup)
  after : List (Nat × FilesGroup)
  removed : List Nat
  groupId : Nat

/-- The body of the outer loop of `nextStep` for a group that is not
finished. -/
def visitGroup (X : Externals) (L : Layout) (fs : FileSystem) (p : Process) (s : Pass)
    (group : Nat × FilesGroup) (rest : List (Nat × FilesGroup)) : Pass :=
  let hashed := hashMembers X fs p group.2
  let hashGroups := hashGroupsOf X L fs p group.2
  if hashGroups.length > 1 then
    let c := splitGroup L hashGroups
      { before := s.before, current := (group.1, hashed), after := rest, groupId := s.groupId }
    { before := c.before ++ [c.current], after := c.after,
      removed := group.1 :: s.removed, groupId := c.groupId }
  else
    { s with before := s.before ++ [(group.1, hashed)], after := rest }

/-- The outer loop of `nextStep` as long as no insertion rehashes the
table, at most `fuel` turns of it (counting the final test): `none` when
the turns do not suffice.  Every group that is in the table when the loop
starts is met once, in the order of the table.  (`stdPassLoop` is the loop
with the rehash.) -/
def passLoop (X : Externals) (L : Layout) (fs : FileSystem) (p : Process) :
    Nat → Pass → Option Pass
  | 0, _ => none
  | fuel + 1, s =>
    match s.after with
    | [] => some s
    | group :: rest =>
      if group.2.isFinished then
        passLoop X L fs p fuel { s with before := s.before ++ [group], after := rest }
      else
        passLoop X L fs p fuel (visitGroup X L fs p s group rest)

/-- A bound on the turns the outer loop of `nextStep` still takes when the
groups in `table` are ahead of the walk: a group of `n` members accounts
for at most `n * n + 1` turns, itself and the groups split off from it. -/
def passMeasure (table : List (Nat × FilesGroup)) : Nat :=
  (table.map fun group => group.2.length * group.2.length + 1).sum

/-- A number of turns that is enough for the outer loop of `nextStep` on a
table (see `passLoop_spec`). -/
def passFuel (table : List (Nat × FilesGroup)) : Nat :=
  passMeasure table + 1

/-- The function `Searcher::nextStep` on the table and the id counter, as
long as no insertion rehashes the table: the outer loop, then `erase` of
the ids marked for removal.  The loop is given
`passFuel` turns, which suffice on every well-formed table
(`stepTable_spec`); the second branch is for the turns running out. -/
def stepTable (X : Externals) (L : Layout) (fs : FileSystem) (p : Process)
    (table : List (Nat × FilesGroup)) (groupId : Nat) : List (Nat × FilesGroup) × Nat :=
  match passLoop X L fs p (passFuel table)
      { before := [], after := table, removed := [], groupId := groupId } with
  | some r => (erase r.before (fun item => decide (item.1 ∈ r.removed)), r.groupId)
  | none => (table, groupId)

/-- The function `Searcher::nextStep` as long as no insertion rehashes the
table (`stdNextStep` is the function with the rehash). -/
def Searcher.nextStep (X : Externals) (L : Layout) (fs : FileSystem) (ps : Process × Searcher) :
    Process × Searcher :=
  let r := stepTable X L fs ps.1 ps.2.m_filesGroups ps.1.groupId
  ({ ps.1 with groupId := r.2 }, { ps.2 with m_filesGroups := r.1 })

/-- The loop `while (!allFinished()) nextStep();` with at most `fuel` calls
of `nextStep`, none of which rehashes the table: `none` when the loop is
still running after them. -/
def Searcher.findLoop (X : Externals) (L : Layout) (fs : FileSystem) :
    Nat → Process × Searcher → Option (Process × Searcher)
  | 0, ps => if allFinished ps.2.m_filesGroups then some ps else none
  | fuel + 1, ps =>
    if allFinished ps.2.m_filesGroups then some ps
    else Searcher.findLoop X L fs fuel (Searcher.nextStep X L fs ps)

/-- The function `Searcher::find` as long as no insertion rehashes the
table, its loop cut after `fuel` passes (`stdFind` is the function with the
rehash). -/
def Searcher.find (X : Externals) (L : Layout) (fs : FileSystem) (fuel : Nat) (p : Process)
    (s : Searcher) : Option (Process × Searcher) :=
  Searcher.findLoop X L fs fuel (s.findGroups X L fs p)

/-- The function `Searcher::print`. -/
def Searcher.print (p : Process) (s : Searcher) : Process :=
  { p with cout := p.cout ++
      s.m_filesGroups.flatMap fun group => group.2.map Prod.fst ++ [""] }

/-- The `try` block of `main` with its `catch`, for parsed options: the
process afterwards, `none` when `fuel` passes do not finish the search. -/
def runSearch (X : Externals) (L : Layout) (fs : FileSystem) (fuel : Nat) (p : Process)
    (includeDirs excludeDirs : List Path) (scanLevel : Int) (checkSum : String)
    (blockSize : Nat) (fileMask : String) (minFileSize : Nat) : Option Process :=
  match Searcher.construct p includeDirs excludeDirs scanLevel checkSum blockSize fileMask
      minFileSize with
  | (p1, Except.error e) => some { p1 with cout := p1.cout ++ [e] }
  | (p1, Except.ok searcher) =>
    match searcher.find X L fs fuel p1 with
    | some (p2, found) => some (found.print p2)
    | none => none

/-! ## Block hashes of a file, as a reference for the refinement loop -/

/-- Hash of block `i` of the file at `path`: the bytes from offset
`i * blockSize`, in a buffer of `blockSize` bytes that is zero where the
file has ended. -/
def hashAt (X : Externals) (fs : FileSystem) (p : Process) (path : Path) (i : Nat) : String :=
  digest X p.checkSum (readChunk p.blockSize ((fs.content path).drop (i * p.blockSize)))

/-- Number of blocks of `blockSize` bytes needed to cover `size` bytes. -/
def blockCount (blockSize size : Nat) : Nat :=
  (size + blockSize - 1) / blockSize

/-- The sequence of block hashes of the whole file, from offset 0. -/
def blockHashes (X : Externals) (fs : FileSystem) (p : Process) (path : Path) : List String :=
  (List.range (blockCount p.blockSize (fs.fileSize path))).map (hashAt X fs p path)

/-! ## Invariants of the refinement loop -/

/-- The hash a file object caches after `k` blocks: none before the first. -/
def lastHash (X : Externals) (fs : FileSystem) (p : Process) (path : Path) : Nat → String
  | 0 => ""
  | k + 1 => hashAt X fs p path k

/-- A table entry of a group that has been hashed for `k` blocks: the
object belongs to the file at its key, has read `k` blocks of it and caches
the hash of the last one. -/
structure FileAt (X : Externals) (fs : FileSystem) (p : Process) (k : Nat)
    (e : Path × FileInfo) : Prop where
  path : e.2.m_path = e.1
  size : e.2.m_size = fs.fileSize e.1
  pos : e.2.m_pos = k * p.blockSize
  stream : e.2.stream fs = (fs.content e.1).drop (k * p.blockSize)
  hash : e.2.m_hash = lastHash X fs p e.1 k

/-- A well-formed group: at least two members under distinct paths, all of
size `S`, all hashed for `k` blocks, the last of which began inside the
file, with equal hashes on each of these blocks. -/
structure GroupAt (X : Externals) (fs : FileSystem) (p : Process) (k S : Nat)
    (g : FilesGroup) : Prop where
  nodup : (keys g).Nodup
  two : 2 ≤ g.length
  file : ∀ e ∈ g, FileAt X fs p k e
  size : ∀ a ∈ keys g, fs.fileSize a = S
  bound : k * p.blockSize < S + p.blockSize
  agree : ∀ a ∈ keys g, ∀ b ∈ keys g, ∀ i, i < k → hashAt X fs p a i = hashAt X fs p b i

/-- The paths of a group whose block `k` hashes to `h`. -/
def hashClass (X : Externals) (fs : FileSystem) (p : Process) (k : Nat) (g : FilesGroup)
    (h : String) : List Path :=
  (keys g).filter fun path => decide (hashAt X fs p path k = h)


/-- A group made from one hash bucket of the group `cur`: it holds exactly
the bucket's paths, distinct, each with the object `cur` had for it. -/
def ChildOf (cur : FilesGroup) (cls : String × List Path) (child : Nat × FilesGroup) : Prop :=
  (keys child.2).Nodup ∧ (∀ a, a ∈ keys child.2 ↔ a ∈ cls.2) ∧
    ∀ a ∈ cls.2, getD FileInfo.default child.2 a = getD FileInfo.default cur a


/-- Every id in the table is below the id counter. -/
def Cursor.idsBelow (c : Cursor) : Prop :=
  (∀ x ∈ c.before, x.1 < c.groupId) ∧ c.current.1 < c.groupId ∧
    ∀ x ∈ c.after, x.1 < c.groupId


/-- What one turn of the outer loop of `nextStep` does with an unfinished
well-formed group `y` that has been hashed for `k` blocks: the entries
`dead` (the group itself when it is split) and `nb` are added before the
walk, `na` behind it; `nb ++ na` are the groups that take the place of `y`. -/
structure VisitOutcome (X : Externals) (L : Layout) (fs : FileSystem) (p : Process)
    (s : Pass) (y : Nat × FilesGroup) (rest : List (Nat × FilesGroup)) (k S : Nat)
    (s' : Pass) (dead nb na : List (Nat × FilesGroup)) : Prop where
  before : s'.before.Perm (s.before ++ dead ++ nb)
  after : s'.after.Perm (rest ++ na)
  cases :
    (dead = [] ∧ nb = [(y.1, hashMembers X fs p y.2)] ∧ na = [] ∧ s'.removed = s.removed ∧
        s'.groupId = s.groupId ∧ (hashGroupsOf X L fs p y.2).length ≤ 1) ∨
    ((∃ junk, dead = [(y.1, junk)]) ∧ s'.removed = y.1 :: s.removed ∧
        (hashGroupsOf X L fs p y.2).length > 1 ∧
        (keys (nb ++ na)).Perm (List.range' s.groupId (s'.groupId - s.groupId)) ∧
        s.groupId ≤ s'.groupId)
  group : ∀ z ∈ nb ++ na, GroupAt X fs p (k + 1) S z.2
  sub : ∀ z ∈ nb ++ na, ∀ e ∈ z.2, e ∈ hashMembers X fs p y.2
  mates : ∀ z ∈ nb ++ na, ∀ a ∈ keys z.2, ∀ b ∈ keys z.2,
    hashAt X fs p a k = hashAt X fs p b k
  apart : ∀ z ∈ nb ++ na, ∀ z' ∈ nb ++ na, ∀ a, a ∈ keys z.2 → a ∈ keys z'.2 → z = z'
  complete : ∀ a ∈ keys y.2, ∀ b ∈ keys y.2, a ≠ b →
    hashAt X fs p a k = hashAt X fs p b k → ∃ z ∈ nb ++ na, a ∈ keys z.2 ∧ b ∈ keys z.2


/-- The groups that count during a pass: those still ahead of the walk and
those behind it that have not been marked for removal. -/
def Pass.live (s : Pass) (x : Nat × FilesGroup) : Prop :=
  x ∈ s.after ∨ (x ∈ s.before ∧ x.1 ∉ s.removed)

/-- The group `y` is made of members of the group `x` that have been hashed
further and that returned equal hashes when `x` was hashed. -/
def Advanced (X : Externals) (fs : FileSystem) (p : Process) (x y : FilesGroup) : Prop :=
  (∀ a ∈ keys y, a ∈ keys x) ∧
  (∀ e ∈ y, ∀ e0 ∈ x, e0.2.m_pos + p.blockSize ≤ e.2.m_pos) ∧
  ∀ e ∈ x, ∀ e' ∈ x, e.1 ∈ keys y → e'.1 ∈ keys y →
    (e.2.nextHash X fs p).1 = (e'.2.nextHash X fs p).1

/-- The invariant of the outer loop of `nextStep`, for a pass that started
on the table `T` with the id counter at `gid0`. -/
structure PassInv (X : Externals) (L : Layout) (fs : FileSystem) (p : Process)
    (T : List (Nat × FilesGroup)) (gid0 : Nat) (s : Pass) : Prop where
  ids : (keys (s.before ++ s.after)).Nodup
  below : ∀ x ∈ s.before ++ s.after, x.1 < s.groupId
  removed : ∀ id ∈ s.removed, id ∈ keys s.before
  group : ∀ x, s.live x → ∃ k S, GroupAt X fs p k S x.2
  disjoint : ∀ x y, s.live x → s.live y → ∀ a, a ∈ keys x.2 → a ∈ keys y.2 → x = y
  mono : gid0 ≤ s.groupId
  fate : ∀ x ∈ T, x ∈ s.after ∨
    (x.2.isFinished = true ∧ x ∈ s.before ∧ x.1 ∉ s.removed) ∨
    (x.2.isFinished = false ∧ (hashGroupsOf X L fs p x.2).length ≤ 1 ∧
      (x.1, hashMembers X fs p x.2) ∈ s.before ∧ x.1 ∉ s.removed) ∨
    (x.2.isFinished = false ∧ (hashGroupsOf X L fs p x.2).length > 1 ∧ x.1 ∈ s.removed)
  lineage : ∀ y, s.live y → ∃ x ∈ T,
    (y = x ∧ (y ∈ s.after ∨ x.2.isFinished = true)) ∨
    (x.2.isFinished = false ∧ Advanced X fs p x.2 y.2)
  complete : ∀ x ∈ T, ∀ a ∈ keys x.2, ∀ b ∈ keys x.2, a ≠ b →
    (∀ i, hashAt X fs p a i = hashAt X fs p b i) →
    ∃ y, s.live y ∧ a ∈ keys y.2 ∧ b ∈ keys y.2


/-- A well-formed table with its id counter: distinct ids below the counter,
well-formed groups, no path in two groups. -/
structure TableOk (X : Externals) (fs : FileSystem) (p : Process)
    (T : List (Nat × FilesGroup)) (gid : Nat) : Prop where
  ids : (keys T).Nodup
  below : ∀ x ∈ T, x.1 < gid
  group : ∀ x ∈ T, ∃ k S, GroupAt X fs p k S x.2
  disjoint : ∀ x ∈ T, ∀ y ∈ T, ∀ a, a ∈ keys x.2 → a ∈ keys y.2 → x = y

/-- What one call of `nextStep` makes of a well-formed table `T`: the table
`T'` and the counter `gid'` afterwards. -/
structure StepSpec (X : Externals) (L : Layout) (fs : FileSystem) (p : Process)
    (T : List (Nat × FilesGroup)) (gid : Nat) (T' : List (Nat × FilesGroup)) (gid' : Nat) :
    Prop where
  ok : TableOk X fs p T' gid'
  mono : gid ≤ gid'
  finished : ∀ x ∈ T, x.2.isFinished = true → x ∈ T'
  kept : ∀ x ∈ T, x.2.isFinished = false → (hashGroupsOf X L fs p x.2).length ≤ 1 →
    (x.1, hashMembers X fs p x.2) ∈ T'
  split : ∀ x ∈ T, x.2.isFinished = false → (hashGroupsOf X L fs p x.2).length > 1 →
    x.1 ∉ keys T'
  lineage : ∀ y ∈ T', ∃ x ∈ T,
    (y = x ∧ x.2.isFinished = true) ∨ (x.2.isFinished = false ∧ Advanced X fs p x.2 y.2)
  complete : ∀ x ∈ T, ∀ a ∈ keys x.2, ∀ b ∈ keys x.2, a ≠ b →
    (∀ i, hashAt X fs p a i = hashAt X fs p b i) →
    ∃ y ∈ T', a ∈ keys y.2 ∧ b ∈ keys y.2

/-- Values filed under key `h` in a list of key-value pairs, in order. -/
def classOf {K α : Type} [DecidableEq K] (xs : List (K × α)) (h : K) : List α :=
  (xs.filter fun e => decide (e.1 = h)).map Prod.snd

/-- The table and the id counter after `n` calls of `nextStep`. -/
def passes (X : Externals) (L : Layout) (fs : FileSystem) (p : Process) :
    Nat → List (Nat × FilesGroup) → Nat → List (Nat × FilesGroup) × Nat
  | 0, T, gid => (T, gid)
  | n + 1, T, gid =>
    stepTable X L fs p (passes X L fs p n T gid).1 (passes X L fs p n T gid).2

/-- The largest `m_size` among the members of the groups of a table. -/
def largestSize (T : List (Nat × FilesGroup)) : Nat :=
  (T.flatMap fun group => group.2.map fun file => file.2.m_size).foldr max 0


/-- The buckets `findGroups` is given: one bucket per size, holding files of
that size, at least two different ones. -/
def InitialBuckets (fs : FileSystem) (sizeGroups : List (Nat × List Path)) : Prop :=
  (keys sizeGroups).Nodup ∧
  (∀ b ∈ sizeGroups, ∀ a ∈ b.2, fs.fileSize a = b.1) ∧
  ∀ b ∈ sizeGroups, ∃ a ∈ b.2, ∃ a' ∈ b.2, a ≠ a'

/-! ## The loops turn by turn, without rehash -/

/-- The state in which the outer loop of `nextStep` starts: the walk stands
before the first group and nothing is marked for removal. -/
def Pass.start (ps : Process × Searcher) : Pass :=
  { before := [], after := ps.2.m_filesGroups, removed := [], groupId := ps.1.groupId }

/-- One turn of the outer loop of `nextStep`: the group the walk stands on
is passed over when it is finished and hashed otherwise; at the end of the
table nothing is left to do. -/
def passTurn (X : Externals) (L : Layout) (fs : FileSystem) (p : Process) (s : Pass) : Pass :=
  match s.after with
  | [] => s
  | group :: rest =>
    if group.2.isFinished then { s with before := s.before ++ [group], after := rest }
    else visitGroup X L fs p s group rest

/-- The state of the outer loop of `nextStep` after `i` turns of the call
made in state `ps`. -/
def Searcher.midPass (X : Externals) (L : Layout) (fs : FileSystem) (ps : Process × Searcher)
    (i : Nat) : Pass :=
  (passTurn X L fs ps.1)^[i] (Pass.start ps)

/-- The entries `nextHash` is called for in one turn of the outer loop of
`nextStep`, as they are before the call: the members of the group the walk
stands on when that group is not finished, none otherwise. -/
def turnCalls (s : Pass) : List (Path × FileInfo) :=
  match s.after with
  | [] => []
  | group :: _ => if group.2.isFinished then [] else group.2

/-- The entries `nextHash` is called for in `i` turns of the outer loop of
`nextStep` from the state `s` on, in the order of the calls. -/
def passCalls (X : Externals) (L : Layout) (fs : FileSystem) (p : Process) :
    Nat → Pass → List (Path × FileInfo)
  | 0, _ => []
  | i + 1, s => turnCalls s ++ passCalls X L fs p i (passTurn X L fs p s)

/-- The entries `nextHash` is called for in `n` calls of `nextStep` from
the state `ps` on, in the order of the calls.  Each call of `nextStep` is
followed for the `passFuel` turns `stepTable` gives it. -/
def Searcher.hashCalls (X : Externals) (L : Layout) (fs : FileSystem) :
    Nat → Process × Searcher → List (Path × FileInfo)
  | 0, _ => []
  | n + 1, ps =>
    passCalls X L fs ps.1 (passFuel ps.2.m_filesGroups) (Pass.start ps)
      ++ Searcher.hashCalls X L fs n (Searcher.nextStep X L fs ps)

/-- The calls of `nextHash` made so far for the file at `path`, each with
the read position and the unread bytes of the object it was made on. -/
def callsFor (fs : FileSystem) (calls : List (Path × FileInfo)) (path : Path) :
    List (Nat × List Byte) :=
  (calls.filter fun c => decide (c.1 = path)).map fun c => (c.2.m_pos, c.2.stream fs)

/-- The reads that cover the first `k` blocks of the file at `path` once
each: block `i` is read at offset `i * blockSize` with the stream standing
at that offset. -/
def blockReads (fs : FileSystem) (blockSize : Nat) (path : Path) (k : Nat) :
    List (Nat × List Byte) :=
  (List.range k).map fun i => (i * blockSize, (fs.content path).drop (i * blockSize))

/-- The calls made so far account for the read position of every entry of
the groups that count in the pass. -/
def CallsInv (fs : FileSystem) (p : Process) (calls : List (Path × FileInfo)) (s : Pass) :
    Prop :=
  ∀ x, s.live x → ∀ e ∈ x.2,
    callsFor fs calls e.1 = blockReads fs p.blockSize e.1 (e.2.m_pos / p.blockSize)

/-- The calls made so far account for the read position of every entry of
the table. -/
def TableCalls (fs : FileSystem) (p : Process) (calls : List (Path × FileInfo))
    (T : List (Nat × FilesGroup)) : Prop :=
  ∀ x ∈ T, ∀ e ∈ x.2,
    callsFor fs calls e.1 = blockReads fs p.blockSize e.1 (e.2.m_pos / p.blockSize)

/-- The bucket counts the table takes when it grows by single insertions:
13 at the first insertion, then the next listed number when an insertion
would make the table hold more entries than it has buckets. -/
def stdBucketCounts : List Nat :=
  [13, 29, 59, 127, 257, 541, 1109, 2357, 5087, 10273, 20753, 42043, 85229, 172933, 351061]

/-- The first listed bucket count that is at least `n`. -/
def nextBucketCount (n : Nat) : Nat :=
  (stdBucketCounts.find? fun b => decide (n ≤ b)).getD n

/-- The routine `_M_insert_bucket_begin`: a node whose bucket is empty
becomes the first node of the list, any other node is put in front of the
nodes of its bucket.  The bucket of a key is the key modulo the number of
buckets. -/
def linkNode (buckets : Nat) (nodes : List (Nat × FilesGroup)) (node : Nat × FilesGroup) :
    List (Nat × FilesGroup) :=
  match nodes.findIdx? fun x => decide (x.1 % buckets = node.1 % buckets) with
  | some i => insertAt i node nodes
  | none => node :: nodes

/-- The routine `_M_rehash_aux`: the nodes are linked into the new buckets
one after the other, in the order they had. -/
def relink (buckets : Nat) (nodes : List (Nat × FilesGroup)) : List (Nat × FilesGroup) :=
  nodes.foldl (linkNode buckets) []

/-- The table `m_filesGroups`: the number of buckets, 0 as long as nothing
has been inserted, and the nodes in iteration order. -/
structure StdTable where
  buckets : Nat
  nodes : List (Nat × FilesGroup)

/-- The statement `m_filesGroups[id] = std::move(group)`.  A key that is
present has its value overwritten.  A new key is linked into its bucket,
after a rehash when the table holds as many entries as it has buckets: the
number of buckets then goes to the next listed count that is at least twice
the old one (13 for the first insertion) and all nodes are linked anew
(`_M_need_rehash`, `_M_insert_unique_node`). -/
def StdTable.assign (t : StdTable) (id : Nat) (group : FilesGroup) : StdTable :=
  if id ∈ keys t.nodes then
    { t with nodes := put t.nodes id group }
  else if t.nodes.length + 1 > t.buckets then
    let least := if t.buckets = 0 then max (t.nodes.length + 1) 11 else t.nodes.length + 1
    let buckets := nextBucketCount (max (least + 1) (2 * max t.buckets 1))
    { buckets := buckets, nodes := linkNode buckets (relink buckets t.nodes) (id, group) }
  else
    { t with nodes := linkNode t.buckets t.nodes (id, group) }

/-- The key of the node that follows the node with key `id`: where `++it`
takes an iterator that stands on that node. -/
def nodeAfter (nodes : List (Nat × FilesGroup)) (id : Nat) : Option Nat :=
  match nodes.dropWhile fun x => !decide (x.1 = id) with
  | _ :: y :: _ => some y.1
  | _ => none

/-- The state of one call of `nextStep` between two turns of its outer
loop: the table, the set `removed`, the id counter, the entries `nextHash`
has been called for so far in the run (in the order of the calls, each as it
was before the call), and the key of the node the iterator stands on,
`none` when it is past the end. -/
structure StdPass where
  table : StdTable
  removed : List Nat
  groupId : Nat
  calls : List (Path × FileInfo)
  cursor : Option Nat

/-- The body of the loop over `hashGroups` in `nextStep`, for the group
under the key `id`. -/
def stdSplitOne (L : Layout) (id : Nat) (s : StdPass) (hashGroup : String × List Path) :
    StdPass :=
  if hashGroup.2.length > 1 then
    let moved := moveMembers L hashGroup.2 (getD [] s.table.nodes id)
    let table : StdTable := { s.table with nodes := put s.table.nodes id moved.2 }
    { s with table := table.assign s.groupId moved.1, groupId := s.groupId + 1 }
  else s

/-- The body of the outer loop of `nextStep` for the node with key `id`. -/
def stdVisit (X : Externals) (L : Layout) (fs : FileSystem) (p : Process) (s : StdPass)
    (id : Nat) : StdPass :=
  let group : FilesGroup := getD [] s.table.nodes id
  if group.isFinished then s
  else
    let hashGroups := hashGroupsOf X L fs p group
    let s1 : StdPass :=
      { s with table := { s.table with nodes := put s.table.nodes id (hashMembers X fs p group) },
               calls := s.calls ++ group }
    if hashGroups.length > 1 then
      hashGroups.foldl (stdSplitOne L id) { s1 with removed := id :: s1.removed }
    else s1

/-- One turn of the outer loop of `nextStep`: the body for the node the
iterator stands on, then `++it` on the list as the body left it. -/
def stdTurn (X : Externals) (L : Layout) (fs : FileSystem) (p : Process) (s : StdPass) :
    StdPass :=
  match s.cursor with
  | none => s
  | some id =>
    let s1 := stdVisit X L fs p s id
    { s1 with cursor := nodeAfter s1.table.nodes id }

/-- The outer loop of `nextStep`, at most `fuel` turns of it (counting the
final test): `none` when the turns do not suffice. -/
def stdPassLoop (X : Externals) (L : Layout) (fs : FileSystem) (p : Process) :
    Nat → StdPass → Option StdPass
  | 0, _ => none
  | fuel + 1, s =>
    match s.cursor with
    | none => some s
    | some _ => stdPassLoop X L fs p fuel (stdTurn X L fs p s)

/-- The state of a run between two calls of `nextStep`: the process, the
object, the number of buckets of `m_filesGroups`, and the entries `nextHash`
has been called for so far. -/
structure StdRun where
  process : Process
  searcher : Searcher
  buckets : Nat
  calls : List (Path × FileInfo)

/-- The state in which a call of `nextStep` enters its outer loop: the
iterator stands on the first node. -/
def StdPass.start (r : StdRun) : StdPass :=
  { table := { buckets := r.buckets, nodes := r.searcher.m_filesGroups },
    removed := [],
    groupId := r.process.groupId,
    calls := r.calls,
    cursor := r.searcher.m_filesGroups.head?.map Prod.fst }

/-- The function `Searcher::nextStep`: the outer loop, cut after `fuel`
turns, then `erase` of the ids marked for removal, which unlinks their
nodes and leaves the other nodes and the buckets as they are. -/
def stdNextStep (X : Externals) (L : Layout) (fs : FileSystem) (fuel : Nat) (r : StdRun) :
    Option StdRun :=
  match stdPassLoop X L fs r.process fuel (StdPass.start r) with
  | some s =>
    some { process := { r.process with groupId := s.groupId },
           searcher := { r.searcher with
             m_filesGroups := erase s.table.nodes (fun item => decide (item.1 ∈ s.removed)) },
           buckets := s.table.buckets,
           calls := s.calls }
  | none => none

/-- The loop of `findGroups` on the table and the id counter. -/
def stdFillGroups (L : Layout) (fs : FileSystem) (sizeGroups : List (Nat × List Path))
    (table : StdTable) (groupId : Nat) : StdTable × Nat :=
  sizeGroups.foldl
    (fun acc sizeGroup => (acc.1.assign acc.2 (makeGroup L fs sizeGroup.2), acc.2 + 1))
    (table, groupId)

/-- The function `Searcher::findGroups` on an object whose table has not
been used yet. -/
def stdFindGroups (X : Externals) (L : Layout) (fs : FileSystem) (p : Process) (s : Searcher) :
    StdRun :=
  let r := stdFillGroups L fs (s.groupBySize X L fs s.m_recursiveLevel)
    { buckets := 0, nodes := s.m_filesGroups } p.groupId
  { process := { p with groupId := r.2 },
    searcher := { s with m_filesGroups := r.1.nodes },
    buckets := r.1.buckets,
    calls := [] }

/-- The loop `while (!allFinished()) nextStep();` with at most `passes`
calls of `nextStep`, each with `fuel` turns: `none` when the loop is still
running after them. -/
def stdFindLoop (X : Externals) (L : Layout) (fs : FileSystem) (fuel : Nat) :
    Nat → StdRun → Option StdRun
  | 0, r => if allFinished r.searcher.m_filesGroups then some r else none
  | passes + 1, r =>
    if allFinished r.searcher.m_filesGroups then some r
    else
      match stdNextStep X L fs fuel r with
      | some r1 => stdFindLoop X L fs fuel passes r1
      | none => none

/-- The function `Searcher::find` on an object whose table has not been
used yet. -/
def stdFind (X : Externals) (L : Layout) (fs : FileSystem) (fuel passes : Nat) (p : Process)
    (s : Searcher) : Option StdRun :=
  stdFindLoop X L fs fuel passes (stdFindGroups X L fs p s)

/-- The calls `nextStep(); ... nextStep();`, `n` of them, each with `fuel`
turns of its outer loop. -/
def stdPasses (X : Externals) (L : Layout) (fs : FileSystem) (fuel : Nat) :
    Nat → StdRun → Option StdRun
  | 0, r => some r
  | n + 1, r => (stdPasses X L fs fuel n r).bind (stdNextStep X L fs fuel)

/-! ## Invariants of the walk over the table of the GNU C++ library -/

/-- A group whose members stand at the position `pos` and have the size
`size`: it has a member, and its paths are distinct. -/
def Level (pos size : Nat) (g : FilesGroup) : Prop :=
  g ≠ [] ∧ (keys g).Nodup ∧ ∀ e ∈ g, e.2.m_pos = pos ∧ e.2.m_size = size

/-- What holds of the table in every state of a run, whatever the order in
which the walk meets the groups: the ids are distinct and below the id
counter, and the members of a group stand at one position and have one
size. -/
structure StdOk (nodes : List (Nat × FilesGroup)) (groupId : Nat) : Prop where
  ids : (keys nodes).Nodup
  below : ∀ x ∈ nodes, x.1 < groupId
  level : ∀ x ∈ nodes, ∃ pos size, Level pos size x.2

/-- The number of blocks an object that stands at `pos` in a file of `size`
bytes has still to read. -/
def remaining (blockSize pos size : Nat) : Nat :=
  (size - pos + blockSize - 1) / blockSize

/-- The weight of a group in the count that bounds a run: a group of `n`
members that have `r` blocks to read is hashed at most `r` times, and what
is hashed after it in its place, the group itself and the groups split off
from it, has at most `2 * n` members that have `r - 1` blocks to read. -/
def weight (blockSize : Nat) (g : FilesGroup) : Nat :=
  match g with
  | [] => 0
  | e :: _ => g.length * 3 ^ remaining blockSize e.2.m_pos e.2.m_size

/-- The sum of the weights of the groups of a table. -/
def potential (blockSize : Nat) (nodes : List (Nat × FilesGroup)) : Nat :=
  (nodes.map fun x => weight blockSize x.2).sum

/-- What the loop over `hashGroups` for the node with key `id`, whose
members stand at `pos` and have `size` bytes, has made of the state `s`
when it has added `added` to the weight of the table. -/
structure SplitSpec (blockSize id pos size : Nat) (s s' : StdPass) (added : Nat) : Prop where
  ok : StdOk s'.table.nodes s'.groupId
  here : id ∈ keys s'.table.nodes
  level : Level pos size (getD [] s'.table.nodes id)
  paths : ∀ a, a ∈ keys (getD [] s'.table.nodes id) ↔ a ∈ keys (getD [] s.table.nodes id)
  length : (getD [] s'.table.nodes id).length = (getD [] s.table.nodes id).length
  mono : s.groupId ≤ s'.groupId
  removed : s'.removed = s.removed
  calls : s'.calls = s.calls
  cursor : s'.cursor = s.cursor
  kept : ∀ x ∈ s.table.nodes, x.1 ≠ id → x ∈ s'.table.nodes
  origin : ∀ x ∈ s'.table.nodes, x.1 = id ∨ x ∈ s.table.nodes ∨
    (s.groupId ≤ x.1 ∧ ∀ a ∈ keys x.2, a ∈ keys (getD [] s.table.nodes id))
  potential : potential blockSize s'.table.nodes = potential blockSize s.table.nodes + added

/-- The number of nodes from the node of the iterator to the end of the
list: the turns the walk still takes when nothing is inserted. -/
def ahead (nodes : List (Nat × FilesGroup)) (cursor : Option Nat) : Nat :=
  match cursor with
  | none => 0
  | some id => (nodes.dropWhile fun x => !decide (x.1 = id)).length

/-- What the body of the outer loop of `nextStep` for the node with key
`id` makes of the state `s`. -/
structure VisitSpec (blockSize id : Nat) (s s' : StdPass) : Prop where
  ok : StdOk s'.table.nodes s'.groupId
  here : id ∈ keys s'.table.nodes
  mono : s.groupId ≤ s'.groupId
  cursor : s'.cursor = s.cursor
  paths : ∀ a, a ∈ keys (getD [] s'.table.nodes id) ↔ a ∈ keys (getD [] s.table.nodes id)
  kept : ∀ x ∈ s.table.nodes, x.1 ≠ id → x ∈ s'.table.nodes
  origin : ∀ x ∈ s'.table.nodes, x.1 = id ∨ x ∈ s.table.nodes ∨
    (s.groupId ≤ x.1 ∧ ∀ a ∈ keys x.2, a ∈ keys (getD [] s.table.nodes id))
  skip : FilesGroup.isFinished (getD [] s.table.nodes id) = true → s' = s
  hashed : FilesGroup.isFinished (getD [] s.table.nodes id) = false →
    potential blockSize s'.table.nodes < potential blockSize s.table.nodes ∧
    (∀ i ∈ s'.removed, i ∈ s.removed ∨ i = id) ∧
    s'.calls = s.calls ++ getD [] s.table.nodes id

/-- What the outer loop of `nextStep` keeps true of its state: the table is
well formed and the iterator stands on a node of the table or past the
end. -/
structure PassOk (s : StdPass) : Prop where
  ok : StdOk s.table.nodes s.groupId
  cursor : ∀ id, s.cursor = some id → id ∈ keys s.table.nodes

/-- What holds of the state of a run between two calls of `nextStep`: the
table is well formed and the block size is the one the run started
with. -/
structure RunOk (blockSize : Nat) (r : StdRun) : Prop where
  ok : StdOk r.searcher.m_filesGroups r.process.groupId
  blockSize : r.process.blockSize = blockSize

/-- A group that is not finished is still on the way of the iterator. -/
def Unmet (nodes : List (Nat × FilesGroup)) (cursor : Option Nat) : Prop :=
  ∃ id, cursor = some id ∧
    ∃ x ∈ nodes.dropWhile (fun x => !decide (x.1 = id)), FilesGroup.isFinished x.2 = false

/-- What the outer loop of `nextStep` keeps true of a finished group `x0`
that holds every file of length 0 of the table: it is in the table, its id
is not marked for removal, and no other group holds a file of length 0. -/
structure Aside (fs : FileSystem) (x0 : Nat × FilesGroup) (nodes : List (Nat × FilesGroup))
    (removed : List Nat) : Prop where
  here : x0 ∈ nodes
  alive : x0.1 ∉ removed
  apart : ∀ y ∈ nodes, y = x0 ∨ ∀ a ∈ keys y.2, fs.fileSize a ≠ 0

/-! ## Sample data -/

/-- One byte of CRC-32 (reflected polynomial `0xEDB88320`), bit by bit. -/
def crc32Byte (crc : Nat) (b : Byte) : Nat :=
  (List.range 8).foldl
    (fun c _ => if c % 2 = 1 then Nat.xor (c / 2) 0xEDB88320 else c / 2)
    (Nat.xor crc (b % 256))

/-- The checksum `boost::crc_32_type` computes. -/
def crc32Sum (bytes : List Byte) : Nat :=
  Nat.xor (bytes.foldl crc32Byte 0xFFFFFFFF) 0xFFFFFFFF

/-- Library routines for the examples: CRC-32 printed in decimal as
`FileInfo::crc32` does; in place of MD5 the bytes written out, which tells
any two chunks apart; a pattern that matches every name. -/
def sampleExternals : Externals :=
  { md5 := fun chunk => toString chunk
    crc32 := fun chunk => toString (crc32Sum chunk)
    regexMatch := fun _ _ => true
    filename := fun path => path }

/-- A layout that puts every new key first. -/
def frontLayout : Layout :=
  { sizeSlot := fun _ _ => 0, groupSlot := fun _ _ => 0,
    fileSlot := fun _ _ => 0, hashSlot := fun _ _ => 0 }

/-- A layout that puts every new key last. -/
def backLayout : Layout :=
  { sizeSlot := fun _ ks => ks.length, groupSlot := fun _ ks => ks.length,
    fileSlot := fun _ ks => ks.length, hashSlot := fun _ ks => ks.length }

/-- Two directories with one file each; the files have the same five bytes. -/
def fsTwoDirs : FileSystem :=
  { content := fun path => if path = "d1/a" ∨ path = "d2/b" then [1, 2, 3, 4, 5] else []
    children := fun path =>
      if path = "d1" then ["d1/a"] else if path = "d2" then ["d2/b"] else []
    isDirectory := fun path => decide (path = "d1" ∨ path = "d2")
    isRegularFile := fun path => decide (path = "d1/a" ∨ path = "d2/b") }

/-- A searcher over `d1;d2` with the default options of `main`. -/
def searcherTwoDirs : Searcher :=
  { m_includeDirs := ["d1", "d2"], m_excludeDirs := [], m_recursiveLevel := 0,
    m_minSize := 1, m_filter := "", m_filesGroups := [] }

/-- A file object whose stream has one byte left, at the last block of a
three-byte file. -/
def fileShortTail : FileInfo :=
  { m_ifs := some [0x61], m_pos := 2, m_hash := "", m_path := "f", m_size := 3 }

/-- A disk on which `f` holds three bytes. -/
def fsShortTail : FileSystem :=
  { content := fun path => if path = "f" then [0x78, 0x79, 0x61] else []
    children := fun _ => []
    isDirectory := fun _ => false
    isRegularFile := fun path => decide (path = "f") }

/-- The directory `d` with three files of 20 bytes: `d/A` and `d/B` are
equal, `d/C` differs from them in its second block of ten. -/
def fsThree : FileSystem :=
  { content := fun path =>
      if path = "d/A" ∨ path = "d/B" then List.replicate 20 1
      else if path = "d/C" then List.replicate 10 1 ++ List.replicate 10 2
      else []
    children := fun path => if path = "d" then ["d/A", "d/B", "d/C"] else []
    isDirectory := fun path => decide (path = "d")
    isRegularFile := fun path => decide (path = "d/A" ∨ path = "d/B" ∨ path = "d/C") }

/-- A searcher over `d` with the default options of `main`. -/
def searcherThree : Searcher :=
  { m_includeDirs := ["d"], m_excludeDirs := [], m_recursiveLevel := 0,
    m_minSize := 1, m_filter := "", m_filesGroups := [] }

/-- The directory `e` with two equal files of ten bytes. -/
def fsPair : FileSystem :=
  { content := fun path => if path = "e/X" ∨ path = "e/Y" then List.replicate 10 7 else []
    children := fun path => if path = "e" then ["e/X", "e/Y"] else []
    isDirectory := fun path => decide (path = "e")
    isRegularFile := fun path => decide (path = "e/X" ∨ path = "e/Y") }

/-- The bucket `groupBySize` finds in `e`. -/
def bucketsPair : List (Nat × List Path) := [(10, ["e/X", "e/Y"])]

/-- Five files of two bytes: `A` and `D` hold `1 1`, `B` and `E` hold `1 2`,
`C` holds `2 2`. -/
def fsFive : FileSystem :=
  { content := fun path =>
      if path = "A" ∨ path = "D" then [1, 1]
      else if path = "B" ∨ path = "E" then [1, 2]
      else if path = "C" then [2, 2]
      else []
    children := fun _ => []
    isDirectory := fun _ => false
    isRegularFile := fun path => decide (path ∈ ["A", "B", "C", "D", "E"]) }

/-- The five files in one bucket. -/
def bucketsFive : List (Nat × List Path) := [(2, ["A", "B", "C", "D", "E"])]

/-- The process with blocks of one byte. -/
def processOne : Process := { Process.start with blockSize := 1 }

/-- The run over the directory `d` after `findGroups` and `n` calls of
`nextStep`. -/
def stateThree (n : Nat) : Process × Searcher :=
  (Searcher.nextStep sampleExternals backLayout fsThree)^[n]
    (searcherThree.findGroups sampleExternals backLayout fsThree Process.start)

/-- The first group of the table of `stateThree n`. -/
def groupThree (n : Nat) : Nat × FilesGroup :=
  (stateThree n).2.m_filesGroups.headD (0, [])

/-- The last entry of `groupThree n`. -/
def lastThree (n : Nat) : Path × FileInfo :=
  (groupThree n).2.getLastD ("", FileInfo.default)

/-- The directory `z` with two empty files and two equal files of three
bytes. -/
def fsZero : FileSystem :=
  { content := fun path => if path = "z/c" ∨ path = "z/d" then [1, 2, 3] else []
    children := fun path => if path = "z" then ["z/a", "z/b", "z/c", "z/d"] else []
    isDirectory := fun path => decide (path = "z")
    isRegularFile := fun path => decide (path ∈ ["z/a", "z/b", "z/c", "z/d"]) }

/-- A searcher over `z` with a minimum file size of 0. -/
def searcherZero : Searcher :=
  { m_includeDirs := ["z"], m_excludeDirs := [], m_recursiveLevel := 0,
    m_minSize := 0, m_filter := "", m_filesGroups := [] }

/-- The directory `q` with the five files of `fsFive`. -/
def fsQuint : FileSystem :=
  { content := fun path =>
      if path = "q/A" ∨ path = "q/D" then [1, 1]
      else if path = "q/B" ∨ path = "q/E" then [1, 2]
      else if path = "q/C" then [2, 2]
      else []
    children := fun path => if path = "q" then ["q/A", "q/B", "q/C", "q/D", "q/E"] else []
    isDirectory := fun path => decide (path = "q")
    isRegularFile := fun path => decide (path ∈ ["q/A", "q/B", "q/C", "q/D", "q/E"]) }

/-- A searcher over `q` with the default options of `main`. -/
def searcherQuint : Searcher :=
  { m_includeDirs := ["q"], m_excludeDirs := [], m_recursiveLevel := 0,
    m_minSize := 1, m_filter := "", m_filesGroups := [] }

/-- A disk given by its directories, each with the files the directory
iterator yields for it, in its order, and their bytes.  A path that is not
listed has no bytes. -/
def diskOf (dirs : List (Path × List (Path × List Byte))) : FileSystem :=
  { content := fun path => getD [] (dirs.flatMap Prod.snd) path
    children := fun path => keys (getD [] dirs path)
    isDirectory := fun path => decide (path ∈ keys dirs)
    isRegularFile := fun path => decide (path ∈ keys (dirs.flatMap Prod.snd)) }

/-- The files `dir/<i>a`, `dir/<i>b`, `dir/<i>c` with the given bytes. -/
def triple (dir : Path) (i : Nat) (a b c : List Byte) : List (Path × List Byte) :=
  [(dir ++ "/" ++ toString i ++ "a", a), (dir ++ "/" ++ toString i ++ "b", b),
   (dir ++ "/" ++ toString i ++ "c", c)]

/-- The process with blocks of 13 bytes. -/
def processThirteen : Process := { Process.start with blockSize := 13 }

/-- A searcher over `t` with the default options of `main`. -/
def searcherT : Searcher :=
  { m_includeDirs := ["t"], m_excludeDirs := [], m_recursiveLevel := 0,
    m_minSize := 1, m_filter := "", m_filesGroups := [] }

/-- The directory `t` with thirteen sizes of files, 1 to 13 bytes, three
files of each: `a` and `b` hold ones, `c` holds twos. -/
def fsThirteen : FileSystem :=
  diskOf [("t", (List.range 13).flatMap fun i =>
    triple "t" i (List.replicate (i + 1) 1) (List.replicate (i + 1) 1)
      (List.replicate (i + 1) 2))]

/-- The directory `t` with twelve sizes of files, 14 to 25 bytes, three
files of each: `a` holds ones, `b` holds thirteen ones and then threes, `c`
holds twos.  With blocks of 13 bytes `a` and `b` agree in the first block
and differ in the second, `c` differs from both in the first. -/
def fsTwelve : FileSystem :=
  diskOf [("t", (List.range 12).flatMap fun i =>
    triple "t" i (List.replicate (i + 14) 1)
      (List.replicate 13 1 ++ List.replicate (i + 1) 3) (List.replicate (i + 14) 2))]

/-- The directory `t` with thirteen sizes of files, 14 to 26 bytes: two
equal files of each size but 20 bytes, and three files of 20 bytes, of which
`a` and `b` are equal and `c` differs from them in every byte.  The files of
20 bytes are the seventh size the directory iterator yields. -/
def fsAgreeing : FileSystem :=
  diskOf [("t", (List.range 13).flatMap fun i =>
    (triple "t" i (List.replicate (i + 14) 1) (List.replicate (i + 14) 1)
      (List.replicate (i + 14) 2)).take (if i = 6 then 3 else 2))]

/-- The directory `d1` with twelve sizes of files, 1 to 12 bytes, three
files of each (`a` and `b` hold ones, `c` holds twos), and the directory
`d2` with two equal files of 13 bytes. -/
def fsBlockSized : FileSystem :=
  diskOf [("d1", (List.range 12).flatMap fun i =>
      triple "d1" i (List.replicate (i + 1) 1) (List.replicate (i + 1) 1)
        (List.replicate (i + 1) 2)),
    ("d2", [("d2/x", List.replicate 13 7), ("d2/y", List.replicate 13 7)])]

/-- A searcher over `d1;d2` with the default options of `main`. -/
def searcherBlockSized : Searcher :=
  { m_includeDirs := ["d1", "d2"], m_excludeDirs := [], m_recursiveLevel := 0,
    m_minSize := 1, m_filter := "", m_filesGroups := [] }

/-- The files of `fsOddFirst` and `fsOddLast`: three files of 14 bytes, of
which `t/Pa` and `t/Pb` agree in the first 13 bytes and differ in the last
and `t/Pc` differs from both in every byte. -/
def oddFiles : List (Path × List Byte) :=
  [("t/Pa", List.replicate 14 1), ("t/Pb", List.replicate 13 1 ++ [3]),
   ("t/Pc", List.replicate 14 2)]

/-- The other files of `fsOddFirst` and `fsOddLast`: eleven sizes, 2 to 12
bytes, three files of each (`a` and `b` hold ones, `c` holds twos). -/
def evenFiles : List (Path × List Byte) :=
  (List.range 11).flatMap fun i =>
    triple "t" i (List.replicate (i + 2) 1) (List.replicate (i + 2) 1)
      (List.replicate (i + 2) 2)

/-- The directory `t` with the files of 14 bytes listed first. -/
def fsOddFirst : FileSystem := diskOf [("t", oddFiles ++ evenFiles)]

/-- The directory `t` with the same files, those of 14 bytes listed last. -/
def fsOddLast : FileSystem := diskOf [("t", evenFiles ++ oddFiles)]

/-- The run of a searcher on a sample disk with blocks of 13 bytes, after
`findGroups` and `n` calls of `nextStep`, each with 100 turns. -/
def sampleRun (L : Layout) (fs : FileSystem) (s : Searcher) (n : Nat) : Option StdRun :=
  stdPasses sampleExternals L fs 100 n (stdFindGroups sampleExternals L fs processThirteen s)

/-- The table of a state: per group its id and per member the path and
`m_pos`. -/
def positions (r : StdRun) : List (Nat × List (Path × Nat)) :=
  r.searcher.m_filesGroups.map fun x => (x.1, x.2.map fun e => (e.1, e.2.m_pos))

/-- The paths of the groups of a table, in its order. -/
def pathSets (r : StdRun) : List (List Path) :=
  r.searcher.m_filesGroups.map fun x => keys x.2

/-! ## Properties -/

/-- C5: `setBlockSize 0` throws and leaves the process as it was,
`setBlockSize v` for `v ≥ 1` succeeds and stores `v`; the constructor of
`Searcher` with block size 0 throws with the block size unchanged, and the
`try` block of `main` then only prints the message: no search is run,
whatever the disk and however many passes are allowed. -/
theorem setBlockSize_contract (p : Process) :
    FileInfo.setBlockSize 0 p
        = (p, Except.error "Block size must be greater or equal to 1 byte") ∧
    (∀ v : Nat, 1 ≤ v →
      FileInfo.setBlockSize v p = ({ p with blockSize := v }, Except.ok ())) ∧
    (∀ (incl excl : List Path) (level : Int) (checkSum filter : String) (minSize : Nat),
      ∃ p1 e, Searcher.construct p incl excl level checkSum 0 filter minSize
          = (p1, Except.error e) ∧
        p1.blockSize = p.blockSize ∧
        ∀ (X : Externals) (L : Layout) (fs : FileSystem) (fuel : Nat),
          runSearch X L fs fuel p incl excl level checkSum 0 filter minSize
            = some { p1 with cout := p1.cout ++ [e] }) := by
  refine ⟨by simp [FileInfo.setBlockSize], ?_, ?_⟩
  · intro v hv
    have : v > 0 := hv
    simp [FileInfo.setBlockSize, this]
  · intro incl excl level checkSum filter minSize
    refine ⟨if checkSum = "crc32" then FileInfo.setChecksum Checksum.crc32 p
        else if checkSum = "md5" then FileInfo.setChecksum Checksum.md5 p
        else { p with cout := p.cout ++ ["checksum unknown option, md5 will used"] },
      "Block size must be greater or equal to 1 byte", ?_, ?_, ?_⟩
    · simp [Searcher.construct, FileInfo.setBlockSize]
    · split_ifs <;> rfl
    · intro X L fs fuel
      simp [runSearch, Searcher.construct, FileInfo.setBlockSize]

/-- C5, at block size 4096 from the start of the process. -/
theorem setBlockSize_contract_witness :
    FileInfo.setBlockSize 4096 Process.start
      = ({ Process.start with blockSize := 4096 }, Except.ok ()) :=
  (setBlockSize_contract Process.start).2.1 4096 (by decide)

/-- C6: with `crc32` in force from an earlier construction, the constructor
given the unknown name `sha1` announces md5, succeeds, and leaves `crc32`
selected: the next chunk is hashed with CRC-32. -/
theorem construct_unknown_name_keeps_crc32 :
    (Searcher.construct
        (Searcher.construct Process.start ["d1"] [] 0 "crc32" 10 "" 1).1
        ["d1"] [] 0 "sha1" 10 "" 1).1.checkSum = Checksum.crc32 ∧
    (Searcher.construct
        (Searcher.construct Process.start ["d1"] [] 0 "crc32" 10 "" 1).1
        ["d1"] [] 0 "sha1" 10 "" 1).1.cout = ["checksum unknown option, md5 will used"] ∧
    (∃ s, (Searcher.construct
        (Searcher.construct Process.start ["d1"] [] 0 "crc32" 10 "" 1).1
        ["d1"] [] 0 "sha1" 10 "" 1).2 = Except.ok s) ∧
    ∀ (X : Externals) (chunk : List Byte),
      digest X (Searcher.construct
        (Searcher.construct Process.start ["d1"] [] 0 "crc32" 10 "" 1).1
        ["d1"] [] 0 "sha1" 10 "" 1).1.checkSum chunk = X.crc32 chunk := by
  refine ⟨by decide, by decide, ⟨_, rfl⟩, ?_⟩
  intro X chunk
  rfl

/-- C7 as stated fails: with CRC-32 and block size 2, a stream with the one
byte `0x61` left yields the checksum of the two bytes `0x61 0x00`, not that
of the one byte available. -/
theorem nextHash_short_read_not_unpadded :
    (fileShortTail.stream fsShortTail).length = 1 ∧
    (fileShortTail.nextHash sampleExternals fsShortTail
        { Process.start with blockSize := 2, checkSum := Checksum.crc32 }).1
      = sampleExternals.crc32 [0x61, 0] ∧
    (fileShortTail.nextHash sampleExternals fsShortTail
        { Process.start with blockSize := 2, checkSum := Checksum.crc32 }).1
      ≠ digest sampleExternals Checksum.crc32 (fileShortTail.stream fsShortTail) := by
  decide

/-- C7, amended: when `r` bytes are left, `0 < r < blockSize`, `nextHash`
returns the configured checksum of a buffer of `blockSize` bytes, the `r`
bytes followed by `blockSize - r` zero bytes. -/
theorem nextHash_short_read_padded (X : Externals) (fs : FileSystem) (p : Process)
    (f : FileInfo) (r : Nat) (hpos : f.m_pos + r = f.m_size)
    (hlen : (f.stream fs).length = r) (h0 : 0 < r) (hr : r < p.blockSize) :
    (f.nextHash X fs p).1
      = digest X p.checkSum (f.stream fs ++ List.replicate (p.blockSize - r) 0) := by
  have hle : ¬ f.m_pos > f.m_size := by omega
  have htake : (f.stream fs).take p.blockSize = f.stream fs :=
    List.take_of_length_le (by omega)
  simp [FileInfo.nextHash, hle, readChunk, htake, hlen]

/-- C7 amended, on the last byte of a three-byte file with blocks of two. -/
theorem nextHash_short_read_padded_witness :
    (fileShortTail.nextHash sampleExternals fsShortTail
        { Process.start with blockSize := 2, checkSum := Checksum.crc32 }).1
      = digest sampleExternals Checksum.crc32
          (fileShortTail.stream fsShortTail ++ List.replicate (2 - 1) 0) :=
  nextHash_short_read_padded sampleExternals fsShortTail
    { Process.start with blockSize := 2, checkSum := Checksum.crc32 }
    fileShortTail 1 (by decide) (by decide) (by decide) (by decide)

/-- C2: with include directories `d1;d2`, each holding one file of five
bytes that passes every filter, `groupBySize` returns no bucket at all,
although size 5 has two candidates. -/
theorem groupBySize_misses_pair_across_directories :
    searcherTwoDirs.isCandidate sampleExternals fsTwoDirs "d1/a" = true ∧
    searcherTwoDirs.isCandidate sampleExternals fsTwoDirs "d2/b" = true ∧
    fsTwoDirs.fileSize "d1/a" = 5 ∧ fsTwoDirs.fileSize "d2/b" = 5 ∧
    walk fsTwoDirs [] 1 "d1" = ["d1/a"] ∧ walk fsTwoDirs [] 1 "d2" = ["d2/b"] ∧
    searcherTwoDirs.groupBySize sampleExternals backLayout fsTwoDirs 0 = [] := by
  decide

section UMapLemmas

variable {K V : Type} [DecidableEq K]

theorem insertAt_perm {α : Type} (n : Nat) (x : α) (l : List α) :
    (insertAt n x l).Perm (x :: l) := by
  unfold insertAt
  have h : (l.take n ++ x :: l.drop n).Perm (x :: (l.take n ++ l.drop n)) :=
    List.perm_middle
  simpa [List.take_append_drop] using h

theorem mem_insertAt {α : Type} {n : Nat} {x a : α} {l : List α} :
    a ∈ insertAt n x l ↔ a = x ∨ a ∈ l := by
  rw [(insertAt_perm n x l).mem_iff, List.mem_cons]

theorem length_insertAt {α : Type} (n : Nat) (x : α) (l : List α) :
    (insertAt n x l).length = l.length + 1 := by
  rw [(insertAt_perm n x l).length_eq, List.length_cons]

theorem keys_insertAt (n : Nat) (k : K) (v : V) (m : List (K × V)) :
    keys (insertAt n (k, v) m) = insertAt n k (keys m) := by
  simp [keys, insertAt, List.map_take, List.map_drop]

theorem keys_insertAt_perm (n : Nat) (k : K) (v : V) (m : List (K × V)) :
    (keys (insertAt n (k, v) m)).Perm (k :: keys m) := by
  rw [keys_insertAt]
  exact insertAt_perm n k (keys m)

theorem mem_keys_iff {m : List (K × V)} {k : K} : k ∈ keys m ↔ ∃ v, (k, v) ∈ m := by
  simp [keys]

theorem mem_keys_of_mem {m : List (K × V)} {e : K × V} (h : e ∈ m) : e.1 ∈ keys m :=
  List.mem_map_of_mem Prod.fst h

theorem keys_put (m : List (K × V)) (k : K) (v : V) : keys (put m k v) = keys m := by
  unfold keys put
  rw [List.map_map]
  apply List.map_congr_left
  intro e _
  by_cases h : e.1 = k <;> simp [h]

theorem length_put (m : List (K × V)) (k : K) (v : V) : (put m k v).length = m.length := by
  simp [put]

theorem mem_put {m : List (K × V)} {k : K} {v : V} {e : K × V} :
    e ∈ put m k v ↔ (e = (k, v) ∧ k ∈ keys m) ∨ (e ∈ m ∧ e.1 ≠ k) := by
  unfold put
  rw [List.mem_map]
  constructor
  · rintro ⟨a, ha, rfl⟩
    by_cases h : a.1 = k
    · left
      simp only [h, if_true]
      exact ⟨trivial, h ▸ mem_keys_of_mem ha⟩
    · right
      simp only [h, if_false]
      exact ⟨ha, h⟩
  · rintro (⟨rfl, hk⟩ | ⟨he, hne⟩)
    · obtain ⟨w, hw⟩ := mem_keys_iff.1 hk
      exact ⟨(k, w), hw, by simp⟩
    · exact ⟨e, he, by simp [hne]⟩

theorem put_of_not_mem {m : List (K × V)} {k : K} {v : V} (h : k ∉ keys m) :
    put m k v = m := by
  unfold put
  conv_rhs => rw [← List.map_id m]
  apply List.map_congr_left
  intro e he
  have : e.1 ≠ k := fun hk => h (hk ▸ mem_keys_of_mem he)
  simp [this]

theorem getD_of_mem {d : V} {m : List (K × V)} {k : K} {v : V}
    (hn : (keys m).Nodup) (h : (k, v) ∈ m) : getD d m k = v := by
  induction m with
  | nil => cases h
  | cons a m ih =>
    unfold getD
    rw [List.find?_cons]
    by_cases ha : a.1 = k
    · simp only [ha, decide_True]
      rcases List.mem_cons.1 h with h1 | h1
      · rw [← h1]
      · exfalso
        have hn' : a.1 ∉ keys m := (List.nodup_cons.1 hn).1
        exact hn' (ha ▸ mem_keys_of_mem h1)
    · simp only [ha, decide_False]
      rcases List.mem_cons.1 h with h1 | h1
      · exact absurd (by rw [← h1]) ha
      · exact ih (List.nodup_cons.1 hn).2 h1

theorem getD_of_not_mem {d : V} {m : List (K × V)} {k : K} (h : k ∉ keys m) :
    getD d m k = d := by
  unfold getD
  have : m.find? (fun e => decide (e.1 = k)) = none := by
    rw [List.find?_eq_none]
    intro e he
    have : e.1 ≠ k := fun hk => h (hk ▸ mem_keys_of_mem he)
    simp [this]
  rw [this]

theorem subscript_of_mem {slot : K → List K → Nat} {d : V} {m : List (K × V)} {k : K}
    (h : k ∈ keys m) : subscript slot d m k = m := by
  simp [subscript, h]

theorem subscript_perm_of_not_mem (slot : K → List K → Nat) (d : V) {m : List (K × V)} {k : K}
    (h : k ∉ keys m) : (subscript slot d m k).Perm ((k, d) :: m) := by
  simp only [subscript, h, if_false]
  exact insertAt_perm _ _ _

theorem mem_keys_subscript {slot : K → List K → Nat} {d : V} {m : List (K × V)} {k a : K} :
    a ∈ keys (subscript slot d m k) ↔ a = k ∨ a ∈ keys m := by
  by_cases h : k ∈ keys m
  · rw [subscript_of_mem h]
    constructor
    · exact Or.inr
    · rintro (rfl | h') <;> assumption
  · have hp := (subscript_perm_of_not_mem slot d h).map Prod.fst
    unfold keys
    rw [hp.mem_iff]
    simp

theorem nodup_keys_subscript {slot : K → List K → Nat} {d : V} {m : List (K × V)} {k : K}
    (hn : (keys m).Nodup) : (keys (subscript slot d m k)).Nodup := by
  by_cases h : k ∈ keys m
  · rwa [subscript_of_mem h]
  · have hp := (subscript_perm_of_not_mem slot d h).map Prod.fst
    unfold keys
    rw [hp.nodup_iff]
    simpa using ⟨by simpa [keys] using h, hn⟩

theorem mem_subscript {slot : K → List K → Nat} {d : V} {m : List (K × V)} {k : K}
    {e : K × V} :
    e ∈ subscript slot d m k ↔ e ∈ m ∨ (e = (k, d) ∧ k ∉ keys m) := by
  by_cases h : k ∈ keys m
  · rw [subscript_of_mem h]
    simp [h]
  · rw [(subscript_perm_of_not_mem slot d h).mem_iff]
    simp [h, or_comm]

theorem length_subscript {slot : K → List K → Nat} {d : V} {m : List (K × V)} {k : K} :
    (subscript slot d m k).length = if k ∈ keys m then m.length else m.length + 1 := by
  by_cases h : k ∈ keys m
  · simp [subscript, h]
  · simp [subscript, h, length_insertAt]

theorem keys_assign_mem {slot : K → List K → Nat} {d : V} {m : List (K × V)} {k a : K}
    {v : V} : a ∈ keys (assign slot d m k v) ↔ a = k ∨ a ∈ keys m := by
  unfold assign
  rw [keys_put, mem_keys_subscript]

theorem nodup_keys_assign {slot : K → List K → Nat} {d : V} {m : List (K × V)} {k : K}
    {v : V} (hn : (keys m).Nodup) : (keys (assign slot d m k v)).Nodup := by
  unfold assign
  rw [keys_put]
  exact nodup_keys_subscript hn

theorem mem_assign {slot : K → List K → Nat} {d : V} {m : List (K × V)} {k : K} {v : V}
    {e : K × V} : e ∈ assign slot d m k v ↔ e = (k, v) ∨ (e ∈ m ∧ e.1 ≠ k) := by
  unfold assign
  rw [mem_put, mem_subscript]
  constructor
  · rintro (⟨rfl, _⟩ | ⟨h | ⟨rfl, _⟩, hne⟩)
    · exact Or.inl rfl
    · exact Or.inr ⟨h, hne⟩
    · exact absurd rfl hne
  · rintro (rfl | ⟨h, hne⟩)
    · exact Or.inl ⟨rfl, mem_keys_subscript.2 (Or.inl rfl)⟩
    · exact Or.inr ⟨Or.inl h, hne⟩

theorem length_assign {slot : K → List K → Nat} {d : V} {m : List (K × V)} {k : K} {v : V} :
    (assign slot d m k v).length = if k ∈ keys m then m.length else m.length + 1 := by
  unfold assign
  rw [length_put, length_subscript]

theorem mem_erase {α : Type} {cont : List α} {func : α → Bool} {x : α} :
    x ∈ erase cont func ↔ x ∈ cont ∧ func x = false := by
  simp [erase]

end UMapLemmas

section UMapLemmas2

variable {K V : Type} [DecidableEq K]

theorem mem_iff_getD {d : V} {m : List (K × V)} (hn : (keys m).Nodup) {e : K × V} :
    e ∈ m ↔ e.1 ∈ keys m ∧ getD d m e.1 = e.2 := by
  constructor
  · intro h
    exact ⟨mem_keys_of_mem h, getD_of_mem hn (by simpa using h)⟩
  · rintro ⟨hk, hv⟩
    obtain ⟨w, hw⟩ := mem_keys_iff.1 hk
    have := getD_of_mem (d := d) hn hw
    rw [hv] at this
    have he : e = (e.1, w) := by rw [← this]
    rw [he]
    exact hw

theorem getD_congr {d : V} {m m' : List (K × V)} (hn : (keys m).Nodup)
    (hn' : (keys m').Nodup) (h : ∀ e, e ∈ m ↔ e ∈ m') (k : K) :
    getD d m k = getD d m' k := by
  by_cases hk : k ∈ keys m
  · obtain ⟨w, hw⟩ := mem_keys_iff.1 hk
    rw [getD_of_mem hn hw, getD_of_mem hn' ((h _).1 hw)]
  · have hk' : k ∉ keys m' := by
      intro hc
      obtain ⟨w, hw⟩ := mem_keys_iff.1 hc
      exact hk (mem_keys_of_mem ((h _).2 hw))
    rw [getD_of_not_mem hk, getD_of_not_mem hk']

theorem getD_subscript {slot : K → List K → Nat} {d : V} {m : List (K × V)}
    (hn : (keys m).Nodup) (k h : K) :
    getD d (subscript slot d m k) h = getD d m h := by
  by_cases hk : k ∈ keys m
  · rw [subscript_of_mem hk]
  · by_cases hh : h ∈ keys m
    · obtain ⟨w, hw⟩ := mem_keys_iff.1 hh
      rw [getD_of_mem hn hw]
      exact getD_of_mem (nodup_keys_subscript hn) (mem_subscript.2 (Or.inl hw))
    · rw [getD_of_not_mem hh]
      by_cases hhk : h = k
      · subst hhk
        exact getD_of_mem (nodup_keys_subscript hn) (mem_subscript.2 (Or.inr ⟨rfl, hk⟩))
      · apply getD_of_not_mem
        rw [mem_keys_subscript]
        rintro (h1 | h1)
        · exact hhk h1
        · exact hh h1

theorem getD_put {d : V} {m : List (K × V)} (hn : (keys m).Nodup) (k h : K) (v : V) :
    getD d (put m k v) h = if h = k ∧ k ∈ keys m then v else getD d m h := by
  have hn' : (keys (put m k v)).Nodup := by rwa [keys_put]
  by_cases hh : h = k ∧ k ∈ keys m
  · rw [if_pos hh]
    obtain ⟨rfl, hk⟩ := hh
    exact getD_of_mem hn' (mem_put.2 (Or.inl ⟨rfl, hk⟩))
  · rw [if_neg hh]
    by_cases hm : h ∈ keys m
    · obtain ⟨w, hw⟩ := mem_keys_iff.1 hm
      rw [getD_of_mem hn hw]
      apply getD_of_mem hn'
      refine mem_put.2 (Or.inr ⟨hw, ?_⟩)
      intro hc
      exact hh ⟨hc, hc ▸ hm⟩
    · rw [getD_of_not_mem hm]
      apply getD_of_not_mem
      rwa [keys_put]

theorem getD_assign {slot : K → List K → Nat} {d : V} {m : List (K × V)}
    (hn : (keys m).Nodup) (k h : K) (v : V) :
    getD d (assign slot d m k v) h = if h = k then v else getD d m h := by
  unfold assign
  rw [getD_put (nodup_keys_subscript hn), getD_subscript hn]
  by_cases hh : h = k
  · simp [hh, mem_keys_subscript]
  · simp [hh]

theorem keys_pushBack_mem {α : Type} {slot : K → List K → Nat} {m : List (K × List α)}
    {k a : K} {x : α} : a ∈ keys (pushBack slot m k x) ↔ a = k ∨ a ∈ keys m := by
  unfold pushBack
  simp only [keys_put, mem_keys_subscript]

theorem nodup_keys_pushBack {α : Type} {slot : K → List K → Nat} {m : List (K × List α)}
    {k : K} {x : α} (hn : (keys m).Nodup) : (keys (pushBack slot m k x)).Nodup := by
  unfold pushBack
  simp only [keys_put]
  exact nodup_keys_subscript hn

theorem getD_pushBack {α : Type} {slot : K → List K → Nat} {m : List (K × List α)}
    (hn : (keys m).Nodup) (k h : K) (x : α) :
    getD [] (pushBack slot m k x) h = getD [] m h ++ if h = k then [x] else [] := by
  unfold pushBack
  simp only
  rw [getD_put (nodup_keys_subscript hn), getD_subscript hn, getD_subscript hn]
  by_cases hh : h = k
  · simp [hh, mem_keys_subscript]
  · simp [hh]

theorem classOf_append {α : Type} (xs ys : List (K × α)) (h : K) :
    classOf (xs ++ ys) h = classOf xs h ++ classOf ys h := by
  simp [classOf]

theorem classOf_cons {α : Type} (e : K × α) (xs : List (K × α)) (h : K) :
    classOf (e :: xs) h = (if e.1 = h then [e.2] else []) ++ classOf xs h := by
  by_cases he : e.1 = h <;> simp [classOf, List.filter_cons, he]

theorem foldl_pushBack {α : Type} (slot : K → List K → Nat) (xs : List (K × α)) :
    ∀ m : List (K × List α), (keys m).Nodup →
      (keys (xs.foldl (fun m e => pushBack slot m e.1 e.2) m)).Nodup ∧
      (∀ h, h ∈ keys (xs.foldl (fun m e => pushBack slot m e.1 e.2) m)
          ↔ h ∈ keys m ∨ h ∈ keys xs) ∧
      ∀ h, getD [] (xs.foldl (fun m e => pushBack slot m e.1 e.2) m) h
          = getD [] m h ++ classOf xs h := by
  induction xs with
  | nil =>
    intro m hn
    refine ⟨hn, ?_, ?_⟩
    · intro h
      simp [keys]
    · intro h
      simp [classOf]
  | cons e xs ih =>
    intro m hn
    obtain ⟨h1, h2, h3⟩ := ih (pushBack slot m e.1 e.2) (nodup_keys_pushBack hn)
    refine ⟨h1, ?_, ?_⟩
    · intro h
      rw [List.foldl_cons, h2, keys_pushBack_mem]
      simp only [keys, List.map_cons, List.mem_cons]
      tauto
    · intro h
      rw [List.foldl_cons, h3, getD_pushBack hn, classOf_cons, List.append_assoc]
      by_cases he : h = e.1
      · simp [he]
      · have he' : ¬ e.1 = h := fun hc => he hc.symm
        simp [he, he']

end UMapLemmas2

theorem nextHash_eq_of_le {X : Externals} {fs : FileSystem} {p : Process} {f : FileInfo}
    (h : f.m_pos ≤ f.m_size) :
    f.nextHash X fs p
      = (digest X p.checkSum (readChunk p.blockSize (f.stream fs)),
          { f with m_ifs := some ((f.stream fs).drop p.blockSize),
                   m_pos := f.m_pos + p.blockSize,
                   m_hash := digest X p.checkSum (readChunk p.blockSize (f.stream fs)) }) := by
  unfold FileInfo.nextHash
  rw [if_neg (by omega)]

theorem nextHash_of_fileAt {X : Externals} {fs : FileSystem} {p : Process} {k : Nat}
    {e : Path × FileInfo} (h : FileAt X fs p k e) (hle : k * p.blockSize ≤ fs.fileSize e.1) :
    (e.2.nextHash X fs p).1 = hashAt X fs p e.1 k ∧
      FileAt X fs p (k + 1) (e.1, (e.2.nextHash X fs p).2) := by
  have hng : e.2.m_pos ≤ e.2.m_size := by
    rw [h.pos, h.size]
    exact hle
  rw [nextHash_eq_of_le hng]
  refine ⟨by simp [hashAt, h.stream], ?_⟩
  constructor
  · exact h.path
  · exact h.size
  · simp [h.pos, Nat.add_mul]
  · show List.drop p.blockSize (e.2.stream fs) = _
    rw [h.stream, List.drop_drop]
    congr 1
    ring
  · simp [lastHash, hashAt, h.stream]

theorem GroupAt.ne_nil {X : Externals} {fs : FileSystem} {p : Process} {k S : Nat}
    {g : FilesGroup} (h : GroupAt X fs p k S g) : g ≠ [] := by
  intro hc
  have := h.two
  rw [hc] at this
  simp at this

theorem GroupAt.isFinished_eq {X : Externals} {fs : FileSystem} {p : Process} {k S : Nat}
    {g : FilesGroup} (h : GroupAt X fs p k S g) :
    FilesGroup.isFinished g = decide (S ≤ k * p.blockSize) := by
  cases g with
  | nil => exact absurd rfl h.ne_nil
  | cons e g =>
    have hf := h.file e (List.mem_cons_self _ _)
    have hs := h.size e.1 (mem_keys_of_mem (List.mem_cons_self _ _))
    simp [FilesGroup.isFinished, FileInfo.isFinished, hf.pos, hf.size, hs]

theorem keys_hashMembers (X : Externals) (fs : FileSystem) (p : Process) (g : FilesGroup) :
    keys (hashMembers X fs p g) = keys g := by
  simp [keys, hashMembers, List.map_map, Function.comp_def]

theorem mem_hashMembers {X : Externals} {fs : FileSystem} {p : Process} {g : FilesGroup}
    {e : Path × FileInfo} :
    e ∈ hashMembers X fs p g ↔ ∃ e0 ∈ g, e = (e0.1, (e0.2.nextHash X fs p).2) := by
  simp [hashMembers, eq_comm]

theorem hashGroupsOf_eq (X : Externals) (L : Layout) (fs : FileSystem) (p : Process)
    (g : FilesGroup) :
    hashGroupsOf X L fs p g
      = (g.map fun file => ((file.2.nextHash X fs p).1, file.1)).foldl
          (fun m e => pushBack L.hashSlot m e.1 e.2) [] := by
  rw [hashGroupsOf, List.foldl_map]

theorem classOf_hashes {X : Externals} {fs : FileSystem} {p : Process} {k : Nat}
    {g : FilesGroup} (hg : ∀ e ∈ g, (e.2.nextHash X fs p).1 = hashAt X fs p e.1 k)
    (h : String) :
    classOf (g.map fun file => ((file.2.nextHash X fs p).1, file.1)) h
      = hashClass X fs p k g h := by
  induction g with
  | nil => rfl
  | cons e g ih =>
    have he := hg e (List.mem_cons_self _ _)
    have ih' := ih (fun e' he' => hg e' (List.mem_cons_of_mem _ he'))
    unfold hashClass at ih' ⊢
    rw [List.map_cons, classOf_cons, ih']
    simp only [keys, List.map_cons, List.filter_cons, he]
    by_cases hh : hashAt X fs p e.1 k = h <;> simp [hh]

/-- The map `hashGroups` of an unfinished well-formed group: one entry per
hash value that occurs, holding the paths with that value. -/
theorem hashGroupsOf_spec {X : Externals} {fs : FileSystem} {p : Process} {k S : Nat}
    {g : FilesGroup} (L : Layout) (hg : GroupAt X fs p k S g) (hlt : k * p.blockSize < S) :
    (keys (hashGroupsOf X L fs p g)).Nodup ∧
    (∀ h, h ∈ keys (hashGroupsOf X L fs p g) ↔ ∃ e ∈ g, hashAt X fs p e.1 k = h) ∧
    ∀ c ∈ hashGroupsOf X L fs p g, c.2 = hashClass X fs p k g c.1 := by
  have hh : ∀ e ∈ g, (e.2.nextHash X fs p).1 = hashAt X fs p e.1 k := by
    intro e he
    refine (nextHash_of_fileAt (hg.file e he) ?_).1
    rw [hg.size e.1 (mem_keys_of_mem he)]
    exact Nat.le_of_lt hlt
  obtain ⟨h1, h2, h3⟩ := foldl_pushBack L.hashSlot
    (g.map fun file => ((file.2.nextHash X fs p).1, file.1)) [] (by simp [keys])
  rw [← hashGroupsOf_eq] at h1 h2 h3
  refine ⟨h1, ?_, ?_⟩
  · intro h
    rw [h2]
    simp only [keys, List.map_nil, List.not_mem_nil, false_or, List.map_map, List.mem_map,
      Function.comp_apply]
    constructor
    · rintro ⟨e, he, rfl⟩
      exact ⟨e, he, (hh e he).symm⟩
    · rintro ⟨e, he, rfl⟩
      exact ⟨e, he, hh e he⟩
  · intro c hc
    have := (mem_iff_getD (d := ([] : List Path)) h1).1 hc
    rw [← this.2, h3, classOf_hashes hh]
    simp [getD]

theorem mem_hashClass {X : Externals} {fs : FileSystem} {p : Process} {k : Nat}
    {g : FilesGroup} {h : String} {a : Path} :
    a ∈ hashClass X fs p k g h ↔ a ∈ keys g ∧ hashAt X fs p a k = h := by
  simp [hashClass]

theorem nodup_hashClass {X : Externals} {fs : FileSystem} {p : Process} {k : Nat}
    {g : FilesGroup} (hn : (keys g).Nodup) (h : String) :
    (hashClass X fs p k g h).Nodup :=
  hn.filter _

theorem moveMember_spec (L : Layout) (acc : FilesGroup × FilesGroup) (file : Path)
    (h1 : (keys acc.1).Nodup) (h2 : (keys acc.2).Nodup) :
    (keys (moveMember L acc file).1).Nodup ∧ (keys (moveMember L acc file).2).Nodup ∧
    (∀ a, a ∈ keys (moveMember L acc file).1 ↔ a = file ∨ a ∈ keys acc.1) ∧
    (∀ a, a ∈ keys (moveMember L acc file).2 ↔ a = file ∨ a ∈ keys acc.2) ∧
    (∀ a, getD FileInfo.default (moveMember L acc file).1 a
        = if a = file then getD FileInfo.default acc.2 file
          else getD FileInfo.default acc.1 a) ∧
    (∀ a, getD FileInfo.default (moveMember L acc file).2 a
        = if a = file then (getD FileInfo.default acc.2 file).movedFrom
          else getD FileInfo.default acc.2 a) := by
  have hs : (keys (subscript L.fileSlot FileInfo.default acc.2 file)).Nodup :=
    nodup_keys_subscript h2
  refine ⟨nodup_keys_assign h1, ?_, ?_, ?_, ?_, ?_⟩
  · simp only [moveMember, keys_put]
    exact hs
  · intro a
    simp only [moveMember]
    exact keys_assign_mem
  · intro a
    simp only [moveMember, keys_put]
    exact mem_keys_subscript
  · intro a
    simp only [moveMember]
    rw [getD_assign h1, getD_subscript h2]
  · intro a
    simp only [moveMember]
    rw [getD_put hs, getD_subscript h2, getD_subscript h2]
    by_cases ha : a = file
    · simp [ha, mem_keys_subscript]
    · simp [ha]

theorem foldl_moveMember (L : Layout) (files : List Path) :
    ∀ acc : FilesGroup × FilesGroup, (keys acc.1).Nodup → (keys acc.2).Nodup → files.Nodup →
    (keys (files.foldl (moveMember L) acc).1).Nodup ∧
    (keys (files.foldl (moveMember L) acc).2).Nodup ∧
    (∀ a, a ∈ keys (files.foldl (moveMember L) acc).1 ↔ a ∈ files ∨ a ∈ keys acc.1) ∧
    (∀ a, a ∈ keys (files.foldl (moveMember L) acc).2 ↔ a ∈ files ∨ a ∈ keys acc.2) ∧
    (∀ a, getD FileInfo.default (files.foldl (moveMember L) acc).1 a
        = if a ∈ files then getD FileInfo.default acc.2 a
          else getD FileInfo.default acc.1 a) ∧
    (∀ a, getD FileInfo.default (files.foldl (moveMember L) acc).2 a
        = if a ∈ files then (getD FileInfo.default acc.2 a).movedFrom
          else getD FileInfo.default acc.2 a) := by
  induction files with
  | nil =>
    intro acc h1 h2 _
    simp [h1, h2]
  | cons file files ih =>
    intro acc h1 h2 hn
    obtain ⟨hfile, hn'⟩ := List.nodup_cons.1 hn
    obtain ⟨s1, s2, s3, s4, s5, s6⟩ := moveMember_spec L acc file h1 h2
    obtain ⟨r1, r2, r3, r4, r5, r6⟩ := ih (moveMember L acc file) s1 s2 hn'
    rw [List.foldl_cons]
    refine ⟨r1, r2, ?_, ?_, ?_, ?_⟩
    · intro a
      rw [r3, s3, List.mem_cons]
      tauto
    · intro a
      rw [r4, s4, List.mem_cons]
      tauto
    · intro a
      rw [r5, s5, s6]
      by_cases ha : a ∈ files
      · have : a ≠ file := fun hc => hfile (hc ▸ ha)
        simp [ha, this]
      · by_cases hb : a = file
        · simp [hb, hfile]
        · simp [ha, hb]
    · intro a
      rw [r6, s6]
      by_cases ha : a ∈ files
      · have : a ≠ file := fun hc => hfile (hc ▸ ha)
        simp [ha, this]
      · by_cases hb : a = file
        · simp [hb, hfile]
        · simp [ha, hb]

/-- The loop that fills `newGroup` from one hash bucket: the new group holds
exactly the bucket's paths with the objects the group had, and the group
keeps its other objects. -/
theorem moveMembers_spec (L : Layout) (files : List Path) (group : FilesGroup)
    (h2 : (keys group).Nodup) (hn : files.Nodup) :
    (keys (moveMembers L files group).1).Nodup ∧
    (keys (moveMembers L files group).2).Nodup ∧
    (∀ a, a ∈ keys (moveMembers L files group).1 ↔ a ∈ files) ∧
    (∀ a, a ∈ files → getD FileInfo.default (moveMembers L files group).1 a
        = getD FileInfo.default group a) ∧
    (∀ a, a ∉ files → getD FileInfo.default (moveMembers L files group).2 a
        = getD FileInfo.default group a) := by
  obtain ⟨r1, r2, r3, _, r5, r6⟩ :=
    foldl_moveMember L files ([], group) (by simp [keys]) h2 hn
  refine ⟨r1, r2, ?_, ?_, ?_⟩
  · intro a
    have := r3 a
    simpa [keys] using this
  · intro a ha
    have := r5 a
    rw [if_pos ha] at this
    exact this
  · intro a ha
    have := r6 a
    rw [if_neg ha] at this
    exact this

theorem forall₂_imp_mem {α β : Type} {R S : α → β → Prop} {l1 : List α} {l2 : List β}
    (h : List.Forall₂ R l1 l2) (hi : ∀ a ∈ l1, ∀ b, R a b → S a b) :
    List.Forall₂ S l1 l2 := by
  induction h with
  | nil => exact List.Forall₂.nil
  | cons hab _ ih =>
    refine List.Forall₂.cons (hi _ (List.mem_cons_self _ _) _ hab) (ih ?_)
    intro a ha b hr
    exact hi a (List.mem_cons_of_mem _ ha) b hr

theorem placeNew_fresh (L : Layout) (c : Cursor) (ng : FilesGroup)
    (hid : c.idsBelow) :
    (placeNew L c ng).groupId = c.groupId + 1 ∧
    (placeNew L c ng).current = c.current ∧
    ∃ cb ca, (placeNew L c ng).before.Perm (c.before ++ cb) ∧
      (placeNew L c ng).after.Perm (c.after ++ ca) ∧ cb ++ ca = [(c.groupId, ng)] := by
  have hb : c.groupId ∉ keys c.before := by
    intro h
    obtain ⟨w, hw⟩ := mem_keys_iff.1 h
    have := hid.1 _ hw
    simp at this
  have hc : c.groupId ≠ c.current.1 := by
    intro h
    have := hid.2.1
    omega
  have ha : c.groupId ∉ keys c.after := by
    intro h
    obtain ⟨w, hw⟩ := mem_keys_iff.1 h
    have := hid.2.2 _ hw
    simp at this
  unfold placeNew
  simp only [hb, hc, ha, if_false]
  split
  · refine ⟨rfl, rfl, [(c.groupId, ng)], [], ?_, by simp, rfl⟩
    exact (insertAt_perm _ _ _).trans (List.perm_append_singleton _ _).symm
  · refine ⟨rfl, rfl, [], [(c.groupId, ng)], by simp, ?_, rfl⟩
    exact (insertAt_perm _ _ _).trans (List.perm_append_singleton _ _).symm

theorem splitOne_small (L : Layout) (c : Cursor) (cls : String × List Path)
    (h : ¬ cls.2.length > 1) : splitOne L c cls = c := by
  simp [splitOne, h]

theorem splitOne_spec (L : Layout) (c : Cursor) (cls : String × List Path)
    (hbig : cls.2.length > 1) (hcur : (keys c.current.2).Nodup) (hcls : cls.2.Nodup)
    (hid : c.idsBelow) :
    (splitOne L c cls).groupId = c.groupId + 1 ∧
    (splitOne L c cls).current.1 = c.current.1 ∧
    (keys (splitOne L c cls).current.2).Nodup ∧
    (∀ a, a ∈ keys (splitOne L c cls).current.2 ↔ a ∈ cls.2 ∨ a ∈ keys c.current.2) ∧
    (∀ a, a ∉ cls.2 → getD FileInfo.default (splitOne L c cls).current.2 a
        = getD FileInfo.default c.current.2 a) ∧
    ∃ cb ca child, (splitOne L c cls).before.Perm (c.before ++ cb) ∧
      (splitOne L c cls).after.Perm (c.after ++ ca) ∧ cb ++ ca = [child] ∧
      child.1 = c.groupId ∧ ChildOf c.current.2 cls child := by
  obtain ⟨m1, m2, m3, m4, m5⟩ := moveMembers_spec L cls.2 c.current.2 hcur hcls
  obtain ⟨_, _, _, f4, _, _⟩ :=
    foldl_moveMember L cls.2 ([], c.current.2) (by simp [keys]) hcur hcls
  have hid' : Cursor.idsBelow
      { c with current := (c.current.1, (moveMembers L cls.2 c.current.2).2) } := hid
  obtain ⟨p1, p2, cb, ca, p3, p4, p5⟩ := placeNew_fresh L
    { c with current := (c.current.1, (moveMembers L cls.2 c.current.2).2) }
    (moveMembers L cls.2 c.current.2).1 hid'
  have hs : splitOne L c cls = placeNew L
      { c with current := (c.current.1, (moveMembers L cls.2 c.current.2).2) }
      (moveMembers L cls.2 c.current.2).1 := by
    simp [splitOne, hbig]
  rw [hs]
  refine ⟨p1, by rw [p2], by rw [p2]; exact m2, ?_, ?_, cb, ca, _, p3, p4, p5, rfl, m1, m3, m4⟩
  · intro a
    rw [p2]
    exact f4 a
  · intro a ha
    rw [p2]
    exact m5 a ha

theorem splitGroup_spec (L : Layout) (hgs : List (String × List Path)) :
    ∀ c : Cursor, (keys c.current.2).Nodup → (∀ cls ∈ hgs, cls.2.Nodup) →
    hgs.Pairwise (fun a b => ∀ x, x ∈ a.2 → x ∉ b.2) →
    c.idsBelow →
    ∃ cb ca children, (splitGroup L hgs c).before.Perm (c.before ++ cb) ∧
      (splitGroup L hgs c).after.Perm (c.after ++ ca) ∧ (cb ++ ca).Perm children ∧
      List.Forall₂ (ChildOf c.current.2)
        (hgs.filter fun cls => decide (cls.2.length > 1)) children ∧
      keys children = List.range' c.groupId children.length ∧
      (splitGroup L hgs c).groupId = c.groupId + children.length ∧
      (splitGroup L hgs c).current.1 = c.current.1 := by
  induction hgs with
  | nil =>
    intro c _ _ _ _
    exact ⟨[], [], [], by simp [splitGroup], by simp [splitGroup], by simp,
      by simp, by simp [keys], by simp [splitGroup], by simp [splitGroup]⟩
  | cons cls hgs ih =>
    intro c hcur hnd hpw hid
    have hstep : splitGroup L (cls :: hgs) c = splitGroup L hgs (splitOne L c cls) := by
      simp [splitGroup]
    rw [hstep]
    have hnd' : ∀ cls' ∈ hgs, cls'.2.Nodup := fun x hx => hnd x (List.mem_cons_of_mem _ hx)
    obtain ⟨hhead, hpw'⟩ := List.pairwise_cons.1 hpw
    by_cases hbig : cls.2.length > 1
    · obtain ⟨s1, s2, s3, _, s5, cb1, ca1, child, s6, s7, s8, s9, s10⟩ :=
        splitOne_spec L c cls hbig hcur (hnd cls (List.mem_cons_self _ _)) hid
      have hchild : ∀ x, x ∈ cb1 ∨ x ∈ ca1 → x = child := by
        intro x hx
        have : x ∈ cb1 ++ ca1 := List.mem_append.2 hx
        rw [s8] at this
        simpa using this
      have hid1 : (splitOne L c cls).idsBelow := by
        refine ⟨?_, ?_, ?_⟩
        · intro x hx
          rw [s1]
          rcases List.mem_append.1 (s6.mem_iff.1 hx) with h1 | h1
          · exact Nat.lt_succ_of_lt (hid.1 x h1)
          · rw [hchild x (Or.inl h1), s9]
            exact Nat.lt_succ_self _
        · rw [s1, s2]
          exact Nat.lt_succ_of_lt hid.2.1
        · intro x hx
          rw [s1]
          rcases List.mem_append.1 (s7.mem_iff.1 hx) with h1 | h1
          · exact Nat.lt_succ_of_lt (hid.2.2 x h1)
          · rw [hchild x (Or.inr h1), s9]
            exact Nat.lt_succ_self _
      obtain ⟨cb, ca, children, r1, r2, r3, r4, r5, r6, r7⟩ :=
        ih (splitOne L c cls) s3 hnd' hpw' hid1
      refine ⟨cb1 ++ cb, ca1 ++ ca, child :: children, ?_, ?_, ?_, ?_, ?_, ?_, ?_⟩
      · refine r1.trans ?_
        rw [← List.append_assoc]
        exact List.Perm.append_right _ s6
      · refine r2.trans ?_
        rw [← List.append_assoc]
        exact List.Perm.append_right _ s7
      · have h1 : (cb1 ++ cb ++ (ca1 ++ ca)).Perm ((cb1 ++ ca1) ++ (cb ++ ca)) := by
          simp only [List.append_assoc]
          refine List.Perm.append_left _ ?_
          rw [← List.append_assoc, ← List.append_assoc]
          exact List.Perm.append_right _ List.perm_append_comm
        refine h1.trans ?_
        rw [s8]
        exact List.Perm.cons _ r3
      · rw [List.filter_cons_of_pos (by simpa using hbig)]
        refine List.Forall₂.cons s10 ?_
        refine forall₂_imp_mem r4 ?_
        intro cls' hcls' child' hc
        have hm : cls' ∈ hgs := (List.mem_filter.1 hcls').1
        refine ⟨hc.1, hc.2.1, ?_⟩
        intro a ha
        rw [hc.2.2 a ha]
        exact s5 a (fun hx => hhead cls' hm a hx ha)
      · rw [List.length_cons, List.range'_succ]
        simp only [keys, List.map_cons, s9]
        rw [s1] at r5
        simpa [keys] using r5
      · rw [r6, s1, List.length_cons]
        omega
      · rw [r7, s2]
    · rw [splitOne_small L c cls hbig]
      obtain ⟨cb, ca, children, r1, r2, r3, r4, r5, r6, r7⟩ := ih c hcur hnd' hpw' hid
      refine ⟨cb, ca, children, r1, r2, r3, ?_, r5, r6, r7⟩
      rw [List.filter_cons_of_neg (by simpa using hbig)]
      exact r4

theorem forall₂_exists_right {α β : Type} {R : α → β → Prop} {l1 : List α} {l2 : List β}
    (h : List.Forall₂ R l1 l2) : ∀ a ∈ l1, ∃ b ∈ l2, R a b := by
  induction h with
  | nil => intro a ha; cases ha
  | cons hab _ ih =>
    intro a ha
    rcases List.mem_cons.1 ha with rfl | ha'
    · exact ⟨_, List.mem_cons_self _ _, hab⟩
    · obtain ⟨b, hb, hr⟩ := ih a ha'
      exact ⟨b, List.mem_cons_of_mem _ hb, hr⟩

theorem forall₂_exists_left {α β : Type} {R : α → β → Prop} {l1 : List α} {l2 : List β}
    (h : List.Forall₂ R l1 l2) : ∀ b ∈ l2, ∃ a ∈ l1, R a b := by
  induction h with
  | nil => intro b hb; cases hb
  | cons hab _ ih =>
    intro b hb
    rcases List.mem_cons.1 hb with rfl | hb'
    · exact ⟨_, List.mem_cons_self _ _, hab⟩
    · obtain ⟨a, ha, hr⟩ := ih b hb'
      exact ⟨a, List.mem_cons_of_mem _ ha, hr⟩

section Visit

variable {X : Externals} {fs : FileSystem} {p : Process} {k S : Nat} {g : FilesGroup}

theorem GroupAt.nextHash_fst (hg : GroupAt X fs p k S g) (hlt : k * p.blockSize < S)
    {e : Path × FileInfo} (he : e ∈ g) :
    (e.2.nextHash X fs p).1 = hashAt X fs p e.1 k := by
  refine (nextHash_of_fileAt (hg.file e he) ?_).1
  rw [hg.size e.1 (mem_keys_of_mem he)]
  exact Nat.le_of_lt hlt

theorem GroupAt.fileAt_hashed (hg : GroupAt X fs p k S g) (hlt : k * p.blockSize < S)
    {e : Path × FileInfo} (he : e ∈ hashMembers X fs p g) : FileAt X fs p (k + 1) e := by
  obtain ⟨e0, he0, rfl⟩ := mem_hashMembers.1 he
  refine (nextHash_of_fileAt (hg.file e0 he0) ?_).2
  rw [hg.size e0.1 (mem_keys_of_mem he0)]
  exact Nat.le_of_lt hlt

theorem GroupAt.pos_hashed (hg : GroupAt X fs p k S g) (hlt : k * p.blockSize < S)
    {e e0 : Path × FileInfo} (he : e ∈ hashMembers X fs p g) (he0 : e0 ∈ g) :
    e.2.m_pos = e0.2.m_pos + p.blockSize := by
  rw [(hg.fileAt_hashed hlt he).pos, (hg.file e0 he0).pos, Nat.add_mul, Nat.one_mul]

/-- A group whose members all returned the same hash is well formed one
block further on. -/
theorem GroupAt.hashed_single (hg : GroupAt X fs p k S g) (hlt : k * p.blockSize < S)
    (hsame : ∀ a ∈ keys g, ∀ b ∈ keys g, hashAt X fs p a k = hashAt X fs p b k) :
    GroupAt X fs p (k + 1) S (hashMembers X fs p g) := by
  constructor
  · rw [keys_hashMembers]
    exact hg.nodup
  · simpa [hashMembers] using hg.two
  · intro e he
    exact hg.fileAt_hashed hlt he
  · intro a ha
    rw [keys_hashMembers] at ha
    exact hg.size a ha
  · rw [Nat.add_mul, Nat.one_mul]
    omega
  · intro a ha b hb i hi
    rw [keys_hashMembers] at ha hb
    rcases Nat.lt_succ_iff_lt_or_eq.1 hi with h | h
    · exact hg.agree a ha b hb i h
    · rw [h]
      exact hsame a ha b hb

theorem hashes_same_of_single (L : Layout) (hg : GroupAt X fs p k S g)
    (hlt : k * p.blockSize < S) (hlen : (hashGroupsOf X L fs p g).length ≤ 1) :
    ∀ a ∈ keys g, ∀ b ∈ keys g, hashAt X fs p a k = hashAt X fs p b k := by
  obtain ⟨h1, h2, _⟩ := hashGroupsOf_spec L hg hlt
  intro a ha b hb
  obtain ⟨va, hva⟩ := mem_keys_iff.1 ha
  obtain ⟨vb, hvb⟩ := mem_keys_iff.1 hb
  have ka : hashAt X fs p a k ∈ keys (hashGroupsOf X L fs p g) := (h2 _).2 ⟨_, hva, rfl⟩
  have kb : hashAt X fs p b k ∈ keys (hashGroupsOf X L fs p g) := (h2 _).2 ⟨_, hvb, rfl⟩
  have hl : (keys (hashGroupsOf X L fs p g)).length ≤ 1 := by simpa [keys] using hlen
  generalize keys (hashGroupsOf X L fs p g) = ks at ka kb hl
  match ks, hl with
  | [], _ => cases ka
  | [x], _ =>
    rw [List.mem_singleton] at ka kb
    rw [ka, kb]

theorem hashes_differ_of_multi (L : Layout) (hg : GroupAt X fs p k S g)
    (hlt : k * p.blockSize < S) (hlen : (hashGroupsOf X L fs p g).length > 1) :
    ∃ a ∈ keys g, ∃ b ∈ keys g, hashAt X fs p a k ≠ hashAt X fs p b k := by
  obtain ⟨h1, h2, _⟩ := hashGroupsOf_spec L hg hlt
  have hl : (keys (hashGroupsOf X L fs p g)).length > 1 := by simpa [keys] using hlen
  generalize keys (hashGroupsOf X L fs p g) = ks at h1 h2 hl
  match ks, hl with
  | x :: y :: _, _ =>
    obtain ⟨e, he, hx⟩ := (h2 x).1 (by simp)
    obtain ⟨e', he', hy⟩ := (h2 y).1 (by simp)
    refine ⟨e.1, mem_keys_of_mem he, e'.1, mem_keys_of_mem he', ?_⟩
    rw [hx, hy]
    intro hc
    simp [hc] at h1

/-- A group made from a hash bucket with more than one path is well formed
one block further on; it holds exactly the members with the bucket's hash,
as `hashMembers` left them. -/
theorem GroupAt.child (L : Layout) (hg : GroupAt X fs p k S g) (hlt : k * p.blockSize < S)
    {cls : String × List Path} {child : Nat × FilesGroup}
    (hcls : cls ∈ hashGroupsOf X L fs p g) (hbig : cls.2.length > 1)
    (hc : ChildOf (hashMembers X fs p g) cls child) :
    GroupAt X fs p (k + 1) S child.2 ∧
    (∀ a, a ∈ keys child.2 ↔ a ∈ keys g ∧ hashAt X fs p a k = cls.1) ∧
    ∀ e ∈ child.2, e ∈ hashMembers X fs p g := by
  obtain ⟨_, _, h3⟩ := hashGroupsOf_spec L hg hlt
  have hcl := h3 cls hcls
  have hnh : (keys (hashMembers X fs p g)).Nodup := by
    rw [keys_hashMembers]
    exact hg.nodup
  have hkeys : ∀ a, a ∈ keys child.2 ↔ a ∈ keys g ∧ hashAt X fs p a k = cls.1 := by
    intro a
    rw [hc.2.1 a, hcl, mem_hashClass]
  have hsub : ∀ e ∈ child.2, e ∈ hashMembers X fs p g := by
    intro e he
    have hk : e.1 ∈ keys child.2 := mem_keys_of_mem he
    have h1 := (mem_iff_getD (d := FileInfo.default) hc.1).1 he
    rw [mem_iff_getD (d := FileInfo.default) hnh, keys_hashMembers]
    refine ⟨((hkeys _).1 hk).1, ?_⟩
    rw [← hc.2.2 e.1 ((hc.2.1 _).1 hk)]
    exact h1.2
  refine ⟨?_, hkeys, hsub⟩
  constructor
  · exact hc.1
  · have hp : (keys child.2).Perm cls.2 :=
      (List.perm_ext_iff_of_nodup hc.1 (hcl ▸ nodup_hashClass hg.nodup _)).2 hc.2.1
    have := hp.length_eq
    simp only [keys, List.length_map] at this
    omega
  · intro e he
    exact hg.fileAt_hashed hlt (hsub e he)
  · intro a ha
    exact hg.size a ((hkeys a).1 ha).1
  · rw [Nat.add_mul, Nat.one_mul]
    omega
  · intro a ha b hb i hi
    rcases Nat.lt_succ_iff_lt_or_eq.1 hi with h | h
    · exact hg.agree a ((hkeys a).1 ha).1 b ((hkeys b).1 hb).1 i h
    · rw [h, ((hkeys a).1 ha).2, ((hkeys b).1 hb).2]

end Visit

theorem forall₂_pairwise {α β : Type} {R : α → β → Prop} {P : α → α → Prop}
    {Q : β → β → Prop} {l1 : List α} {l2 : List β} (h : List.Forall₂ R l1 l2)
    (hp : l1.Pairwise P)
    (hq : ∀ a ∈ l1, ∀ a' ∈ l1, ∀ b b', P a a' → R a b → R a' b' → Q b b') :
    l2.Pairwise Q := by
  induction h with
  | nil => exact List.Pairwise.nil
  | @cons a b l1 l2 hab hrest ih =>
    obtain ⟨h1, h2⟩ := List.pairwise_cons.1 hp
    refine List.pairwise_cons.2 ⟨?_, ih h2 ?_⟩
    · intro b' hb'
      obtain ⟨a', ha', hr⟩ := forall₂_exists_left hrest b' hb'
      exact hq a (List.mem_cons_self _ _) a' (List.mem_cons_of_mem _ ha') b b'
        (h1 a' ha') hab hr
    · intro x hx x' hx' y y' hP hR hR'
      exact hq x (List.mem_cons_of_mem _ hx) x' (List.mem_cons_of_mem _ hx') y y' hP hR hR'

theorem hashGroups_pairwise {X : Externals} {fs : FileSystem} {p : Process} {k S : Nat}
    {g : FilesGroup} (L : Layout) (hg : GroupAt X fs p k S g) (hlt : k * p.blockSize < S) :
    (hashGroupsOf X L fs p g).Pairwise (fun a b => a.1 ≠ b.1) ∧
    (hashGroupsOf X L fs p g).Pairwise (fun a b => ∀ x, x ∈ a.2 → x ∉ b.2) := by
  obtain ⟨h1, _, h3⟩ := hashGroupsOf_spec L hg hlt
  have hpw : (hashGroupsOf X L fs p g).Pairwise (fun a b => a.1 ≠ b.1) := by
    have := h1
    unfold keys List.Nodup at this
    exact (List.pairwise_map.1 this)
  refine ⟨hpw, hpw.imp_of_mem ?_⟩
  intro a b ha hb hne x hxa hxb
  rw [h3 a ha, mem_hashClass] at hxa
  rw [h3 b hb, mem_hashClass] at hxb
  exact hne (hxa.2.symm.trans hxb.2)

theorem visitGroup_outcome {X : Externals} {fs : FileSystem} {p : Process} {k S : Nat}
    (L : Layout) (s : Pass) (y : Nat × FilesGroup) (rest : List (Nat × FilesGroup))
    (hg : GroupAt X fs p k S y.2) (hlt : k * p.blockSize < S)
    (hb : ∀ x ∈ s.before, x.1 < s.groupId) (hy : y.1 < s.groupId)
    (ha : ∀ x ∈ rest, x.1 < s.groupId) :
    ∃ dead nb na,
      VisitOutcome X L fs p s y rest k S (visitGroup X L fs p s y rest) dead nb na := by
  by_cases hlen : (hashGroupsOf X L fs p y.2).length > 1
  · -- the group is split
    have hv : visitGroup X L fs p s y rest
        = { before := (splitGroup L (hashGroupsOf X L fs p y.2)
                { before := s.before, current := (y.1, hashMembers X fs p y.2),
                  after := rest, groupId := s.groupId }).before
              ++ [(splitGroup L (hashGroupsOf X L fs p y.2)
                { before := s.before, current := (y.1, hashMembers X fs p y.2),
                  after := rest, groupId := s.groupId }).current],
            after := (splitGroup L (hashGroupsOf X L fs p y.2)
                { before := s.before, current := (y.1, hashMembers X fs p y.2),
                  after := rest, groupId := s.groupId }).after,
            removed := y.1 :: s.removed,
            groupId := (splitGroup L (hashGroupsOf X L fs p y.2)
                { before := s.before, current := (y.1, hashMembers X fs p y.2),
                  after := rest, groupId := s.groupId }).groupId } := by
      simp [visitGroup, hlen]
    obtain ⟨g1, g2, g3⟩ := hashGroupsOf_spec L hg hlt
    obtain ⟨pw1, pw2⟩ := hashGroups_pairwise L hg hlt
    have hnh : (keys (hashMembers X fs p y.2)).Nodup := by
      rw [keys_hashMembers]
      exact hg.nodup
    obtain ⟨cb, ca, children, r1, r2, r3, r4, r5, r6, r7⟩ :=
      splitGroup_spec L (hashGroupsOf X L fs p y.2)
        { before := s.before, current := (y.1, hashMembers X fs p y.2),
          after := rest, groupId := s.groupId }
        hnh (fun cls hcls => by rw [g3 cls hcls]; exact nodup_hashClass hg.nodup _)
        pw2 ⟨hb, hy, ha⟩
    simp only at r1 r2 r4 r5 r6 r7
    have hmem : ∀ z, z ∈ cb ++ ca ↔ z ∈ children := fun z => r3.mem_iff
    have hchild : ∀ z ∈ cb ++ ca, ∃ cls ∈ hashGroupsOf X L fs p y.2, cls.2.length > 1 ∧
        ChildOf (hashMembers X fs p y.2) cls z := by
      intro z hz
      obtain ⟨cls, hcls, hc⟩ := forall₂_exists_left r4 z ((hmem z).1 hz)
      obtain ⟨h1, h2⟩ := List.mem_filter.1 hcls
      exact ⟨cls, h1, by simpa using h2, hc⟩
    refine ⟨[(y.1, (splitGroup L (hashGroupsOf X L fs p y.2)
        { before := s.before, current := (y.1, hashMembers X fs p y.2),
          after := rest, groupId := s.groupId }).current.2)], cb, ca, ?_⟩
    constructor
    · rw [hv]
      simp only
      have e1 : (splitGroup L (hashGroupsOf X L fs p y.2)
          { before := s.before, current := (y.1, hashMembers X fs p y.2),
            after := rest, groupId := s.groupId }).current
          = (y.1, (splitGroup L (hashGroupsOf X L fs p y.2)
          { before := s.before, current := (y.1, hashMembers X fs p y.2),
            after := rest, groupId := s.groupId }).current.2) :=
        Prod.ext r7 rfl
      rw [e1]
      refine (List.Perm.append_right _ r1).trans ?_
      simp only [List.append_assoc]
      exact List.Perm.append_left _ List.perm_append_comm
    · rw [hv]
      exact r2
    · right
      refine ⟨⟨_, rfl⟩, ?_, hlen, ?_, ?_⟩
      · rw [hv]
      · rw [hv]
        simp only
        rw [r6, Nat.add_sub_cancel_left, ← r5]
        exact r3.map Prod.fst
      · rw [hv]
        simp only
        rw [r6]
        exact Nat.le_add_right _ _
    · intro z hz
      obtain ⟨cls, h1, h2, hc⟩ := hchild z hz
      exact (hg.child L hlt h1 h2 hc).1
    · intro z hz
      obtain ⟨cls, h1, h2, hc⟩ := hchild z hz
      exact (hg.child L hlt h1 h2 hc).2.2
    · intro z hz a haz b hbz
      obtain ⟨cls, h1, h2, hc⟩ := hchild z hz
      have hk := (hg.child L hlt h1 h2 hc).2.1
      rw [((hk a).1 haz).2, ((hk b).1 hbz).2]
    · have hpw : children.Pairwise (fun z z' => ∀ a, a ∈ keys z.2 → a ∉ keys z'.2) := by
        refine forall₂_pairwise r4 (pw1.sublist (List.filter_sublist _)) ?_
        intro cls hcls cls' hcls' z z' hne hc hc' a haz haz'
        have e1 := (hc.2.1 a).1 haz
        have e2 := (hc'.2.1 a).1 haz'
        rw [g3 cls (List.mem_filter.1 hcls).1, mem_hashClass] at e1
        rw [g3 cls' (List.mem_filter.1 hcls').1, mem_hashClass] at e2
        exact hne (e1.2.symm.trans e2.2)
      intro z hz z' hz' a haz haz'
      by_contra hne
      have hsym : ∀ u v : Nat × FilesGroup,
          (∀ a, a ∈ keys u.2 → a ∉ keys v.2) → (∀ a, a ∈ keys v.2 → a ∉ keys u.2) :=
        fun u v h a hv hu => h a hu hv
      have := hpw.forall (fun {u v} h => hsym u v h) ((hmem z).1 hz) ((hmem z').1 hz') hne
      exact this a haz haz'
    · intro a haa b hbb hab hh
      obtain ⟨va, hva⟩ := mem_keys_iff.1 haa
      have hkey : hashAt X fs p a k ∈ keys (hashGroupsOf X L fs p y.2) :=
        (g2 _).2 ⟨_, hva, rfl⟩
      obtain ⟨ps, hps⟩ := mem_keys_iff.1 hkey
      have hcl := g3 _ hps
      simp only at hcl
      have ha' : a ∈ ps := by
        rw [hcl, mem_hashClass]
        exact ⟨haa, rfl⟩
      have hb' : b ∈ ps := by
        rw [hcl, mem_hashClass]
        exact ⟨hbb, hh.symm⟩
      have hbig : ps.length > 1 := by
        match ps, ha', hb' with
        | [x], h1, h2 =>
          rw [List.mem_singleton] at h1 h2
          exact absurd (h1.trans h2.symm) hab
        | _ :: _ :: _, _, _ => simp
      obtain ⟨z, hz, hc⟩ := forall₂_exists_right r4 (hashAt X fs p a k, ps)
        (List.mem_filter.2 ⟨hps, by simpa using hbig⟩)
      exact ⟨z, (hmem z).2 hz, (hc.2.1 a).2 ha', (hc.2.1 b).2 hb'⟩
  · -- the group stays
    have hlen' : (hashGroupsOf X L fs p y.2).length ≤ 1 := Nat.le_of_not_lt hlen
    have hv : visitGroup X L fs p s y rest
        = { s with before := s.before ++ [(y.1, hashMembers X fs p y.2)], after := rest } := by
      simp [visitGroup, hlen]
    have hsame := hashes_same_of_single L hg hlt hlen'
    refine ⟨[], [(y.1, hashMembers X fs p y.2)], [], ?_⟩
    constructor
    · rw [hv]
      simp
    · rw [hv]
      simp
    · left
      rw [hv]
      exact ⟨rfl, rfl, rfl, rfl, rfl, hlen'⟩
    · intro z hz
      simp only [List.append_nil, List.mem_singleton] at hz
      rw [hz]
      exact hg.hashed_single hlt hsame
    · intro z hz e he
      simp only [List.append_nil, List.mem_singleton] at hz
      rw [hz] at he
      exact he
    · intro z hz a haz b hbz
      simp only [List.append_nil, List.mem_singleton] at hz
      rw [hz] at haz hbz
      simp only [keys_hashMembers] at haz hbz
      exact hsame a haz b hbz
    · intro z hz z' hz' a _ _
      simp only [List.append_nil, List.mem_singleton] at hz hz'
      rw [hz, hz']
    · intro a haa b hbb _ _
      refine ⟨(y.1, hashMembers X fs p y.2), by simp, ?_, ?_⟩
      · simp only [keys_hashMembers]
        exact haa
      · simp only [keys_hashMembers]
        exact hbb

section PassStep

variable {X : Externals} {L : Layout} {fs : FileSystem} {p : Process}
  {T : List (Nat × FilesGroup)} {gid0 : Nat} {s : Pass} {y : Nat × FilesGroup}
  {rest : List (Nat × FilesGroup)}

theorem PassInv.head_apart (h : PassInv X L fs p T gid0 s) (ha : s.after = y :: rest) :
    (∀ x ∈ s.before, x.1 ≠ y.1) ∧ (∀ x ∈ rest, x.1 ≠ y.1) ∧ y.1 ∉ s.removed ∧
    (keys (s.before ++ rest)).Nodup := by
  have hn := h.ids
  rw [ha] at hn
  simp only [keys, List.map_append, List.map_cons] at hn
  have hn' := List.nodup_middle.1 hn
  obtain ⟨h1, h2⟩ := List.nodup_cons.1 hn'
  have hb : ∀ x ∈ s.before, x.1 ≠ y.1 := by
    intro x hx hc
    exact h1 (List.mem_append_left _ (hc ▸ List.mem_map_of_mem Prod.fst hx))
  refine ⟨hb, ?_, ?_, by simpa [keys] using h2⟩
  · intro x hx hc
    exact h1 (List.mem_append_right _ (hc ▸ List.mem_map_of_mem Prod.fst hx))
  · intro hc
    obtain ⟨w, hw⟩ := mem_keys_iff.1 (h.removed _ hc)
    exact hb _ hw rfl

theorem PassInv.head_lt (h : PassInv X L fs p T gid0 s) (ha : s.after = y :: rest)
    (hfin : y.2.isFinished = false) :
    ∃ k S, GroupAt X fs p k S y.2 ∧ k * p.blockSize < S := by
  obtain ⟨k, S, hg⟩ := h.group y (Or.inl (by rw [ha]; exact List.mem_cons_self _ _))
  refine ⟨k, S, hg, ?_⟩
  rw [hg.isFinished_eq] at hfin
  simpa using hfin

/-- A finished group is passed over. -/
theorem PassInv.skip (h : PassInv X L fs p T gid0 s) (ha : s.after = y :: rest)
    (hfin : y.2.isFinished = true) :
    PassInv X L fs p T gid0 { s with before := s.before ++ [y], after := rest } := by
  obtain ⟨a1, a2, a3, _⟩ := h.head_apart ha
  have hlive : ∀ x, Pass.live { s with before := s.before ++ [y], after := rest } x ↔
      s.live x := by
    intro x
    unfold Pass.live
    rw [ha]
    show (x ∈ rest ∨ (x ∈ s.before ++ [y] ∧ x.1 ∉ s.removed)) ↔ _
    rw [List.mem_append, List.mem_singleton, List.mem_cons]
    constructor
    · rintro (h1 | ⟨h1 | h1, h2⟩)
      · exact Or.inl (Or.inr h1)
      · exact Or.inr ⟨h1, h2⟩
      · exact Or.inl (Or.inl h1)
    · rintro ((h1 | h1) | ⟨h1, h2⟩)
      · exact Or.inr ⟨Or.inr h1, h1 ▸ a3⟩
      · exact Or.inl h1
      · exact Or.inr ⟨Or.inl h1, h2⟩
  constructor
  · have := h.ids
    rw [ha] at this
    simpa using this
  · intro x hx
    apply h.below
    rw [ha]
    simp only [List.mem_append, List.mem_singleton, List.mem_cons] at hx ⊢
    tauto
  · intro id hid
    have := h.removed id hid
    simp only [keys, List.map_append, List.mem_append] at this ⊢
    exact Or.inl this
  · intro x hx
    exact h.group x ((hlive x).1 hx)
  · intro x x' hx hx'
    exact h.disjoint x x' ((hlive x).1 hx) ((hlive x').1 hx')
  · exact h.mono
  · intro x hx
    rcases h.fate x hx with h1 | ⟨h1, h2, h3⟩ | ⟨h1, h2, h3, h4⟩ | ⟨h1, h2, h3⟩
    · rw [ha] at h1
      rcases List.mem_cons.1 h1 with h1 | h1
      · right; left
        exact ⟨h1 ▸ hfin, List.mem_append_right _ (by simp [h1]), h1 ▸ a3⟩
      · exact Or.inl h1
    · exact Or.inr (Or.inl ⟨h1, List.mem_append_left _ h2, h3⟩)
    · exact Or.inr (Or.inr (Or.inl ⟨h1, h2, List.mem_append_left _ h3, h4⟩))
    · exact Or.inr (Or.inr (Or.inr ⟨h1, h2, h3⟩))
  · intro x hx
    obtain ⟨x0, hx0, hl⟩ := h.lineage x ((hlive x).1 hx)
    refine ⟨x0, hx0, ?_⟩
    rcases hl with ⟨h1, h2⟩ | h1
    · left
      refine ⟨h1, ?_⟩
      rcases h2 with h2 | h2
      · rw [ha] at h2
        rcases List.mem_cons.1 h2 with h2 | h2
        · right
          rw [← h1, h2]
          exact hfin
        · exact Or.inl h2
      · exact Or.inr h2
    · exact Or.inr h1
  · intro x hx a haa b hbb hab hall
    obtain ⟨w, hw, h1, h2⟩ := h.complete x hx a haa b hbb hab hall
    exact ⟨w, (hlive w).2 hw, h1, h2⟩

end PassStep

theorem perm_shuffle {α : Type} (A D NB R NA : List α) :
    ((A ++ D ++ NB) ++ (R ++ NA)).Perm ((A ++ D ++ R) ++ (NB ++ NA)) := by
  rw [← Multiset.coe_eq_coe]
  simp only [← Multiset.coe_add]
  abel

section PassStep2

variable {X : Externals} {L : Layout} {fs : FileSystem} {p : Process}
  {T : List (Nat × FilesGroup)} {gid0 : Nat} {s s' : Pass} {y : Nat × FilesGroup}
  {rest : List (Nat × FilesGroup)} {k S : Nat} {dead nb na : List (Nat × FilesGroup)}

/-- Facts about the ids after a visit that do not depend on whether the
group was split. -/
theorem VisitOutcome.ids (out : VisitOutcome X L fs p s y rest k S s' dead nb na)
    (h : PassInv X L fs p T gid0 s) (ha : s.after = y :: rest) :
    s.groupId ≤ s'.groupId ∧
    (∀ id, id ∈ s'.removed ↔ id ∈ s.removed ∨ (id = y.1 ∧ dead ≠ [])) ∧
    (∀ z ∈ dead, z.1 = y.1) ∧
    (∀ z ∈ nb ++ na, z.1 ∉ s'.removed ∧ z.1 < s'.groupId ∧
      (∀ x ∈ s.before, x.1 ≠ z.1) ∧ (∀ x ∈ rest, x.1 ≠ z.1)) ∧
    (keys (s'.before ++ s'.after)).Nodup ∧
    (((hashGroupsOf X L fs p y.2).length ≤ 1 ∧ (y.1, hashMembers X fs p y.2) ∈ s'.before ∧
        y.1 ∉ s'.removed) ∨
      ((hashGroupsOf X L fs p y.2).length > 1 ∧ y.1 ∈ s'.removed)) := by
  obtain ⟨a1, a2, a3, a4⟩ := h.head_apart ha
  have hb : ∀ x ∈ s.before, x.1 < s.groupId :=
    fun x hx => h.below x (List.mem_append_left _ hx)
  have hy : y.1 < s.groupId :=
    h.below y (List.mem_append_right _ (by rw [ha]; exact List.mem_cons_self _ _))
  have hr : ∀ x ∈ rest, x.1 < s.groupId :=
    fun x hx => h.below x (List.mem_append_right _ (by rw [ha]; exact List.mem_cons_of_mem _ hx))
  have hrem : ∀ id ∈ s.removed, id < s.groupId := by
    intro id hid
    obtain ⟨w, hw⟩ := mem_keys_iff.1 (h.removed id hid)
    exact hb _ hw
  have hpk : (keys (s'.before ++ s'.after)).Perm
      (keys (s.before ++ dead ++ rest) ++ keys (nb ++ na)) := by
    have h1 : (s'.before ++ s'.after).Perm ((s.before ++ dead ++ nb) ++ (rest ++ na)) :=
      List.Perm.append out.before out.after
    have h2 := (h1.trans (perm_shuffle _ _ _ _ _)).map Prod.fst
    simpa [keys] using h2
  have hold : (keys (s.before ++ y :: rest)).Nodup := by
    have := h.ids
    rwa [ha] at this
  rcases out.cases with ⟨c1, c2, c3, c4, c5, c6⟩ | ⟨⟨junk, c1⟩, c2, c3, c4, c5⟩
  · subst c1 c2 c3
    refine ⟨by omega, ?_, by simp, ?_, ?_, ?_⟩
    · intro id
      rw [c4]
      simp
    · intro z hz
      simp only [List.append_nil, List.mem_singleton] at hz
      subst hz
      refine ⟨by rw [c4]; exact a3, by rw [c5]; exact hy, a1, a2⟩
    · rw [hpk.nodup_iff]
      have e1 : (keys (s.before ++ [] ++ rest)
          ++ keys ([(y.1, hashMembers X fs p y.2)] ++ ([] : List (Nat × FilesGroup)))).Perm
          (keys (s.before ++ y :: rest)) := by
        simp only [keys, List.append_nil, List.map_append, List.map_cons, List.map_nil]
        exact (List.perm_append_singleton _ _).trans List.perm_middle.symm
      exact e1.nodup_iff.2 hold
    · left
      refine ⟨c6, ?_, by rw [c4]; exact a3⟩
      rw [out.before.mem_iff]
      simp
  · subst c1
    have hrange : ∀ z ∈ nb ++ na, s.groupId ≤ z.1 ∧ z.1 < s'.groupId := by
      intro z hz
      have := c4.mem_iff.1 (mem_keys_of_mem hz)
      rw [List.mem_range'_1] at this
      omega
    refine ⟨c5, ?_, by simp, ?_, ?_, ?_⟩
    · intro id
      rw [c2]
      simp [or_comm]
    · intro z hz
      obtain ⟨r1, r2⟩ := hrange z hz
      refine ⟨?_, r2, ?_, ?_⟩
      · rw [c2, List.mem_cons]
        rintro (hc | hc)
        · omega
        · have := hrem _ hc
          omega
      · intro x hx
        have := hb x hx
        omega
      · intro x hx
        have := hr x hx
        omega
    · rw [hpk.nodup_iff, List.nodup_append]
      refine ⟨by simpa [keys] using hold, ?_, ?_⟩
      · rw [c4.nodup_iff]
        exact List.nodup_range' _ _
      · intro id h1 h2
        obtain ⟨w, hw⟩ := mem_keys_iff.1 h2
        obtain ⟨r1, _⟩ := hrange _ hw
        simp only at r1
        obtain ⟨v, hv⟩ := mem_keys_iff.1 h1
        have : id < s.groupId := by
          rcases List.mem_append.1 hv with hv | hv
          · rcases List.mem_append.1 hv with hv | hv
            · exact hb _ hv
            · simp only [List.mem_singleton] at hv
              have := congrArg Prod.fst hv
              simp only at this
              omega
          · exact hr _ hv
        omega
    · right
      exact ⟨c3, by rw [c2]; exact List.mem_cons_self _ _⟩

end PassStep2

section PassStep3

variable {X : Externals} {L : Layout} {fs : FileSystem} {p : Process}
  {T : List (Nat × FilesGroup)} {gid0 : Nat} {s : Pass} {y : Nat × FilesGroup}
  {rest : List (Nat × FilesGroup)}

/-- An unfinished group is hashed and, when the hashes differ, split: the
invariant of the pass is kept. -/
theorem PassInv.visit (h : PassInv X L fs p T gid0 s) (ha : s.after = y :: rest)
    (hfin : y.2.isFinished = false) :
    PassInv X L fs p T gid0 (visitGroup X L fs p s y rest) := by
  obtain ⟨a1, a2, a3, _⟩ := h.head_apart ha
  obtain ⟨k, S, hg, hlt⟩ := h.head_lt ha hfin
  have hyin : y ∈ s.after := by rw [ha]; exact List.mem_cons_self _ _
  have hyl : s.live y := Or.inl hyin
  have hb : ∀ x ∈ s.before, x.1 < s.groupId :=
    fun x hx => h.below x (List.mem_append_left _ hx)
  have hy : y.1 < s.groupId := h.below y (List.mem_append_right _ hyin)
  have hr : ∀ x ∈ rest, x.1 < s.groupId :=
    fun x hx => h.below x (List.mem_append_right _ (by rw [ha]; exact List.mem_cons_of_mem _ hx))
  obtain ⟨dead, nb, na, out⟩ := visitGroup_outcome L s y rest hg hlt hb hy hr
  obtain ⟨u1, u2, u3, u4, u5, u6⟩ := out.ids h ha
  generalize visitGroup X L fs p s y rest = s' at out u1 u2 u4 u5 u6 ⊢
  have mb : ∀ x, x ∈ s'.before ↔ x ∈ s.before ∨ x ∈ dead ∨ x ∈ nb := by
    intro x
    rw [out.before.mem_iff, List.mem_append, List.mem_append, or_assoc]
  have ma : ∀ x, x ∈ s'.after ↔ x ∈ rest ∨ x ∈ na := by
    intro x
    rw [out.after.mem_iff, List.mem_append]
  have hold_live : ∀ x, (x ∈ rest ∨ (x ∈ s.before ∧ x.1 ∉ s.removed)) → s.live x := by
    rintro x (h1 | h1)
    · exact Or.inl (by rw [ha]; exact List.mem_cons_of_mem _ h1)
    · exact Or.inr h1
  have hold_ne : ∀ x, (x ∈ rest ∨ (x ∈ s.before ∧ x.1 ∉ s.removed)) → x.1 ≠ y.1 := by
    rintro x (h1 | h1)
    · exact a2 x h1
    · exact a1 x h1.1
  have hlive_old : ∀ x, s.live x → x = y ∨ (x ∈ rest ∨ (x ∈ s.before ∧ x.1 ∉ s.removed)) := by
    rintro x (h1 | h1)
    · rw [ha] at h1
      rcases List.mem_cons.1 h1 with h1 | h1
      · exact Or.inl h1
      · exact Or.inr (Or.inl h1)
    · exact Or.inr (Or.inr h1)
  have hlive : ∀ x, s'.live x ↔
      (x ∈ rest ∨ (x ∈ s.before ∧ x.1 ∉ s.removed)) ∨ x ∈ nb ++ na := by
    intro x
    unfold Pass.live
    rw [mb, ma, List.mem_append]
    constructor
    · rintro ((h1 | h1) | ⟨h1 | h1 | h1, h2⟩)
      · exact Or.inl (Or.inl h1)
      · exact Or.inr (Or.inr h1)
      · exact Or.inl (Or.inr ⟨h1, fun hc => h2 ((u2 _).2 (Or.inl hc))⟩)
      · exfalso
        exact h2 ((u2 _).2 (Or.inr ⟨u3 x h1, List.ne_nil_of_mem h1⟩))
      · exact Or.inr (Or.inl h1)
    · rintro ((h1 | ⟨h1, h2⟩) | h1 | h1)
      · exact Or.inl (Or.inl h1)
      · refine Or.inr ⟨Or.inl h1, ?_⟩
        intro hc
        rcases (u2 _).1 hc with hc | ⟨hc, _⟩
        · exact h2 hc
        · exact a1 x h1 hc
      · exact Or.inr ⟨Or.inr (Or.inr h1), (u4 x (List.mem_append_left _ h1)).1⟩
      · exact Or.inl (Or.inr h1)
  have hsubkeys : ∀ z ∈ nb ++ na, ∀ a, a ∈ keys z.2 → a ∈ keys y.2 := by
    intro z hz a haz
    obtain ⟨v, hv⟩ := mem_keys_iff.1 haz
    have := mem_keys_of_mem (out.sub z hz _ hv)
    rwa [keys_hashMembers] at this
  constructor
  · exact u5
  · intro x hx
    rcases List.mem_append.1 hx with hx | hx
    · rcases (mb x).1 hx with h1 | h1 | h1
      · exact Nat.lt_of_lt_of_le (hb x h1) u1
      · rw [u3 x h1]
        exact Nat.lt_of_lt_of_le hy u1
      · exact (u4 x (List.mem_append_left _ h1)).2.1
    · rcases (ma x).1 hx with h1 | h1
      · exact Nat.lt_of_lt_of_le (hr x h1) u1
      · exact (u4 x (List.mem_append_right _ h1)).2.1
  · intro id hid
    rcases (u2 id).1 hid with h1 | ⟨h1, h2⟩
    · obtain ⟨w, hw⟩ := mem_keys_iff.1 (h.removed id h1)
      exact mem_keys_of_mem ((mb _).2 (Or.inl hw))
    · obtain ⟨z, hz⟩ := List.exists_mem_of_ne_nil _ h2
      have := mem_keys_of_mem ((mb _).2 (Or.inr (Or.inl hz)))
      rwa [u3 z hz, ← h1] at this
  · intro x hx
    rcases (hlive x).1 hx with h1 | h1
    · exact h.group x (hold_live x h1)
    · exact ⟨k + 1, S, out.group x h1⟩
  · intro x x' hx hx' a hax hax'
    rcases (hlive x).1 hx with h1 | h1 <;> rcases (hlive x').1 hx' with h2 | h2
    · exact h.disjoint x x' (hold_live x h1) (hold_live x' h2) a hax hax'
    · exfalso
      have := h.disjoint x y (hold_live x h1) hyl a hax (hsubkeys x' h2 a hax')
      exact hold_ne x h1 (by rw [this])
    · exfalso
      have := h.disjoint x' y (hold_live x' h2) hyl a hax' (hsubkeys x h1 a hax)
      exact hold_ne x' h2 (by rw [this])
    · exact out.apart x h1 x' h2 a hax hax'
  · exact Nat.le_trans h.mono u1
  · intro x hx
    rcases h.fate x hx with h1 | ⟨h1, h2, h3⟩ | ⟨h1, h2, h3, h4⟩ | ⟨h1, h2, h3⟩
    · rw [ha] at h1
      rcases List.mem_cons.1 h1 with h1 | h1
      · subst h1
        rcases u6 with ⟨v1, v2, v3⟩ | ⟨v1, v2⟩
        · exact Or.inr (Or.inr (Or.inl ⟨hfin, v1, v2, v3⟩))
        · exact Or.inr (Or.inr (Or.inr ⟨hfin, v1, v2⟩))
      · exact Or.inl ((ma x).2 (Or.inl h1))
    · refine Or.inr (Or.inl ⟨h1, (mb x).2 (Or.inl h2), ?_⟩)
      intro hc
      rcases (u2 _).1 hc with hc | ⟨hc, _⟩
      · exact h3 hc
      · exact a1 x h2 hc
    · refine Or.inr (Or.inr (Or.inl ⟨h1, h2, (mb _).2 (Or.inl h3), ?_⟩))
      intro hc
      rcases (u2 _).1 hc with hc | ⟨hc, _⟩
      · exact h4 hc
      · exact a1 _ h3 hc
    · exact Or.inr (Or.inr (Or.inr ⟨h1, h2, (u2 _).2 (Or.inl h3)⟩))
  · intro z hz
    rcases (hlive z).1 hz with h1 | h1
    · obtain ⟨x0, hx0, hl⟩ := h.lineage z (hold_live z h1)
      refine ⟨x0, hx0, ?_⟩
      rcases hl with ⟨e1, e2⟩ | e1
      · left
        refine ⟨e1, ?_⟩
        rcases e2 with e2 | e2
        · left
          rw [ha] at e2
          rcases List.mem_cons.1 e2 with e2 | e2
          · exact absurd (by rw [e2]) (hold_ne z h1)
          · exact (ma z).2 (Or.inl e2)
        · exact Or.inr e2
      · exact Or.inr e1
    · obtain ⟨x0, hx0, hl⟩ := h.lineage y hyl
      refine ⟨x0, hx0, Or.inr ?_⟩
      have hpos : ∀ e ∈ z.2, ∀ e0 ∈ y.2, e.2.m_pos = e0.2.m_pos + p.blockSize :=
        fun e he e0 he0 => hg.pos_hashed hlt (out.sub z h1 e he) he0
      rcases hl with ⟨e1, _⟩ | ⟨e1, e2, e3, e4⟩
      · subst e1
        refine ⟨hfin, hsubkeys z h1, ?_, ?_⟩
        · intro e he e0 he0
          exact Nat.le_of_eq (hpos e he e0 he0).symm
        · intro e he e' he' hk hk'
          rw [hg.nextHash_fst hlt he, hg.nextHash_fst hlt he']
          exact out.mates z h1 _ hk _ hk'
      · refine ⟨e1, fun a haz => e2 a (hsubkeys z h1 a haz), ?_, ?_⟩
        · intro e he e0 he0
          obtain ⟨ey, hey⟩ := List.exists_mem_of_ne_nil _ hg.ne_nil
          have h1' := hpos e he ey hey
          have h2' := e3 ey hey e0 he0
          omega
        · intro e he e' he' hk hk'
          exact e4 e he e' he' (hsubkeys z h1 _ hk) (hsubkeys z h1 _ hk')
  · intro x hx a haa b hbb hab hall
    obtain ⟨w, hw, h1, h2⟩ := h.complete x hx a haa b hbb hab hall
    rcases hlive_old w hw with e | e
    · subst e
      obtain ⟨z, hz, z1, z2⟩ := out.complete a h1 b h2 hab (hall k)
      exact ⟨z, (hlive z).2 (Or.inr hz), z1, z2⟩
    · exact ⟨w, (hlive w).2 (Or.inl e), h1, h2⟩

end PassStep3

theorem passMeasure_append (l1 l2 : List (Nat × FilesGroup)) :
    passMeasure (l1 ++ l2) = passMeasure l1 + passMeasure l2 := by
  simp [passMeasure]

theorem passMeasure_perm {l1 l2 : List (Nat × FilesGroup)} (h : l1.Perm l2) :
    passMeasure l1 = passMeasure l2 := by
  unfold passMeasure
  exact (h.map _).sum_eq

theorem passMeasure_le_mul (n : Nat) (l : List (Nat × FilesGroup))
    (h : ∀ z ∈ l, 1 ≤ z.2.length ∧ z.2.length + 1 ≤ n) :
    passMeasure l ≤ (l.map fun z => z.2.length).sum * n := by
  induction l with
  | nil => simp [passMeasure]
  | cons z l ih =>
    have hz := h z (List.mem_cons_self _ _)
    have ih' := ih (fun w hw => h w (List.mem_cons_of_mem _ hw))
    have e : passMeasure (z :: l) = (z.2.length * z.2.length + 1) + passMeasure l := by
      simp [passMeasure]
    rw [e, List.map_cons, List.sum_cons, Nat.add_mul]
    have h1 : z.2.length * z.2.length + 1 ≤ z.2.length * (z.2.length + 1) := by
      rw [Nat.mul_add, Nat.mul_one]
      omega
    have h2 : z.2.length * (z.2.length + 1) ≤ z.2.length * n :=
      Nat.mul_le_mul_left _ hz.2
    omega

theorem sum_lengths_le {n : Nat} (ks : List Path) (l : List (Nat × FilesGroup))
    (hl : l.Nodup) (hn : ∀ z ∈ l, (keys z.2).Nodup)
    (hsub : ∀ z ∈ l, ∀ a, a ∈ keys z.2 → a ∈ ks)
    (hap : ∀ z ∈ l, ∀ z' ∈ l, ∀ a, a ∈ keys z.2 → a ∈ keys z'.2 → z = z')
    (hks : ks.length = n) :
    (l.map fun z => z.2.length).sum ≤ n := by
  have hnd : (l.flatMap fun z => keys z.2).Nodup := by
    rw [List.nodup_flatMap]
    refine ⟨hn, hl.imp_of_mem ?_⟩
    intro z z' hz hz' hne a haz haz'
    exact hne (hap z hz z' hz' a haz haz')
  have hss : (l.flatMap fun z => keys z.2) ⊆ ks := by
    intro a ha
    obtain ⟨z, hz, haz⟩ := List.mem_flatMap.1 ha
    exact hsub z hz a haz
  have hle := (List.subperm_of_subset hnd hss).length_le
  have hlen : (l.flatMap fun z => keys z.2).length = (l.map fun z => z.2.length).sum := by
    rw [List.length_flatMap]
    simp [keys, Function.comp_def]
  omega

section Measure

variable {X : Externals} {L : Layout} {fs : FileSystem} {p : Process}
  {T : List (Nat × FilesGroup)} {gid0 : Nat} {s s' : Pass} {y : Nat × FilesGroup}
  {rest : List (Nat × FilesGroup)} {k S : Nat} {dead nb na : List (Nat × FilesGroup)}

/-- The groups a visit puts behind the walk weigh less than the group
visited. -/
theorem VisitOutcome.measure (out : VisitOutcome X L fs p s y rest k S s' dead nb na)
    (hg : GroupAt X fs p k S y.2) (hlt : k * p.blockSize < S) :
    passMeasure s'.after ≤ passMeasure rest + y.2.length * y.2.length := by
  rw [passMeasure_perm out.after, passMeasure_append]
  refine Nat.add_le_add_left ?_ _
  rcases out.cases with ⟨_, _, c3, _⟩ | ⟨_, _, c3, c4, _⟩
  · rw [c3]
    simp [passMeasure]
  · obtain ⟨a, haa, b, hbb, hab⟩ := hashes_differ_of_multi L hg hlt c3
    have hsubkeys : ∀ z ∈ na, ∀ w, w ∈ keys z.2 → w ∈ keys y.2 := by
      intro z hz w hw
      obtain ⟨v, hv⟩ := mem_keys_iff.1 hw
      have := mem_keys_of_mem (out.sub z (List.mem_append_right _ hz) _ hv)
      rwa [keys_hashMembers] at this
    have hlen : (keys y.2).length = y.2.length := by simp [keys]
    have hbound : ∀ z ∈ na, 1 ≤ z.2.length ∧ z.2.length + 1 ≤ y.2.length := by
      intro z hz
      have hgz := out.group z (List.mem_append_right _ hz)
      refine ⟨Nat.le_trans (by decide) hgz.two, ?_⟩
      have hmiss : ∃ w ∈ keys y.2, w ∉ keys z.2 := by
        by_cases h1 : a ∈ keys z.2
        · refine ⟨b, hbb, fun h2 => hab ?_⟩
          exact out.mates z (List.mem_append_right _ hz) a h1 b h2
        · exact ⟨a, haa, h1⟩
      obtain ⟨w, hw, hwz⟩ := hmiss
      have hss : keys z.2 ⊆ (keys y.2).erase w := by
        intro v hv
        have hne : v ≠ w := fun hc => hwz (hc ▸ hv)
        exact (List.mem_erase_of_ne hne).2 (hsubkeys z hz v hv)
      have h1 := (List.subperm_of_subset hgz.nodup hss).length_le
      rw [List.length_erase_of_mem hw] at h1
      have h2 : 0 < (keys y.2).length := List.length_pos_of_mem hw
      have h3 : (keys z.2).length = z.2.length := by simp [keys]
      omega
    have hnodup : na.Nodup := by
      have h1 : (keys (nb ++ na)).Nodup := c4.nodup_iff.2 (List.nodup_range' _ _)
      exact (List.Nodup.of_map _ h1).of_append_right
    have hsum := sum_lengths_le (keys y.2) na hnodup
      (fun z hz => (out.group z (List.mem_append_right _ hz)).nodup) hsubkeys
      (fun z hz z' hz' w h1 h2 =>
        out.apart z (List.mem_append_right _ hz) z' (List.mem_append_right _ hz') w h1 h2)
      hlen
    exact Nat.le_trans (passMeasure_le_mul _ na hbound) (Nat.mul_le_mul_right _ hsum)

end Measure

/-- The outer loop of `nextStep` ends within the turns `passMeasure` allows,
and the invariant holds when it ends. -/
theorem passLoop_spec {X : Externals} {L : Layout} {fs : FileSystem} {p : Process}
    {T : List (Nat × FilesGroup)} {gid0 : Nat} :
    ∀ (fuel : Nat) (s : Pass), PassInv X L fs p T gid0 s → passMeasure s.after < fuel →
      ∃ r, passLoop X L fs p fuel s = some r ∧ PassInv X L fs p T gid0 r ∧ r.after = [] := by
  intro fuel
  induction fuel with
  | zero =>
    intro s _ h
    exact absurd h (Nat.not_lt_zero _)
  | succ fuel ih =>
    intro s hinv hm
    cases hafter : s.after with
    | nil =>
      refine ⟨s, ?_, hinv, hafter⟩
      simp [passLoop, hafter]
    | cons y rest =>
      rw [hafter] at hm
      have hmy : passMeasure (y :: rest)
          = (y.2.length * y.2.length + 1) + passMeasure rest := by
        simp [passMeasure]
      by_cases hfin : y.2.isFinished = true
      · have hstep : passLoop X L fs p (fuel + 1) s
            = passLoop X L fs p fuel { s with before := s.before ++ [y], after := rest } := by
          simp [passLoop, hafter, hfin]
        rw [hstep]
        exact ih _ (hinv.skip hafter hfin) (by simp only; omega)
      · have hfin' : y.2.isFinished = false := by simpa using hfin
        have hstep : passLoop X L fs p (fuel + 1) s
            = passLoop X L fs p fuel (visitGroup X L fs p s y rest) := by
          simp [passLoop, hafter, hfin']
        rw [hstep]
        obtain ⟨k, S, hg, hlt⟩ := hinv.head_lt hafter hfin'
        have hyin : y ∈ s.after := by rw [hafter]; exact List.mem_cons_self _ _
        obtain ⟨dead, nb, na, out⟩ := visitGroup_outcome L s y rest hg hlt
          (fun x hx => hinv.below x (List.mem_append_left _ hx))
          (hinv.below y (List.mem_append_right _ hyin))
          (fun x hx => hinv.below x
            (List.mem_append_right _ (by rw [hafter]; exact List.mem_cons_of_mem _ hx)))
        have := out.measure hg hlt
        exact ih _ (hinv.visit hafter hfin') (by omega)

section Step

variable {X : Externals} {L : Layout} {fs : FileSystem} {p : Process}
  {T : List (Nat × FilesGroup)} {gid : Nat}

theorem TableOk.passInv (h : TableOk X fs p T gid) :
    PassInv X L fs p T gid { before := [], after := T, removed := [], groupId := gid } := by
  have hlive : ∀ x, Pass.live { before := [], after := T, removed := [], groupId := gid } x
      ↔ x ∈ T := by
    intro x
    simp [Pass.live]
  constructor
  · simpa using h.ids
  · intro x hx
    exact h.below x (by simpa using hx)
  · intro id hid
    cases hid
  · intro x hx
    exact h.group x ((hlive x).1 hx)
  · intro x y hx hy
    exact h.disjoint x ((hlive x).1 hx) y ((hlive y).1 hy)
  · exact Nat.le_refl _
  · intro x hx
    exact Or.inl hx
  · intro y hy
    exact ⟨y, (hlive y).1 hy, Or.inl ⟨rfl, Or.inl ((hlive y).1 hy)⟩⟩
  · intro x hx a ha b hb _ _
    exact ⟨x, (hlive x).2 hx, ha, hb⟩

/-- The pass over a well-formed table is completed within `passFuel` turns,
and its result is described by `StepSpec`. -/
theorem stepTable_spec (L : Layout) (h : TableOk X fs p T gid) :
    (∃ r, passLoop X L fs p (passFuel T)
        { before := [], after := T, removed := [], groupId := gid } = some r ∧
      stepTable X L fs p T gid
        = (erase r.before (fun item => decide (item.1 ∈ r.removed)), r.groupId)) ∧
    StepSpec X L fs p T gid (stepTable X L fs p T gid).1 (stepTable X L fs p T gid).2 := by
  obtain ⟨r, hr, hinv, hafter⟩ := passLoop_spec (L := L) (passFuel T) _ (h.passInv (L := L))
    (by simp [passFuel])
  have hst : stepTable X L fs p T gid
      = (erase r.before (fun item => decide (item.1 ∈ r.removed)), r.groupId) := by
    simp [stepTable, hr]
  refine ⟨⟨r, hr, hst⟩, ?_⟩
  rw [hst]
  have hmem : ∀ x, x ∈ erase r.before (fun item => decide (item.1 ∈ r.removed)) ↔ r.live x := by
    intro x
    rw [mem_erase]
    simp [Pass.live, hafter]
  constructor
  · constructor
    · have h1 := hinv.ids
      rw [hafter, List.append_nil] at h1
      exact h1.sublist ((List.filter_sublist _).map Prod.fst)
    · intro x hx
      have := ((hmem x).1 hx)
      rcases this with h1 | h1
      · rw [hafter] at h1
        cases h1
      · exact hinv.below x (List.mem_append_left _ h1.1)
    · intro x hx
      exact hinv.group x ((hmem x).1 hx)
    · intro x hx y hy
      exact hinv.disjoint x y ((hmem x).1 hx) ((hmem y).1 hy)
  · exact hinv.mono
  · intro x hx hfin
    rcases hinv.fate x hx with h1 | ⟨_, h2, h3⟩ | ⟨h1, _⟩ | ⟨h1, _⟩
    · rw [hafter] at h1
      cases h1
    · exact (hmem x).2 (Or.inr ⟨h2, h3⟩)
    · rw [hfin] at h1
      cases h1
    · rw [hfin] at h1
      cases h1
  · intro x hx hfin hlen
    rcases hinv.fate x hx with h1 | ⟨h1, _⟩ | ⟨_, _, h3, h4⟩ | ⟨_, h2, _⟩
    · rw [hafter] at h1
      cases h1
    · rw [hfin] at h1
      cases h1
    · exact (hmem _).2 (Or.inr ⟨h3, h4⟩)
    · omega
  · intro x hx hfin hlen hk
    rcases hinv.fate x hx with h1 | ⟨h1, _⟩ | ⟨_, h2, _⟩ | ⟨_, _, h3⟩
    · rw [hafter] at h1
      cases h1
    · rw [hfin] at h1
      cases h1
    · omega
    · obtain ⟨w, hw⟩ := mem_keys_iff.1 hk
      rcases (hmem _).1 hw with h1 | h1
      · rw [hafter] at h1
        cases h1
      · exact h1.2 h3
  · intro y hy
    obtain ⟨x, hx, hl⟩ := hinv.lineage y ((hmem y).1 hy)
    refine ⟨x, hx, ?_⟩
    rcases hl with ⟨h1, h2 | h2⟩ | h1
    · rw [hafter] at h2
      cases h2
    · exact Or.inl ⟨h1, h2⟩
    · exact Or.inr h1
  · intro x hx a ha b hb hab hall
    obtain ⟨y, hy, h1, h2⟩ := hinv.complete x hx a ha b hb hab hall
    exact ⟨y, (hmem y).2 hy, h1, h2⟩

end Step

section Congr

variable {X : Externals} {L : Layout} {fs : FileSystem} {p q : Process}

theorem nextHash_congr (h1 : p.blockSize = q.blockSize) (h2 : p.checkSum = q.checkSum)
    (f : FileInfo) : f.nextHash X fs p = f.nextHash X fs q := by
  simp [FileInfo.nextHash, h1, h2]

theorem visitGroup_congr (h1 : p.blockSize = q.blockSize) (h2 : p.checkSum = q.checkSum)
    (s : Pass) (y : Nat × FilesGroup) (rest : List (Nat × FilesGroup)) :
    visitGroup X L fs p s y rest = visitGroup X L fs q s y rest := by
  simp [visitGroup, hashMembers, hashGroupsOf, nextHash_congr h1 h2]

theorem passLoop_congr (h1 : p.blockSize = q.blockSize) (h2 : p.checkSum = q.checkSum) :
    ∀ (fuel : Nat) (s : Pass), passLoop X L fs p fuel s = passLoop X L fs q fuel s := by
  intro fuel
  induction fuel with
  | zero => intro s; rfl
  | succ fuel ih =>
    intro s
    unfold passLoop
    cases s.after with
    | nil => rfl
    | cons y rest =>
      simp only
      rw [ih, ih, visitGroup_congr h1 h2]

theorem stepTable_congr (h1 : p.blockSize = q.blockSize) (h2 : p.checkSum = q.checkSum)
    (T : List (Nat × FilesGroup)) (gid : Nat) :
    stepTable X L fs p T gid = stepTable X L fs q T gid := by
  simp [stepTable, passLoop_congr h1 h2]

end Congr

section Iterate

variable {X : Externals} {L : Layout} {fs : FileSystem}

/-- Repeated calls of `Searcher::nextStep` act on the table and the id
counter as `passes` does, and leave the block size and the checksum alone. -/
theorem nextStep_iterate (n : Nat) (ps : Process × Searcher) :
    ((Searcher.nextStep X L fs)^[n] ps).2.m_filesGroups
        = (passes X L fs ps.1 n ps.2.m_filesGroups ps.1.groupId).1 ∧
    ((Searcher.nextStep X L fs)^[n] ps).1.groupId
        = (passes X L fs ps.1 n ps.2.m_filesGroups ps.1.groupId).2 ∧
    ((Searcher.nextStep X L fs)^[n] ps).1.blockSize = ps.1.blockSize ∧
    ((Searcher.nextStep X L fs)^[n] ps).1.checkSum = ps.1.checkSum := by
  induction n with
  | zero => exact ⟨rfl, rfl, rfl, rfl⟩
  | succ n ih =>
    obtain ⟨i1, i2, i3, i4⟩ := ih
    rw [Function.iterate_succ_apply']
    have hc := @stepTable_congr X L fs _ _ i3 i4
      ((Searcher.nextStep X L fs)^[n] ps).2.m_filesGroups
      ((Searcher.nextStep X L fs)^[n] ps).1.groupId
    refine ⟨?_, ?_, ?_, ?_⟩
    · show (stepTable X L fs _ _ _).1 = _
      rw [hc, i1, i2]
      rfl
    · show (stepTable X L fs _ _ _).2 = _
      rw [hc, i1, i2]
      rfl
    · exact i3
    · exact i4

theorem findLoop_of_first (n : Nat) :
    ∀ (ps : Process × Searcher),
      allFinished ((Searcher.nextStep X L fs)^[n] ps).2.m_filesGroups = true →
      (∀ m, m < n → allFinished ((Searcher.nextStep X L fs)^[m] ps).2.m_filesGroups = false) →
      ∀ fuel, n ≤ fuel →
        Searcher.findLoop X L fs fuel ps = some ((Searcher.nextStep X L fs)^[n] ps) := by
  induction n with
  | zero =>
    intro ps h0 _ fuel _
    have h0' : allFinished ps.2.m_filesGroups = true := h0
    cases fuel with
    | zero =>
      unfold Searcher.findLoop
      rw [if_pos h0']
      rfl
    | succ fuel =>
      unfold Searcher.findLoop
      rw [if_pos h0']
      rfl
  | succ n ih =>
    intro ps hn hlt fuel hfuel
    cases fuel with
    | zero => omega
    | succ fuel =>
      have h0 := hlt 0 (Nat.succ_pos _)
      have h0' : allFinished ps.2.m_filesGroups = false := h0
      unfold Searcher.findLoop
      rw [h0']
      simp only [Bool.false_eq_true, if_false]
      rw [Function.iterate_succ_apply]
      apply ih
      · rw [← Function.iterate_succ_apply]
        exact hn
      · intro m hm
        rw [← Function.iterate_succ_apply]
        exact hlt (m + 1) (by omega)
      · omega

theorem findLoop_some :
    ∀ (fuel : Nat) (ps r : Process × Searcher), Searcher.findLoop X L fs fuel ps = some r →
      ∃ n, n ≤ fuel ∧ r = (Searcher.nextStep X L fs)^[n] ps ∧
        allFinished r.2.m_filesGroups = true ∧
        ∀ m, m < n → allFinished ((Searcher.nextStep X L fs)^[m] ps).2.m_filesGroups = false := by
  intro fuel
  induction fuel with
  | zero =>
    intro ps r h
    unfold Searcher.findLoop at h
    by_cases hf : allFinished ps.2.m_filesGroups = true
    · rw [if_pos hf] at h
      have := Option.some.inj h
      subst this
      exact ⟨0, Nat.le_refl _, rfl, hf, fun m hm => absurd hm (Nat.not_lt_zero _)⟩
    · rw [if_neg hf] at h
      cases h
  | succ fuel ih =>
    intro ps r h
    unfold Searcher.findLoop at h
    by_cases hf : allFinished ps.2.m_filesGroups = true
    · rw [if_pos hf] at h
      have := Option.some.inj h
      subst this
      exact ⟨0, Nat.zero_le _, rfl, hf, fun m hm => absurd hm (Nat.not_lt_zero _)⟩
    · rw [if_neg hf] at h
      obtain ⟨n, h1, h2, h3, h4⟩ := ih _ r h
      refine ⟨n + 1, by omega, ?_, h3, ?_⟩
      · rw [Function.iterate_succ_apply]
        exact h2
      · intro m hm
        cases m with
        | zero => simpa using hf
        | succ m =>
          rw [Function.iterate_succ_apply]
          exact h4 m (by omega)

end Iterate

section Passes

variable {X : Externals} {L : Layout} {fs : FileSystem} {p : Process}
  {T : List (Nat × FilesGroup)} {gid : Nat}

theorem passes_spec (h : TableOk X fs p T gid) (n : Nat) :
    TableOk X fs p (passes X L fs p n T gid).1 (passes X L fs p n T gid).2 ∧
    StepSpec X L fs p (passes X L fs p n T gid).1 (passes X L fs p n T gid).2
      (passes X L fs p (n + 1) T gid).1 (passes X L fs p (n + 1) T gid).2 := by
  induction n with
  | zero => exact ⟨h, (stepTable_spec L h).2⟩
  | succ n ih => exact ⟨ih.2.ok, (stepTable_spec L ih.2.ok).2⟩

/-- After `n` passes every group is finished or has been hashed for at
least `n` blocks. -/
theorem passes_progress (h : TableOk X fs p T gid) (n : Nat) :
    ∀ x ∈ (passes X L fs p n T gid).1,
      x.2.isFinished = true ∨ ∀ e ∈ x.2, n * p.blockSize ≤ e.2.m_pos := by
  induction n with
  | zero =>
    intro x _
    right
    intro e _
    simp
  | succ n ih =>
    intro y hy
    obtain ⟨hok, hspec⟩ := passes_spec (L := L) h n
    obtain ⟨x, hx, hl⟩ := hspec.lineage y hy
    rcases hl with ⟨h1, h2⟩ | ⟨h1, _, h3, _⟩
    · left
      rw [h1]
      exact h2
    · right
      intro e he
      rcases ih x hx with h4 | h4
      · rw [h1] at h4
        cases h4
      · obtain ⟨k, S, hg⟩ := hok.group x hx
        obtain ⟨e0, he0⟩ := List.exists_mem_of_ne_nil _ hg.ne_nil
        have := h3 e he e0 he0
        have := h4 e0 he0
        rw [Nat.add_mul, Nat.one_mul]
        omega

/-- Every group of a later table is made of members of one group of the
first table. -/
theorem passes_lineage (h : TableOk X fs p T gid) (n : Nat) :
    ∀ y ∈ (passes X L fs p n T gid).1, ∃ x ∈ T, ∀ a ∈ keys y.2, a ∈ keys x.2 := by
  induction n with
  | zero =>
    intro y hy
    exact ⟨y, hy, fun a ha => ha⟩
  | succ n ih =>
    intro y hy
    obtain ⟨_, hspec⟩ := passes_spec (L := L) h n
    obtain ⟨x, hx, hl⟩ := hspec.lineage y hy
    obtain ⟨x0, hx0, hsub⟩ := ih x hx
    refine ⟨x0, hx0, ?_⟩
    rcases hl with ⟨h1, _⟩ | ⟨_, h2, _, _⟩
    · rw [h1]
      exact hsub
    · intro a ha
      exact hsub a (h2 a ha)

/-- Two files of one group whose blocks all hash alike are never parted. -/
theorem passes_complete (h : TableOk X fs p T gid) (n : Nat) :
    ∀ x ∈ T, ∀ a ∈ keys x.2, ∀ b ∈ keys x.2, a ≠ b →
      (∀ i, hashAt X fs p a i = hashAt X fs p b i) →
      ∃ y ∈ (passes X L fs p n T gid).1, a ∈ keys y.2 ∧ b ∈ keys y.2 := by
  induction n with
  | zero =>
    intro x hx a ha b hb _ _
    exact ⟨x, hx, ha, hb⟩
  | succ n ih =>
    intro x hx a ha b hb hab hall
    obtain ⟨_, hspec⟩ := passes_spec (L := L) h n
    obtain ⟨y, hy, h1, h2⟩ := ih x hx a ha b hb hab hall
    exact hspec.complete y hy a h1 b h2 hab hall

/-- A finished group stays in the table as it is. -/
theorem passes_finished (h : TableOk X fs p T gid) (n m : Nat) :
    ∀ x ∈ (passes X L fs p n T gid).1, x.2.isFinished = true →
      x ∈ (passes X L fs p (n + m) T gid).1 := by
  induction m with
  | zero =>
    intro x hx _
    exact hx
  | succ m ih =>
    intro x hx hfin
    obtain ⟨_, hspec⟩ := passes_spec (L := L) h (n + m)
    exact hspec.finished x (ih x hx hfin) hfin

theorem le_foldr_max {l : List Nat} {x : Nat} (h : x ∈ l) : x ≤ l.foldr max 0 := by
  induction l with
  | nil => cases h
  | cons a l ih =>
    rw [List.foldr_cons]
    rcases List.mem_cons.1 h with h1 | h1
    · rw [h1]
      exact Nat.le_max_left _ _
    · exact Nat.le_trans (ih h1) (Nat.le_max_right _ _)

theorem le_largestSize {x : Nat × FilesGroup} {e : Path × FileInfo} (hx : x ∈ T)
    (he : e ∈ x.2) : e.2.m_size ≤ largestSize T := by
  apply le_foldr_max
  rw [List.mem_flatMap]
  exact ⟨x, hx, List.mem_map_of_mem (fun file => file.2.m_size) he⟩

theorem le_blockCount_mul {bs : Nat} (hbs : 0 < bs) (S : Nat) : S ≤ blockCount bs S * bs := by
  unfold blockCount
  have h1 := Nat.div_add_mod (S + bs - 1) bs
  have h2 := Nat.mod_lt (S + bs - 1) hbs
  rw [Nat.mul_comm] at h1
  omega

theorem blockCount_mono {bs S S' : Nat} (h : S ≤ S') : blockCount bs S ≤ blockCount bs S' := by
  unfold blockCount
  exact Nat.div_le_div_right (by omega)

/-- After as many passes as the largest file has blocks every group is
finished. -/
theorem passes_allFinished (h : TableOk X fs p T gid) (hbs : 0 < p.blockSize) :
    allFinished (passes X L fs p (blockCount p.blockSize (largestSize T)) T gid).1 = true := by
  unfold allFinished
  rw [List.all_eq_true]
  intro x hx
  obtain ⟨hok, _⟩ := passes_spec (L := L) h (blockCount p.blockSize (largestSize T))
  rcases passes_progress h _ x hx with h1 | h1
  · exact h1
  · obtain ⟨k, S, hg⟩ := hok.group x hx
    obtain ⟨e, he⟩ := List.exists_mem_of_ne_nil _ hg.ne_nil
    obtain ⟨x0, hx0, hsub⟩ := passes_lineage h _ x hx
    obtain ⟨v, hv⟩ := mem_keys_iff.1 (hsub e.1 (mem_keys_of_mem he))
    obtain ⟨k0, S0, hg0⟩ := h.group x0 hx0
    have hS : S ≤ largestSize T := by
      have h2 := le_largestSize hx0 hv
      rw [(hg0.file _ hv).size] at h2
      simp only at h2
      rw [hg.size e.1 (mem_keys_of_mem he)] at h2
      exact h2
    have h3 := h1 e he
    rw [(hg.file e he).pos] at h3
    have h4 := le_blockCount_mul hbs (largestSize T)
    rw [hg.isFinished_eq]
    simp only [decide_eq_true_eq]
    omega

end Passes

theorem two_le_length_of_ne {α : Type} {l : List α} {a b : α} (ha : a ∈ l) (hb : b ∈ l)
    (hab : a ≠ b) : 2 ≤ l.length := by
  match l, ha, hb with
  | [x], h1, h2 =>
    rw [List.mem_singleton] at h1 h2
    exact absurd (h1.trans h2.symm) hab
  | _ :: _ :: _, _, _ => simp

theorem exists_ne_of_two_le {α : Type} {l : List α} (hn : l.Nodup) (h : 2 ≤ l.length) :
    ∃ a ∈ l, ∃ b ∈ l, a ≠ b := by
  match l, hn, h with
  | x :: y :: _, hn, _ =>
    refine ⟨x, by simp, y, by simp, ?_⟩
    intro hc
    simp [hc] at hn

theorem foldl_makeGroup (L : Layout) (fs : FileSystem) (files : List Path) :
    ∀ g : FilesGroup, (keys g).Nodup → (∀ e ∈ g, e.2 = FileInfo.ofPath fs e.1) →
      (keys (files.foldl (fun g file =>
          assign L.fileSlot FileInfo.default g file (FileInfo.ofPath fs file)) g)).Nodup ∧
      (∀ a, a ∈ keys (files.foldl (fun g file =>
          assign L.fileSlot FileInfo.default g file (FileInfo.ofPath fs file)) g)
        ↔ a ∈ files ∨ a ∈ keys g) ∧
      ∀ e ∈ files.foldl (fun g file =>
          assign L.fileSlot FileInfo.default g file (FileInfo.ofPath fs file)) g,
        e.2 = FileInfo.ofPath fs e.1 := by
  induction files with
  | nil =>
    intro g h1 h2
    exact ⟨h1, fun a => by simp, h2⟩
  | cons file files ih =>
    intro g h1 h2
    rw [List.foldl_cons]
    have h3 : ∀ e ∈ assign L.fileSlot FileInfo.default g file (FileInfo.ofPath fs file),
        e.2 = FileInfo.ofPath fs e.1 := by
      intro e he
      rcases mem_assign.1 he with h | ⟨h, _⟩
      · rw [h]
      · exact h2 e h
    obtain ⟨r1, r2, r3⟩ := ih _ (nodup_keys_assign h1) h3
    refine ⟨r1, ?_, r3⟩
    intro a
    rw [r2, keys_assign_mem, List.mem_cons]
    tauto

theorem makeGroup_spec (L : Layout) (fs : FileSystem) (files : List Path) :
    (keys (makeGroup L fs files)).Nodup ∧
    (∀ a, a ∈ keys (makeGroup L fs files) ↔ a ∈ files) ∧
    ∀ e ∈ makeGroup L fs files, e.2 = FileInfo.ofPath fs e.1 := by
  obtain ⟨r1, r2, r3⟩ := foldl_makeGroup L fs files [] (by simp [keys])
    (fun e he => by cases he)
  refine ⟨r1, ?_, r3⟩
  intro a
  rw [makeGroup, r2]
  simp [keys]

/-- The group `findGroups` makes from a bucket of at least two different
files of size `S` is well formed, with nothing hashed yet. -/
theorem makeGroup_groupAt (X : Externals) (L : Layout) (fs : FileSystem) (p : Process)
    (hbs : 0 < p.blockSize) {files : List Path} {S : Nat}
    (hsize : ∀ a ∈ files, fs.fileSize a = S) (htwo : ∃ a ∈ files, ∃ a' ∈ files, a ≠ a') :
    GroupAt X fs p 0 S (makeGroup L fs files) := by
  obtain ⟨r1, r2, r3⟩ := makeGroup_spec L fs files
  constructor
  · exact r1
  · obtain ⟨a, ha, a', ha', hne⟩ := htwo
    have := two_le_length_of_ne ((r2 a).2 ha) ((r2 a').2 ha') hne
    simpa [keys] using this
  · intro e he
    have h1 := r3 e he
    constructor
    · rw [h1]; rfl
    · rw [h1]; rfl
    · rw [h1]; simp [FileInfo.ofPath]
    · rw [h1]; simp [FileInfo.ofPath, FileInfo.stream]
    · rw [h1]; rfl
  · intro a ha
    exact hsize a ((r2 a).1 ha)
  · omega
  · intro a _ b _ i hi
    exact absurd hi (Nat.not_lt_zero _)

theorem fillGroups_spec (L : Layout) (fs : FileSystem) (sg : List (Nat × List Path)) :
    ∀ (tbl : List (Nat × FilesGroup)) (gid : Nat), (keys tbl).Nodup →
      (∀ x ∈ tbl, x.1 < gid) →
      (fillGroups L fs sg tbl gid).2 = gid + sg.length ∧
      (keys (fillGroups L fs sg tbl gid).1).Nodup ∧
      (∀ x ∈ (fillGroups L fs sg tbl gid).1, x.1 < gid + sg.length) ∧
      ∀ x, x ∈ (fillGroups L fs sg tbl gid).1 ↔
        x ∈ tbl ∨ ∃ i b, sg[i]? = some b ∧ x = (gid + i, makeGroup L fs b.2) := by
  induction sg with
  | nil =>
    intro tbl gid h1 h2
    exact ⟨rfl, h1, h2, fun x => by simp [fillGroups]⟩
  | cons b sg ih =>
    intro tbl gid h1 h2
    have hstep : fillGroups L fs (b :: sg) tbl gid
        = fillGroups L fs sg (assign L.groupSlot [] tbl gid (makeGroup L fs b.2)) (gid + 1) := by
      simp [fillGroups]
    have h3 : ∀ x ∈ assign L.groupSlot [] tbl gid (makeGroup L fs b.2), x.1 < gid + 1 := by
      intro x hx
      rcases mem_assign.1 hx with h | ⟨h, _⟩
      · rw [h]
        exact Nat.lt_succ_self _
      · exact Nat.lt_succ_of_lt (h2 x h)
    obtain ⟨r1, r2, r3, r4⟩ := ih _ (gid + 1) (nodup_keys_assign h1) h3
    rw [hstep]
    refine ⟨?_, r2, ?_, ?_⟩
    · rw [r1, List.length_cons]
      omega
    · intro x hx
      have := r3 x hx
      rw [List.length_cons]
      omega
    · intro x
      rw [r4, mem_assign]
      constructor
      · rintro ((h | ⟨h, _⟩) | ⟨i, b', h, rfl⟩)
        · exact Or.inr ⟨0, b, by simp, h⟩
        · exact Or.inl h
        · exact Or.inr ⟨i + 1, b', by simpa using h, by rw [Nat.add_assoc, Nat.add_comm 1 i]⟩
      · rintro (h | ⟨i, b', h, rfl⟩)
        · refine Or.inl (Or.inr ⟨h, ?_⟩)
          have := h2 x h
          omega
        · cases i with
          | zero =>
            simp only [List.getElem?_cons_zero, Option.some.injEq] at h
            subst h
            exact Or.inl (Or.inl rfl)
          | succ i =>
            refine Or.inr ⟨i, b', by simpa using h, ?_⟩
            rw [Nat.add_assoc, Nat.add_comm 1 i]

theorem index_eq_of_key_eq {α β : Type} [DecidableEq α] {l : List (α × β)} (hn : (keys l).Nodup) :
    ∀ {i j : Nat} {b b' : α × β}, l[i]? = some b → l[j]? = some b' → b.1 = b'.1 → i = j := by
  induction l with
  | nil =>
    intro i j b b' h
    simp at h
  | cons x l ih =>
    intro i j b b' h1 h2 hk
    have hn' : x.1 ∉ keys l ∧ (keys l).Nodup := by
      simpa [keys] using hn
    cases i with
    | zero =>
      cases j with
      | zero => rfl
      | succ j =>
        exfalso
        simp only [List.getElem?_cons_zero, Option.some.injEq] at h1
        simp only [List.getElem?_cons_succ] at h2
        have := mem_keys_of_mem (List.getElem?_mem h2)
        rw [← hk, ← h1] at this
        exact hn'.1 this
    | succ i =>
      cases j with
      | zero =>
        exfalso
        simp only [List.getElem?_cons_zero, Option.some.injEq] at h2
        simp only [List.getElem?_cons_succ] at h1
        have := mem_keys_of_mem (List.getElem?_mem h1)
        rw [hk, ← h2] at this
        exact hn'.1 this
      | succ j =>
        simp only [List.getElem?_cons_succ] at h1 h2
        rw [ih hn'.2 h1 h2 hk]

/-- The table `findGroups` builds from well-formed buckets, starting from
an empty table, is well formed; every group is at block 0. -/
theorem fillGroups_tableOk (X : Externals) (L : Layout) (fs : FileSystem) (p : Process)
    (hbs : 0 < p.blockSize) {sg : List (Nat × List Path)} (hsg : InitialBuckets fs sg)
    (gid : Nat) :
    TableOk X fs p (fillGroups L fs sg [] gid).1 (fillGroups L fs sg [] gid).2 ∧
    (∀ x ∈ (fillGroups L fs sg [] gid).1, ∃ S, GroupAt X fs p 0 S x.2) ∧
    ∀ x, x ∈ (fillGroups L fs sg [] gid).1 ↔
      ∃ i b, sg[i]? = some b ∧ x = (gid + i, makeGroup L fs b.2) := by
  obtain ⟨r1, r2, r3, r4⟩ := fillGroups_spec L fs sg [] gid (by simp [keys])
    (fun x hx => by cases hx)
  have r5 : ∀ x, x ∈ (fillGroups L fs sg [] gid).1 ↔
      ∃ i b, sg[i]? = some b ∧ x = (gid + i, makeGroup L fs b.2) := by
    intro x
    rw [r4]
    simp
  have hgrp : ∀ x ∈ (fillGroups L fs sg [] gid).1, ∃ S, GroupAt X fs p 0 S x.2 := by
    intro x hx
    obtain ⟨i, b, hb, rfl⟩ := (r5 x).1 hx
    have hmem := List.getElem?_mem hb
    exact ⟨b.1, makeGroup_groupAt X L fs p hbs (hsg.2.1 b hmem) (hsg.2.2 b hmem)⟩
  refine ⟨?_, hgrp, r5⟩
  constructor
  · exact r2
  · intro x hx
    rw [r1]
    exact r3 x hx
  · intro x hx
    obtain ⟨S, hS⟩ := hgrp x hx
    exact ⟨0, S, hS⟩
  · intro x hx y hy a hax hay
    obtain ⟨i, b, hb, rfl⟩ := (r5 x).1 hx
    obtain ⟨j, b', hb', rfl⟩ := (r5 y).1 hy
    have h1 := ((makeGroup_spec L fs b.2).2.1 a).1 hax
    have h2 := ((makeGroup_spec L fs b'.2).2.1 a).1 hay
    have hk : b.1 = b'.1 := by
      rw [← hsg.2.1 b (List.getElem?_mem hb) a h1,
        ← hsg.2.1 b' (List.getElem?_mem hb') a h2]
    have hij := index_eq_of_key_eq hsg.1 hb hb' hk
    subst hij
    rw [hb] at hb'
    rw [Option.some.inj hb']

theorem classOf_map_self {α : Type} (f : α → Nat) (l : List α) (h : Nat) :
    classOf (l.map fun e => (f e, e)) h = l.filter fun e => decide (f e = h) := by
  induction l with
  | nil => rfl
  | cons a l ih =>
    rw [List.map_cons, classOf_cons, ih, List.filter_cons]
    by_cases ha : f a = h <;> simp [ha]

theorem buckets_after_files (L : Layout) (fs : FileSystem) {sg : List (Nat × List Path)}
    {found : List Path} (hsg : InitialBuckets fs sg) (hfound : found.Nodup) :
    InitialBuckets fs
      (erase (found.foldl (fun m e => pushBack L.sizeSlot m (fs.fileSize e) e) sg)
        (fun item => decide (item.2.length = 1))) := by
  have hfold : found.foldl (fun m e => pushBack L.sizeSlot m (fs.fileSize e) e) sg
      = (found.map fun e => (fs.fileSize e, e)).foldl
          (fun m x => pushBack L.sizeSlot m x.1 x.2) sg := by
    rw [List.foldl_map]
  obtain ⟨f1, f2, f3⟩ := foldl_pushBack L.sizeSlot
    (found.map fun e => (fs.fileSize e, e)) sg hsg.1
  rw [← hfold] at f1 f2 f3
  generalize found.foldl (fun m e => pushBack L.sizeSlot m (fs.fileSize e) e) sg = filled
    at f1 f2 f3
  have hb2 : ∀ b ∈ filled, b.2 = getD [] sg b.1
      ++ found.filter fun e => decide (fs.fileSize e = b.1) := by
    intro b hb
    have := (mem_iff_getD (d := ([] : List Path)) f1).1 hb
    rw [← this.2, f3, classOf_map_self]
  refine ⟨?_, ?_, ?_⟩
  · exact f1.sublist ((List.filter_sublist _).map Prod.fst)
  · intro b hb a ha
    obtain ⟨hb1, _⟩ := mem_erase.1 hb
    rw [hb2 b hb1, List.mem_append] at ha
    rcases ha with ha | ha
    · by_cases hk : b.1 ∈ keys sg
      · obtain ⟨v, hv⟩ := mem_keys_iff.1 hk
        rw [getD_of_mem hsg.1 hv] at ha
        exact hsg.2.1 _ hv a ha
      · rw [getD_of_not_mem hk] at ha
        cases ha
    · simpa using (List.mem_filter.1 ha).2
  · intro b hb
    obtain ⟨hb1, hlen⟩ := mem_erase.1 hb
    have hlen' : b.2.length ≠ 1 := by simpa using hlen
    by_cases hk : b.1 ∈ keys sg
    · obtain ⟨v, hv⟩ := mem_keys_iff.1 hk
      obtain ⟨a, ha, a', ha', hne⟩ := hsg.2.2 _ hv
      have hsub : ∀ x ∈ v, x ∈ b.2 := by
        intro x hx
        rw [hb2 b hb1, getD_of_mem hsg.1 hv]
        exact List.mem_append_left _ hx
      exact ⟨a, hsub a ha, a', hsub a' ha', hne⟩
    · have hb3 := hb2 b hb1
      rw [getD_of_not_mem hk, List.nil_append] at hb3
      have hn : b.2.Nodup := by
        rw [hb3]
        exact hfound.filter _
      have hne : b.2 ≠ [] := by
        have h1 := (f2 b.1).1 (mem_keys_of_mem hb1)
        rcases h1 with h1 | h1
        · exact absurd h1 hk
        · obtain ⟨w, hw⟩ := mem_keys_iff.1 h1
          obtain ⟨e, he, hew⟩ := List.mem_map.1 hw
          have hsz : fs.fileSize e = b.1 := congrArg Prod.fst hew
          have : e ∈ b.2 := by
            rw [hb3]
            exact List.mem_filter.2 ⟨he, by simpa using hsz⟩
          exact List.ne_nil_of_mem this
      have h2 : 2 ≤ b.2.length := by
        have := List.length_pos.2 hne
        omega
      exact exists_ne_of_two_le hn h2

/-- One include directory read by `groupBySize` keeps the buckets well
formed, when the directory iterator reports no path twice. -/
theorem scanDirectory_buckets (X : Externals) (L : Layout) (fs : FileSystem) (s : Searcher)
    (level : Int) {sg : List (Nat × List Path)} (directory : Path)
    (hsg : InitialBuckets fs sg)
    (hw : (walk fs s.m_excludeDirs (level + 1).toNat directory).Nodup) :
    InitialBuckets fs (s.scanDirectory X L fs level sg directory) :=
  buckets_after_files L fs hsg (hw.filter _)

theorem initialBuckets_nil {fs : FileSystem} : InitialBuckets fs [] := by
  unfold InitialBuckets
  simp [keys]

theorem foldl_scanDirectory_buckets (X : Externals) (L : Layout) (fs : FileSystem)
    (s : Searcher) (level : Int) (dirs : List Path) :
    ∀ sg : List (Nat × List Path), InitialBuckets fs sg →
      (∀ d ∈ dirs, (walk fs s.m_excludeDirs (level + 1).toNat d).Nodup) →
      InitialBuckets fs (dirs.foldl (s.scanDirectory X L fs level) sg) := by
  induction dirs with
  | nil =>
    intro sg h _
    exact h
  | cons d dirs ih =>
    intro sg h hw
    rw [List.foldl_cons]
    exact ih _ (scanDirectory_buckets X L fs s level d h (hw d (List.mem_cons_self _ _)))
      (fun d' hd' => hw d' (List.mem_cons_of_mem _ hd'))

/-- The buckets `groupBySize` returns are well formed: one per size, files
of that size, at least two different ones, whatever the include
directories are. -/
theorem groupBySize_buckets (X : Externals) (L : Layout) (fs : FileSystem) (s : Searcher)
    (level : Int)
    (hw : ∀ d ∈ s.m_includeDirs, (walk fs s.m_excludeDirs (level + 1).toNat d).Nodup) :
    InitialBuckets fs (s.groupBySize X L fs level) :=
  foldl_scanDirectory_buckets X L fs s level s.m_includeDirs []
    initialBuckets_nil hw

section SinglePass

variable {X : Externals} {L : Layout} {fs : FileSystem}

theorem hashGroups_length_le_one (L : Layout) (p : Process) (g : FilesGroup)
    (hsame : ∀ e ∈ g, ∀ e' ∈ g, (e.2.nextHash X fs p).1 = (e'.2.nextHash X fs p).1) :
    (hashGroupsOf X L fs p g).length ≤ 1 := by
  obtain ⟨h1, h2, _⟩ := foldl_pushBack L.hashSlot
    (g.map fun file => ((file.2.nextHash X fs p).1, file.1)) [] (by simp [keys])
  rw [← hashGroupsOf_eq] at h1 h2
  have hl : (keys (hashGroupsOf X L fs p g)).length = (hashGroupsOf X L fs p g).length := by
    simp [keys]
  rw [← hl]
  generalize keys (hashGroupsOf X L fs p g) = ks at h1 h2
  match ks, h1, h2 with
  | [], _, _ => simp
  | [_], _, _ => simp
  | a :: b :: _, h1, h2 =>
    exfalso
    have ha := (h2 a).1 (by simp)
    have hb := (h2 b).1 (by simp)
    simp only [keys, List.map_nil, List.not_mem_nil, false_or, List.map_map, List.mem_map,
      Function.comp_apply] at ha hb
    obtain ⟨e, he, rfl⟩ := ha
    obtain ⟨e', he', rfl⟩ := hb
    have := hsame e he e' he'
    simp [this] at h1

theorem hashGroups_length_gt_one (L : Layout) (p : Process) (g : FilesGroup)
    (hdiff : ∃ e ∈ g, ∃ e' ∈ g, (e.2.nextHash X fs p).1 ≠ (e'.2.nextHash X fs p).1) :
    (hashGroupsOf X L fs p g).length > 1 := by
  obtain ⟨h1, h2, _⟩ := foldl_pushBack L.hashSlot
    (g.map fun file => ((file.2.nextHash X fs p).1, file.1)) [] (by simp [keys])
  rw [← hashGroupsOf_eq] at h1 h2
  have hl : (keys (hashGroupsOf X L fs p g)).length = (hashGroupsOf X L fs p g).length := by
    simp [keys]
  rw [← hl]
  obtain ⟨e, he, e', he', hne⟩ := hdiff
  have ha : (e.2.nextHash X fs p).1 ∈ keys (hashGroupsOf X L fs p g) := by
    rw [h2]
    right
    simp only [keys, List.map_map, List.mem_map, Function.comp_apply]
    exact ⟨e, he, rfl⟩
  have hb : (e'.2.nextHash X fs p).1 ∈ keys (hashGroupsOf X L fs p g) := by
    rw [h2]
    right
    simp only [keys, List.map_map, List.mem_map, Function.comp_apply]
    exact ⟨e', he', rfl⟩
  exact two_le_length_of_ne ha hb hne

/-- As long as no insertion rehashes the table, an unfinished group of a
well-formed table whose members all return
the same next hash is, after `nextStep`, in the table under its id with the
same paths in the same order and every member advanced by `blockSize`; it
is the only group under that id and the only one holding any of its
members; and the loop body for it adds nothing to the table, to the set of
removed ids or to the id counter. -/
theorem nextStep_keeps_agreeing_group_without_rehash (L : Layout) (ps : Process × Searcher)
    (x : Nat × FilesGroup)
    (hT : TableOk X fs ps.1 ps.2.m_filesGroups ps.1.groupId) (hx : x ∈ ps.2.m_filesGroups)
    (hfin : x.2.isFinished = false)
    (hsame : ∀ e ∈ x.2, ∀ e' ∈ x.2,
      (e.2.nextHash X fs ps.1).1 = (e'.2.nextHash X fs ps.1).1) :
    (x.1, hashMembers X fs ps.1 x.2) ∈ (Searcher.nextStep X L fs ps).2.m_filesGroups ∧
    (∀ y ∈ (Searcher.nextStep X L fs ps).2.m_filesGroups, y.1 = x.1 →
      y = (x.1, hashMembers X fs ps.1 x.2)) ∧
    keys (hashMembers X fs ps.1 x.2) = keys x.2 ∧
    (∀ e ∈ x.2, (e.1, (e.2.nextHash X fs ps.1).2) ∈ hashMembers X fs ps.1 x.2 ∧
      (e.2.nextHash X fs ps.1).2.m_pos = e.2.m_pos + ps.1.blockSize) ∧
    (∀ y ∈ (Searcher.nextStep X L fs ps).2.m_filesGroups, ∀ a ∈ keys x.2, a ∈ keys y.2 →
      y = (x.1, hashMembers X fs ps.1 x.2)) ∧
    ∀ (s : Pass) (rest : List (Nat × FilesGroup)),
      visitGroup X L fs ps.1 s x rest
        = { s with before := s.before ++ [(x.1, hashMembers X fs ps.1 x.2)], after := rest } := by
  have hlen := hashGroups_length_le_one L ps.1 x.2 hsame
  obtain ⟨_, hspec⟩ := stepTable_spec L hT
  have hin : (x.1, hashMembers X fs ps.1 x.2) ∈ (Searcher.nextStep X L fs ps).2.m_filesGroups :=
    hspec.kept x hx hfin hlen
  obtain ⟨k, S, hg⟩ := hT.group x hx
  have hlt : k * ps.1.blockSize < S := by
    rw [hg.isFinished_eq] at hfin
    simpa using hfin
  refine ⟨hin, ?_, keys_hashMembers _ _ _ _, ?_, ?_, ?_⟩
  · intro y hy hid
    have hn : (keys (Searcher.nextStep X L fs ps).2.m_filesGroups).Nodup := hspec.ok.ids
    have h1 := getD_of_mem (d := ([] : FilesGroup)) hn hin
    have h2 := getD_of_mem (d := ([] : FilesGroup)) hn (show (y.1, y.2) ∈ _ from hy)
    rw [hid, h1] at h2
    exact Prod.ext hid h2.symm
  · intro e he
    refine ⟨mem_hashMembers.2 ⟨e, he, rfl⟩, ?_⟩
    have hmem : (e.1, (e.2.nextHash X fs ps.1).2) ∈ hashMembers X fs ps.1 x.2 :=
      mem_hashMembers.2 ⟨e, he, rfl⟩
    have hpos := hg.pos_hashed hlt hmem he
    exact hpos
  · intro y hy a ha hay
    refine hspec.ok.disjoint y hy _ hin a hay ?_
    rw [keys_hashMembers]
    exact ha
  · intro s rest
    have : ¬ (hashGroupsOf X L fs ps.1 x.2).length > 1 := by omega
    simp [visitGroup, this]

end SinglePass

section SinglePass2

variable {X : Externals} {L : Layout} {fs : FileSystem}

theorem readChunk_full {bs : Nat} {l : List Byte} (h : l.length = bs) : readChunk bs l = l := by
  unfold readChunk
  rw [List.take_of_length_le (Nat.le_of_eq h), h, Nat.sub_self]
  simp

theorem exists_other_key {g : FilesGroup} (hn : (keys g).Nodup) (h2 : 2 ≤ g.length) (a : Path) :
    ∃ c ∈ keys g, c ≠ a := by
  obtain ⟨u, hu, v, hv, huv⟩ := exists_ne_of_two_le hn (by simpa [keys] using h2)
  by_cases h : u = a
  · exact ⟨v, hv, fun hc => huv (h.trans hc.symm)⟩
  · exact ⟨u, hu, h⟩

/-- As long as no insertion rehashes the table, a group of a well-formed
table whose members stand at position 0,
are all `blockSize` bytes long and have contents with equal checksums is
not finished; one `nextStep` later it is in the table under the same id
with the same paths, and `FilesGroup::isFinished` holds for it; in every
later table it is there unchanged, the only group under its id, and the
outer loop of `nextStep` passes over it without hashing. -/
theorem block_sized_group_finishes_after_one_pass_without_rehash (L : Layout) (ps : Process × Searcher)
    (x : Nat × FilesGroup)
    (hT : TableOk X fs ps.1 ps.2.m_filesGroups ps.1.groupId) (hx : x ∈ ps.2.m_filesGroups)
    (hbs : 0 < ps.1.blockSize)
    (hpos : ∀ e ∈ x.2, e.2.m_pos = 0) (hsize : ∀ e ∈ x.2, e.2.m_size = ps.1.blockSize)
    (hsame : ∀ e ∈ x.2, ∀ e' ∈ x.2,
      digest X ps.1.checkSum (fs.content e.1) = digest X ps.1.checkSum (fs.content e'.1)) :
    x.2.isFinished = false ∧
    (x.1, hashMembers X fs ps.1 x.2) ∈ (Searcher.nextStep X L fs ps).2.m_filesGroups ∧
    keys (hashMembers X fs ps.1 x.2) = keys x.2 ∧
    FilesGroup.isFinished (hashMembers X fs ps.1 x.2) = true ∧
    (∀ n, (x.1, hashMembers X fs ps.1 x.2)
        ∈ ((Searcher.nextStep X L fs)^[n + 1] ps).2.m_filesGroups ∧
      ∀ y ∈ ((Searcher.nextStep X L fs)^[n + 1] ps).2.m_filesGroups, y.1 = x.1 →
        y = (x.1, hashMembers X fs ps.1 x.2)) ∧
    ∀ (fuel : Nat) (s : Pass) (rest : List (Nat × FilesGroup)),
      s.after = (x.1, hashMembers X fs ps.1 x.2) :: rest →
      passLoop X L fs ps.1 (fuel + 1) s
        = passLoop X L fs ps.1 fuel
            { s with before := s.before ++ [(x.1, hashMembers X fs ps.1 x.2)], after := rest } := by
  obtain ⟨k, S, hg⟩ := hT.group x hx
  obtain ⟨e0, he0⟩ := List.exists_mem_of_ne_nil _ hg.ne_nil
  have hk : k = 0 := by
    have h1 := (hg.file e0 he0).pos
    rw [hpos e0 he0] at h1
    rcases Nat.mul_eq_zero.1 h1.symm with h | h
    · exact h
    · omega
  subst hk
  have hS : S = ps.1.blockSize := by
    rw [← hg.size e0.1 (mem_keys_of_mem he0), ← (hg.file e0 he0).size]
    exact hsize e0 he0
  subst hS
  have hlt : 0 * ps.1.blockSize < ps.1.blockSize := by omega
  have hfin : x.2.isFinished = false := by
    rw [hg.isFinished_eq]
    simp only [decide_eq_false_iff_not]
    omega
  have hhash : ∀ e ∈ x.2, hashAt X fs ps.1 e.1 0 = digest X ps.1.checkSum (fs.content e.1) := by
    intro e he
    have hl : (fs.content e.1).length = ps.1.blockSize := hg.size e.1 (mem_keys_of_mem he)
    simp [hashAt, readChunk_full hl]
  have hsame' : ∀ a ∈ keys x.2, ∀ b ∈ keys x.2, hashAt X fs ps.1 a 0 = hashAt X fs ps.1 b 0 := by
    intro a ha b hb
    obtain ⟨va, hva⟩ := mem_keys_iff.1 ha
    obtain ⟨vb, hvb⟩ := mem_keys_iff.1 hb
    rw [hhash _ hva, hhash _ hvb]
    exact hsame _ hva _ hvb
  have hlen : (hashGroupsOf X L fs ps.1 x.2).length ≤ 1 := by
    apply hashGroups_length_le_one
    intro e he e' he'
    rw [hg.nextHash_fst hlt he, hg.nextHash_fst hlt he']
    exact hsame' _ (mem_keys_of_mem he) _ (mem_keys_of_mem he')
  obtain ⟨_, hspec⟩ := stepTable_spec L hT
  have hin : (x.1, hashMembers X fs ps.1 x.2) ∈ (stepTable X L fs ps.1 ps.2.m_filesGroups
      ps.1.groupId).1 := hspec.kept x hx hfin hlen
  have hg1 := hg.hashed_single hlt hsame'
  have hfin1 : FilesGroup.isFinished (hashMembers X fs ps.1 x.2) = true := by
    rw [hg1.isFinished_eq]
    simp
  refine ⟨hfin, hin, keys_hashMembers _ _ _ _, hfin1, ?_, ?_⟩
  · intro n
    obtain ⟨i1, _, _, _⟩ := nextStep_iterate (X := X) (L := L) (n + 1) ps
    rw [i1]
    have hmem : (x.1, hashMembers X fs ps.1 x.2)
        ∈ (passes X L fs ps.1 (n + 1) ps.2.m_filesGroups ps.1.groupId).1 := by
      have := passes_finished (L := L) hT 1 n (x.1, hashMembers X fs ps.1 x.2) hin hfin1
      rwa [Nat.add_comm 1 n] at this
    refine ⟨hmem, ?_⟩
    intro y hy hid
    have hn := (passes_spec (L := L) hT (n + 1)).1.ids
    have h1 := getD_of_mem (d := ([] : FilesGroup)) hn hmem
    have h2 := getD_of_mem (d := ([] : FilesGroup)) hn (show (y.1, y.2) ∈ _ from hy)
    rw [hid, h1] at h2
    exact Prod.ext hid h2.symm
  · intro fuel s rest hafter
    simp [passLoop, hafter, hfin1]

/-- As long as no insertion rehashes the table, for an unfinished group of
a well-formed table whose
members return more than one next hash, the id of the group is not in the
table after `nextStep`; when the loop body for the group ends (from any
state of the walk in which all ids are below the counter) the id is marked
for removal and for each hash value that two members share the table holds
exactly one entry under an id not used before whose members are exactly the
members with that hash as `nextHash` left them; a member whose hash no
other member shares is in no group after the pass; and the members of the
group that share a group after the pass returned equal hashes. -/
theorem nextStep_splits_disagreeing_group_without_rehash (L : Layout) (ps : Process × Searcher)
    (x : Nat × FilesGroup)
    (hT : TableOk X fs ps.1 ps.2.m_filesGroups ps.1.groupId) (hx : x ∈ ps.2.m_filesGroups)
    (hfin : x.2.isFinished = false)
    (hdiff : ∃ e ∈ x.2, ∃ e' ∈ x.2,
      (e.2.nextHash X fs ps.1).1 ≠ (e'.2.nextHash X fs ps.1).1) :
    x.1 ∉ keys (Searcher.nextStep X L fs ps).2.m_filesGroups ∧
    (∀ (s : Pass) (rest : List (Nat × FilesGroup)),
      (∀ z ∈ s.before ++ x :: rest, z.1 < s.groupId) →
      (visitGroup X L fs ps.1 s x rest).removed = x.1 :: s.removed ∧
      ∀ v, (∃ e ∈ x.2, ∃ e' ∈ x.2, e.1 ≠ e'.1 ∧ (e.2.nextHash X fs ps.1).1 = v ∧
          (e'.2.nextHash X fs ps.1).1 = v) →
        ∃! z, z ∈ (visitGroup X L fs ps.1 s x rest).before
              ++ (visitGroup X L fs ps.1 s x rest).after ∧
          s.groupId ≤ z.1 ∧
          ∀ e, e ∈ z.2 ↔ e ∈ hashMembers X fs ps.1 x.2 ∧ e.2.m_hash = v) ∧
    (∀ e ∈ x.2, (∀ e' ∈ x.2, e'.1 ≠ e.1 →
        (e'.2.nextHash X fs ps.1).1 ≠ (e.2.nextHash X fs ps.1).1) →
      ∀ y ∈ (Searcher.nextStep X L fs ps).2.m_filesGroups, e.1 ∉ keys y.2) ∧
    ∀ y ∈ (Searcher.nextStep X L fs ps).2.m_filesGroups, ∀ e ∈ x.2, ∀ e' ∈ x.2,
      e.1 ∈ keys y.2 → e'.1 ∈ keys y.2 →
      (e.2.nextHash X fs ps.1).1 = (e'.2.nextHash X fs ps.1).1 := by
  have hlen := hashGroups_length_gt_one L ps.1 x.2 hdiff
  obtain ⟨_, hspec⟩ := stepTable_spec L hT
  obtain ⟨k, S, hg⟩ := hT.group x hx
  have hlt : k * ps.1.blockSize < S := by
    rw [hg.isFinished_eq] at hfin
    simpa using hfin
  have hlin : ∀ y ∈ (stepTable X L fs ps.1 ps.2.m_filesGroups ps.1.groupId).1,
      ∀ a ∈ keys x.2, a ∈ keys y.2 → Advanced X fs ps.1 x.2 y.2 := by
    intro y hy a hax hay
    obtain ⟨x', hx', hl⟩ := hspec.lineage y hy
    rcases hl with ⟨h1, h2⟩ | ⟨_, h2⟩
    · exfalso
      have : x' = x := hT.disjoint x' hx' x hx a (h1 ▸ hay) hax
      rw [this, hfin] at h2
      cases h2
    · have : x' = x := hT.disjoint x' hx' x hx a (h2.1 a hay) hax
      rw [this] at h2
      exact h2
  refine ⟨hspec.split x hx hfin hlen, ?_, ?_, ?_⟩
  · intro s rest hids
    have hb : ∀ z ∈ s.before, z.1 < s.groupId :=
      fun z hz => hids z (List.mem_append_left _ hz)
    have hy : x.1 < s.groupId := hids x (List.mem_append_right _ (List.mem_cons_self _ _))
    have hr : ∀ z ∈ rest, z.1 < s.groupId :=
      fun z hz => hids z (List.mem_append_right _ (List.mem_cons_of_mem _ hz))
    obtain ⟨dead, nb, na, out⟩ := visitGroup_outcome L s x rest hg hlt hb hy hr
    generalize visitGroup X L fs ps.1 s x rest = s' at out ⊢
    rcases out.cases with ⟨_, _, _, _, _, c6⟩ | ⟨⟨junk, c1⟩, c2, _, c4, _⟩
    · omega
    · refine ⟨c2, ?_⟩
      have hnewid : ∀ z ∈ nb ++ na, s.groupId ≤ z.1 := by
        intro z hz
        have := c4.mem_iff.1 (mem_keys_of_mem hz)
        rw [List.mem_range'_1] at this
        exact this.1
      have hisnew : ∀ z ∈ s'.before ++ s'.after, s.groupId ≤ z.1 → z ∈ nb ++ na := by
        intro z hz hid
        rcases List.mem_append.1 hz with h1 | h1
        · rcases List.mem_append.1 (out.before.mem_iff.1 h1) with h2 | h2
          · rcases List.mem_append.1 h2 with h3 | h3
            · have := hb z h3
              omega
            · rw [c1, List.mem_singleton] at h3
              rw [h3] at hid
              simp only at hid
              omega
          · exact List.mem_append_left _ h2
        · rcases List.mem_append.1 (out.after.mem_iff.1 h1) with h2 | h2
          · have := hr z h2
            omega
          · exact List.mem_append_right _ h2
      have hnh : (keys (hashMembers X fs ps.1 x.2)).Nodup := by
        rw [keys_hashMembers]
        exact hg.nodup
      have hcached : ∀ e ∈ hashMembers X fs ps.1 x.2, e.2.m_hash = hashAt X fs ps.1 e.1 k :=
        fun e he => (hg.fileAt_hashed hlt he).hash
      intro v hv
      obtain ⟨e, he, e', he', hne, h1, h2⟩ := hv
      have hv1 : hashAt X fs ps.1 e.1 k = v := by rw [← hg.nextHash_fst hlt he]; exact h1
      have hv2 : hashAt X fs ps.1 e'.1 k = v := by rw [← hg.nextHash_fst hlt he']; exact h2
      obtain ⟨z, hz, hz1, hz2⟩ := out.complete e.1 (mem_keys_of_mem he) e'.1
        (mem_keys_of_mem he') hne (hv1.trans hv2.symm)
      have hzmem : ∀ w, w ∈ z.2 ↔ w ∈ hashMembers X fs ps.1 x.2 ∧ w.2.m_hash = v := by
        intro w
        constructor
        · intro hw
          have hwh := out.sub z hz w hw
          refine ⟨hwh, ?_⟩
          rw [hcached w hwh, ← hv1]
          exact out.mates z hz _ (mem_keys_of_mem hw) _ hz1
        · rintro ⟨hwh, hwv⟩
          have hwk : w.1 ∈ keys x.2 := by
            have := mem_keys_of_mem hwh
            rwa [keys_hashMembers] at this
          have hwv' : hashAt X fs ps.1 w.1 k = v := by rw [← hcached w hwh]; exact hwv
          have hkz : w.1 ∈ keys z.2 := by
            by_cases h : w.1 = e.1
            · rw [h]
              exact hz1
            · obtain ⟨z', hz', a1, a2⟩ := out.complete w.1 hwk e.1 (mem_keys_of_mem he) h
                (hwv'.trans hv1.symm)
              have := out.apart z' hz' z hz e.1 a2 hz1
              rw [← this]
              exact a1
          obtain ⟨u, hu⟩ := mem_keys_iff.1 hkz
          have h3 := getD_of_mem (d := FileInfo.default) hnh (out.sub z hz _ hu)
          have h4 := getD_of_mem (d := FileInfo.default) hnh (show (w.1, w.2) ∈ _ from hwh)
          rw [h3] at h4
          rw [h4] at hu
          exact hu
      refine ⟨z, ⟨?_, hnewid z hz, hzmem⟩, ?_⟩
      · rcases List.mem_append.1 hz with h | h
        · exact List.mem_append_left _
            (out.before.mem_iff.2 (List.mem_append_right _ h))
        · exact List.mem_append_right _
            (out.after.mem_iff.2 (List.mem_append_right _ h))
      · rintro z' ⟨q1, q2, q3⟩
        have hz' := hisnew z' q1 q2
        have hein : (e.1, (e.2.nextHash X fs ps.1).2) ∈ z'.2 := by
          rw [q3]
          have hm : (e.1, (e.2.nextHash X fs ps.1).2) ∈ hashMembers X fs ps.1 x.2 :=
            mem_hashMembers.2 ⟨e, he, rfl⟩
          refine ⟨hm, ?_⟩
          rw [hcached _ hm]
          exact hv1
        have hek : e.1 ∈ keys z'.2 := mem_keys_iff.2 ⟨_, hein⟩
        exact out.apart z' hz' z hz e.1 hek hz1
  · intro e he hsingle y hy hk
    have hadv := hlin y hy e.1 (mem_keys_of_mem he) hk
    obtain ⟨ky, Sy, hgy⟩ := hspec.ok.group y hy
    obtain ⟨c, hc, hne⟩ := exists_other_key hgy.nodup hgy.two e.1
    obtain ⟨w, hw⟩ := mem_keys_iff.1 (hadv.1 c hc)
    exact hsingle (c, w) hw hne (hadv.2.2 (c, w) hw e he hc hk)
  · intro y hy e he e' he' hk hk'
    exact (hlin y hy e.1 (mem_keys_of_mem he) hk).2.2 e he e' he' hk hk'

end SinglePass2

section Run

variable {X : Externals} {L : Layout} {fs : FileSystem}

theorem loadGroups_tableOk (X : Externals) (L : Layout) (fs : FileSystem) (p : Process)
    (s : Searcher) {sg : List (Nat × List Path)} (hbs : 0 < p.blockSize)
    (hempty : s.m_filesGroups = []) (hsg : InitialBuckets fs sg) :
    TableOk X fs (s.loadGroups L fs sg p).1 (s.loadGroups L fs sg p).2.m_filesGroups
      (s.loadGroups L fs sg p).1.groupId ∧
    ∀ x, x ∈ (s.loadGroups L fs sg p).2.m_filesGroups ↔
      ∃ i b, sg[i]? = some b ∧ x = (p.groupId + i, makeGroup L fs b.2) := by
  have h := fillGroups_tableOk X L fs (s.loadGroups L fs sg p).1 hbs hsg p.groupId
  have e1 : (s.loadGroups L fs sg p).2.m_filesGroups = (fillGroups L fs sg [] p.groupId).1 := by
    simp [Searcher.loadGroups, hempty]
  have e2 : (s.loadGroups L fs sg p).1.groupId = (fillGroups L fs sg [] p.groupId).2 := by
    simp [Searcher.loadGroups, hempty]
  rw [e1, e2]
  exact ⟨h.1, h.2.2⟩

theorem blockCount_le_of_le_mul {bs S k : Nat} (hbs : 0 < bs) (h : S ≤ k * bs) :
    blockCount bs S ≤ k := by
  unfold blockCount
  apply Nat.le_of_lt_succ
  apply Nat.div_lt_of_lt_mul
  rw [Nat.mul_succ, Nat.mul_comm]
  omega

theorem hashAt_past_end (X : Externals) (fs : FileSystem) (p : Process) {a : Path} {i : Nat}
    (h : fs.fileSize a ≤ i * p.blockSize) :
    hashAt X fs p a i = digest X p.checkSum (readChunk p.blockSize []) := by
  unfold hashAt
  rw [List.drop_eq_nil_of_le h]

theorem blockHashes_eq_iff (X : Externals) (fs : FileSystem) (p : Process) {a b : Path}
    (hbs : 0 < p.blockSize) (hsz : fs.fileSize a = fs.fileSize b) :
    blockHashes X fs p a = blockHashes X fs p b ↔
      ∀ i, hashAt X fs p a i = hashAt X fs p b i := by
  unfold blockHashes
  rw [← hsz, List.map_inj_left]
  constructor
  · intro h i
    by_cases hi : i < blockCount p.blockSize (fs.fileSize a)
    · exact h i (List.mem_range.2 hi)
    · have h1 := le_blockCount_mul hbs (fs.fileSize a)
      have h2 : blockCount p.blockSize (fs.fileSize a) * p.blockSize ≤ i * p.blockSize :=
        Nat.mul_le_mul_right _ (Nat.le_of_not_lt hi)
      rw [hashAt_past_end X fs p (Nat.le_trans h1 h2),
        hashAt_past_end X fs p (hsz ▸ Nat.le_trans h1 h2)]
  · intro h i _
    exact h i

/-- Members of a finished well-formed group have equal block hashes. -/
theorem GroupAt.blockHashes_eq {p : Process} {k S : Nat} {g : FilesGroup}
    (hg : GroupAt X fs p k S g) (hbs : 0 < p.blockSize) (hfin : g.isFinished = true)
    {a b : Path} (ha : a ∈ keys g) (hb : b ∈ keys g) :
    blockHashes X fs p a = blockHashes X fs p b := by
  rw [hg.isFinished_eq] at hfin
  have hle : S ≤ k * p.blockSize := by simpa using hfin
  unfold blockHashes
  rw [hg.size a ha, hg.size b hb, List.map_inj_left]
  intro i hi
  have := blockCount_le_of_le_mul hbs hle
  exact hg.agree a ha b hb i (Nat.lt_of_lt_of_le (List.mem_range.1 hi) this)

theorem exists_first_finished (ps : Process × Searcher) (N : Nat)
    (h : allFinished ((Searcher.nextStep X L fs)^[N] ps).2.m_filesGroups = true) :
    ∃ n, n ≤ N ∧ allFinished ((Searcher.nextStep X L fs)^[n] ps).2.m_filesGroups = true ∧
      ∀ m, m < n → allFinished ((Searcher.nextStep X L fs)^[m] ps).2.m_filesGroups = false := by
  have hex : ∃ n, allFinished ((Searcher.nextStep X L fs)^[n] ps).2.m_filesGroups = true :=
    ⟨N, h⟩
  refine ⟨Nat.find hex, Nat.find_min' hex h, Nat.find_spec hex, ?_⟩
  intro m hm
  have := Nat.find_min hex hm
  simpa using this

/-- As long as no insertion rehashes the table: from the table `findGroups`
builds out of well-formed buckets, with
a block size of at least 1, the loop of `find` stops after `n` calls of
`nextStep` for some `n` not above the number of blocks of the largest file:
any allowance of at least `n` passes gives the table reached then, all
groups are finished in it and not before; and each call of `nextStep` on
the way completes its own loop. -/
theorem find_terminates_within_block_count_without_rehash (X : Externals) (L : Layout) (fs : FileSystem)
    (p : Process) (s : Searcher) (sg : List (Nat × List Path)) (hbs : 0 < p.blockSize)
    (hempty : s.m_filesGroups = []) (hsg : InitialBuckets fs sg) :
    ∃ n, n ≤ blockCount p.blockSize (largestSize (s.loadGroups L fs sg p).2.m_filesGroups) ∧
      (∀ fuel, n ≤ fuel →
        Searcher.findLoop X L fs fuel (s.loadGroups L fs sg p)
          = some ((Searcher.nextStep X L fs)^[n] (s.loadGroups L fs sg p))) ∧
      allFinished ((Searcher.nextStep X L fs)^[n] (s.loadGroups L fs sg p)).2.m_filesGroups
        = true ∧
      (∀ m, m < n →
        allFinished ((Searcher.nextStep X L fs)^[m] (s.loadGroups L fs sg p)).2.m_filesGroups
          = false) ∧
      ∀ m, ∃ r, passLoop X L fs ((Searcher.nextStep X L fs)^[m] (s.loadGroups L fs sg p)).1
          (passFuel ((Searcher.nextStep X L fs)^[m] (s.loadGroups L fs sg p)).2.m_filesGroups)
          { before := [],
            after := ((Searcher.nextStep X L fs)^[m] (s.loadGroups L fs sg p)).2.m_filesGroups,
            removed := [],
            groupId := ((Searcher.nextStep X L fs)^[m] (s.loadGroups L fs sg p)).1.groupId }
        = some r := by
  obtain ⟨hT, _⟩ := loadGroups_tableOk X L fs p s hbs hempty hsg
  have hbs' : 0 < (s.loadGroups L fs sg p).1.blockSize := hbs
  have hall := passes_allFinished (L := L) hT hbs'
  have hN : allFinished ((Searcher.nextStep X L fs)^[blockCount p.blockSize
      (largestSize (s.loadGroups L fs sg p).2.m_filesGroups)]
      (s.loadGroups L fs sg p)).2.m_filesGroups = true := by
    rw [(nextStep_iterate _ _).1]
    exact hall
  obtain ⟨n, h1, h2, h3⟩ := exists_first_finished _ _ hN
  refine ⟨n, h1, findLoop_of_first n _ h2 h3, h2, h3, ?_⟩
  intro m
  obtain ⟨i1, i2, i3, i4⟩ := @nextStep_iterate X L fs m (s.loadGroups L fs sg p)
  have hok := (passes_spec (L := L) hT m).1
  rw [← i1, ← i2] at hok
  obtain ⟨⟨r, hr, _⟩, _⟩ := stepTable_spec L hok
  refine ⟨r, ?_⟩
  rw [passLoop_congr i3 i4]
  exact hr

end Run

section Run2

variable {X : Externals} {L : Layout} {fs : FileSystem}

/-- As long as no insertion rehashes the table: from the table `findGroups`
builds out of well-formed buckets, with
a block size of at least 1 and under any layout of the hash containers,
`find` returns; in the table it returns, two different files of one initial
group share a group exactly when their sequences of block hashes are equal,
and a file whose sequence no other file of its initial group has is in no
group. -/
theorem find_groups_by_block_hashes_without_rehash (X : Externals) (L : Layout) (fs : FileSystem)
    (p : Process) (s : Searcher) (sg : List (Nat × List Path)) (hbs : 0 < p.blockSize)
    (hempty : s.m_filesGroups = []) (hsg : InitialBuckets fs sg) :
    (∃ r, Searcher.findLoop X L fs
        (blockCount p.blockSize (largestSize (s.loadGroups L fs sg p).2.m_filesGroups))
        (s.loadGroups L fs sg p) = some r) ∧
    ∀ fuel r, Searcher.findLoop X L fs fuel (s.loadGroups L fs sg p) = some r →
      (∀ x0 ∈ (s.loadGroups L fs sg p).2.m_filesGroups,
        ∀ a ∈ keys x0.2, ∀ a' ∈ keys x0.2, a ≠ a' →
          ((∃ y ∈ r.2.m_filesGroups, a ∈ keys y.2 ∧ a' ∈ keys y.2) ↔
            blockHashes X fs p a = blockHashes X fs p a')) ∧
      ∀ x0 ∈ (s.loadGroups L fs sg p).2.m_filesGroups, ∀ a ∈ keys x0.2,
        (∀ a' ∈ keys x0.2, a' ≠ a → blockHashes X fs p a' ≠ blockHashes X fs p a) →
        ∀ y ∈ r.2.m_filesGroups, a ∉ keys y.2 := by
  obtain ⟨hT, _⟩ := loadGroups_tableOk X L fs p s hbs hempty hsg
  have hbs' : 0 < (s.loadGroups L fs sg p).1.blockSize := hbs
  have hbh : ∀ a, blockHashes X fs p a = blockHashes X fs (s.loadGroups L fs sg p).1 a :=
    fun _ => rfl
  constructor
  · have hall := passes_allFinished (L := L) hT hbs'
    have hN : allFinished ((Searcher.nextStep X L fs)^[blockCount p.blockSize
        (largestSize (s.loadGroups L fs sg p).2.m_filesGroups)]
        (s.loadGroups L fs sg p)).2.m_filesGroups = true := by
      rw [(nextStep_iterate _ _).1]
      exact hall
    obtain ⟨n, h1, h2, h3⟩ := exists_first_finished _ _ hN
    exact ⟨_, findLoop_of_first n _ h2 h3 _ h1⟩
  · intro fuel r hr
    obtain ⟨n, _, hrn, hfin, _⟩ := findLoop_some fuel _ r hr
    have htab : r.2.m_filesGroups = (passes X L fs (s.loadGroups L fs sg p).1 n
        (s.loadGroups L fs sg p).2.m_filesGroups (s.loadGroups L fs sg p).1.groupId).1 := by
      rw [hrn]
      exact (nextStep_iterate _ _).1
    have hokn := (passes_spec (L := L) hT n).1
    rw [← htab] at hokn
    have hfinished : ∀ y ∈ r.2.m_filesGroups, y.2.isFinished = true := by
      intro y hy
      unfold allFinished at hfin
      rw [List.all_eq_true] at hfin
      exact hfin y hy
    have hsound : ∀ y ∈ r.2.m_filesGroups, ∀ a ∈ keys y.2, ∀ a' ∈ keys y.2,
        blockHashes X fs p a = blockHashes X fs p a' := by
      intro y hy a ha a' ha'
      obtain ⟨k, S, hg⟩ := hokn.group y hy
      rw [hbh, hbh]
      exact hg.blockHashes_eq hbs' (hfinished y hy) ha ha'
    constructor
    · intro x0 hx0 a ha a' ha' hne
      constructor
      · rintro ⟨y, hy, h1, h2⟩
        exact hsound y hy a h1 a' h2
      · intro heq
        obtain ⟨k0, S0, hg0⟩ := hT.group x0 hx0
        have hsz : fs.fileSize a = fs.fileSize a' := by
          rw [hg0.size a ha, hg0.size a' ha']
        rw [hbh, hbh] at heq
        have hall := (blockHashes_eq_iff X fs _ hbs' hsz).1 heq
        obtain ⟨y, hy, h1, h2⟩ := passes_complete (L := L) hT n x0 hx0 a ha a' ha' hne hall
        rw [← htab] at hy
        exact ⟨y, hy, h1, h2⟩
    · intro x0 hx0 a ha huniq y hy hay
      obtain ⟨k, S, hg⟩ := hokn.group y hy
      obtain ⟨c, hc, hca⟩ := exists_other_key hg.nodup hg.two a
      obtain ⟨x', hx', hsub⟩ := passes_lineage (L := L) hT n y (htab ▸ hy)
      have hxx : x' = x0 := hT.disjoint x' hx' x0 hx0 a (hsub a hay) ha
      rw [hxx] at hsub
      exact huniq c (hsub c hc) hca (hsound y hy c hc a hay)

end Run2

section ProcessCongr

variable {X : Externals} {L : Layout} {fs : FileSystem} {p q : Process}

theorem hashAt_congr (h1 : p.blockSize = q.blockSize) (h2 : p.checkSum = q.checkSum)
    (a : Path) (i : Nat) : hashAt X fs p a i = hashAt X fs q a i := by
  simp [hashAt, h1, h2]

theorem FileAt.congrProcess (h1 : p.blockSize = q.blockSize) (h2 : p.checkSum = q.checkSum)
    {k : Nat} {e : Path × FileInfo} (h : FileAt X fs p k e) : FileAt X fs q k e := by
  constructor
  · exact h.path
  · exact h.size
  · rw [← h1]
    exact h.pos
  · rw [← h1]
    exact h.stream
  · rw [h.hash]
    cases k with
    | zero => rfl
    | succ k => exact hashAt_congr h1 h2 _ _

theorem GroupAt.congrGroup (h1 : p.blockSize = q.blockSize) (h2 : p.checkSum = q.checkSum)
    {k S : Nat} {g : FilesGroup} (h : GroupAt X fs p k S g) : GroupAt X fs q k S g := by
  constructor
  · exact h.nodup
  · exact h.two
  · intro e he
    exact (h.file e he).congrProcess h1 h2
  · exact h.size
  · rw [← h1]
    exact h.bound
  · intro a ha b hb i hi
    rw [← hashAt_congr h1 h2, ← hashAt_congr h1 h2]
    exact h.agree a ha b hb i hi

theorem TableOk.congrTable (h1 : p.blockSize = q.blockSize) (h2 : p.checkSum = q.checkSum)
    {T : List (Nat × FilesGroup)} {gid : Nat} (h : TableOk X fs p T gid) :
    TableOk X fs q T gid := by
  constructor
  · exact h.ids
  · exact h.below
  · intro x hx
    obtain ⟨k, S, hg⟩ := h.group x hx
    exact ⟨k, S, hg.congrGroup h1 h2⟩
  · exact h.disjoint

/-- Every state `nextStep` reaches from a well-formed table has a
well-formed table. -/
theorem nextStep_iterate_tableOk (L : Layout) (ps : Process × Searcher)
    (h : TableOk X fs ps.1 ps.2.m_filesGroups ps.1.groupId) (n : Nat) :
    TableOk X fs ((Searcher.nextStep X L fs)^[n] ps).1
      ((Searcher.nextStep X L fs)^[n] ps).2.m_filesGroups
      ((Searcher.nextStep X L fs)^[n] ps).1.groupId := by
  obtain ⟨i1, i2, i3, i4⟩ := @nextStep_iterate X L fs n ps
  rw [i1, i2]
  exact ((passes_spec (L := L) h n).1).congrTable i3.symm i4.symm

end ProcessCongr

section Turns

variable {X : Externals} {L : Layout} {fs : FileSystem} {p : Process}
  {T : List (Nat × FilesGroup)} {gid0 : Nat}

theorem passTurn_nil {s : Pass} (h : s.after = []) : passTurn X L fs p s = s := by
  unfold passTurn
  rw [h]

theorem passTurn_skip {s : Pass} {y : Nat × FilesGroup} {rest : List (Nat × FilesGroup)}
    (h : s.after = y :: rest) (hfin : y.2.isFinished = true) :
    passTurn X L fs p s = { s with before := s.before ++ [y], after := rest } := by
  unfold passTurn
  rw [h]
  simp [hfin]

theorem passTurn_visit {s : Pass} {y : Nat × FilesGroup} {rest : List (Nat × FilesGroup)}
    (h : s.after = y :: rest) (hfin : y.2.isFinished = false) :
    passTurn X L fs p s = visitGroup X L fs p s y rest := by
  unfold passTurn
  rw [h]
  simp [hfin]

/-- The loop `passLoop` is the repetition of `passTurn` up to the end of the
table. -/
theorem passLoop_eq_turns :
    ∀ (fuel : Nat) (s r : Pass), passLoop X L fs p fuel s = some r →
      ∃ i, i < fuel ∧ r = (passTurn X L fs p)^[i] s ∧ r.after = [] ∧
        ∀ j, j < i → ((passTurn X L fs p)^[j] s).after ≠ [] := by
  intro fuel
  induction fuel with
  | zero =>
    intro s r h
    simp [passLoop] at h
  | succ fuel ih =>
    intro s r h
    cases hafter : s.after with
    | nil =>
      have : passLoop X L fs p (fuel + 1) s = some s := by simp [passLoop, hafter]
      rw [this] at h
      cases h
      exact ⟨0, Nat.succ_pos _, rfl, hafter, fun j hj => absurd hj (Nat.not_lt_zero _)⟩
    | cons y rest =>
      have hstep : passLoop X L fs p (fuel + 1) s
          = passLoop X L fs p fuel (passTurn X L fs p s) := by
        by_cases hfin : y.2.isFinished = true
        · rw [passTurn_skip hafter hfin]
          simp [passLoop, hafter, hfin]
        · have hfin' : y.2.isFinished = false := by simpa using hfin
          rw [passTurn_visit hafter hfin']
          simp [passLoop, hafter, hfin']
      rw [hstep] at h
      obtain ⟨i, hi, hr, hra, hmin⟩ := ih _ r h
      refine ⟨i + 1, Nat.succ_lt_succ hi, ?_, hra, ?_⟩
      · rw [Function.iterate_succ_apply]
        exact hr
      · intro j hj
        cases j with
        | zero =>
          rw [Function.iterate_zero_apply, hafter]
          exact List.cons_ne_nil _ _
        | succ j =>
          rw [Function.iterate_succ_apply]
          exact hmin j (Nat.lt_of_succ_lt_succ hj)

/-- A turn of the outer loop keeps the invariant of the pass. -/
theorem PassInv.turn {s : Pass} (h : PassInv X L fs p T gid0 s) :
    PassInv X L fs p T gid0 (passTurn X L fs p s) := by
  cases hafter : s.after with
  | nil =>
    rw [passTurn_nil hafter]
    exact h
  | cons y rest =>
    by_cases hfin : y.2.isFinished = true
    · rw [passTurn_skip hafter hfin]
      exact h.skip hafter hfin
    · have hfin' : y.2.isFinished = false := by simpa using hfin
      rw [passTurn_visit hafter hfin']
      exact h.visit hafter hfin'

theorem PassInv.turns {s : Pass} (h : PassInv X L fs p T gid0 s) (i : Nat) :
    PassInv X L fs p T gid0 ((passTurn X L fs p)^[i] s) := by
  induction i with
  | zero => exact h
  | succ i ih =>
    rw [Function.iterate_succ_apply']
    exact ih.turn

end Turns

section MidPass

variable {X : Externals} {L : Layout} {fs : FileSystem}

/-- Every state the outer loop of `nextStep` goes through, in every call
made from a well-formed table on, satisfies the invariant of the pass. -/
theorem midPass_inv (ps : Process × Searcher)
    (h : TableOk X fs ps.1 ps.2.m_filesGroups ps.1.groupId) (n i : Nat) :
    PassInv X L fs ((Searcher.nextStep X L fs)^[n] ps).1
      ((Searcher.nextStep X L fs)^[n] ps).2.m_filesGroups
      ((Searcher.nextStep X L fs)^[n] ps).1.groupId
      (Searcher.midPass X L fs ((Searcher.nextStep X L fs)^[n] ps) i) :=
  ((nextStep_iterate_tableOk L ps h n).passInv (L := L)).turns i

end MidPass

section Reach

variable {X : Externals} {L : Layout} {fs : FileSystem}

/-- The table `findGroups` builds in a newly constructed object is well
formed. -/
theorem findGroups_tableOk (X : Externals) (L : Layout) (fs : FileSystem) (p : Process)
    (s : Searcher) (hbs : 0 < p.blockSize) (hempty : s.m_filesGroups = [])
    (hw : ∀ d ∈ s.m_includeDirs,
      (walk fs s.m_excludeDirs (s.m_recursiveLevel + 1).toNat d).Nodup) :
    TableOk X fs (s.findGroups X L fs p).1 (s.findGroups X L fs p).2.m_filesGroups
      (s.findGroups X L fs p).1.groupId :=
  (loadGroups_tableOk X L fs p s hbs hempty
    (groupBySize_buckets X L fs s s.m_recursiveLevel hw)).1

/-- The loop of `find` on a newly constructed object ends: as many passes
as the largest file has blocks are enough for it to return. -/
theorem find_returns (X : Externals) (L : Layout) (fs : FileSystem) (p : Process)
    (s : Searcher) (hbs : 0 < p.blockSize) (hempty : s.m_filesGroups = [])
    (hw : ∀ d ∈ s.m_includeDirs,
      (walk fs s.m_excludeDirs (s.m_recursiveLevel + 1).toNat d).Nodup) :
    ∃ r, s.find X L fs
      (blockCount p.blockSize (largestSize (s.findGroups X L fs p).2.m_filesGroups)) p
        = some r := by
  have hT := findGroups_tableOk X L fs p s hbs hempty hw
  have hbs' : 0 < (s.findGroups X L fs p).1.blockSize := hbs
  have hall := passes_allFinished (L := L) hT hbs'
  have hN : allFinished ((Searcher.nextStep X L fs)^[blockCount p.blockSize
      (largestSize (s.findGroups X L fs p).2.m_filesGroups)]
      (s.findGroups X L fs p)).2.m_filesGroups = true := by
    rw [(nextStep_iterate _ _).1]
    exact hall
  obtain ⟨n, h1, h2, h3⟩ := exists_first_finished _ _ hN
  exact ⟨_, findLoop_of_first n _ h2 h3 _ h1⟩

theorem GroupAt.finished_iff {p : Process} {k S : Nat} {g : FilesGroup}
    (hg : GroupAt X fs p k S g) :
    g.isFinished = true ↔ ∀ e ∈ g, e.2.isFinished = true := by
  have hall : ∀ e ∈ g, e.2.isFinished = decide (S ≤ k * p.blockSize) := by
    intro e he
    unfold FileInfo.isFinished
    rw [(hg.file e he).pos, (hg.file e he).size, hg.size e.1 (mem_keys_of_mem he)]
  rw [hg.isFinished_eq]
  constructor
  · intro h e he
    rw [hall e he]
    exact h
  · intro h
    obtain ⟨e, he⟩ := List.exists_mem_of_ne_nil _ hg.ne_nil
    rw [← hall e he]
    exact h e he

/-- The block index of a well-formed group is the read position of its
members in blocks. -/
theorem GroupAt.pos_div {p : Process} {k S : Nat} {g : FilesGroup}
    (hg : GroupAt X fs p k S g) (hbs : 0 < p.blockSize) {e : Path × FileInfo} (he : e ∈ g) :
    e.2.m_pos / p.blockSize = k := by
  rw [(hg.file e he).pos]
  exact Nat.mul_div_cancel k hbs

theorem GroupAt.members_agree {p : Process} {k S : Nat} {g : FilesGroup}
    (hg : GroupAt X fs p k S g) (hbs : 0 < p.blockSize) {e e' : Path × FileInfo}
    (he : e ∈ g) (he' : e' ∈ g) :
    e.2.m_pos = e'.2.m_pos ∧ e.2.m_hash = e'.2.m_hash ∧
    (∀ i, i < e.2.m_pos / p.blockSize → hashAt X fs p e.1 i = hashAt X fs p e'.1 i) ∧
    (blockHashes X fs p e.1).take (e.2.m_pos / p.blockSize)
      = (blockHashes X fs p e'.1).take (e.2.m_pos / p.blockSize) := by
  have hk := hg.pos_div hbs he
  have ha := mem_keys_of_mem he
  have ha' := mem_keys_of_mem he'
  refine ⟨?_, ?_, ?_, ?_⟩
  · rw [(hg.file e he).pos, (hg.file e' he').pos]
  · rw [(hg.file e he).hash, (hg.file e' he').hash]
    cases k with
    | zero => rfl
    | succ k => exact hg.agree e.1 ha e'.1 ha' k (Nat.lt_succ_self k)
  · intro i hi
    rw [hk] at hi
    exact hg.agree e.1 ha e'.1 ha' i hi
  · rw [hk]
    unfold blockHashes
    rw [hg.size e.1 ha, hg.size e'.1 ha', ← List.map_take, ← List.map_take]
    apply List.map_congr_left
    intro i hi
    rw [List.take_range, List.mem_range] at hi
    exact hg.agree e.1 ha e'.1 ha' i (Nat.lt_of_lt_of_le hi (Nat.min_le_left _ _))

end Reach

section Reach2

variable {X : Externals} {L : Layout} {fs : FileSystem}

/-- Between the passes every group of the table is well formed, for the
process the run started in. -/
theorem reach_groupAt (L : Layout) (ps : Process × Searcher)
    (h : TableOk X fs ps.1 ps.2.m_filesGroups ps.1.groupId) (n : Nat) :
    ∀ x ∈ ((Searcher.nextStep X L fs)^[n] ps).2.m_filesGroups,
      ∃ k S, GroupAt X fs ps.1 k S x.2 := by
  intro x hx
  obtain ⟨_, _, i3, i4⟩ := @nextStep_iterate X L fs n ps
  obtain ⟨k, S, hg⟩ := (nextStep_iterate_tableOk L ps h n).group x hx
  exact ⟨k, S, hg.congrGroup i3 i4⟩

/-- During a pass every group ahead of the walk is well formed. -/
theorem midPass_groupAt (L : Layout) (ps : Process × Searcher)
    (h : TableOk X fs ps.1 ps.2.m_filesGroups ps.1.groupId) (n i : Nat) :
    ∀ y ∈ (Searcher.midPass X L fs ((Searcher.nextStep X L fs)^[n] ps) i).after,
      ∃ k S, GroupAt X fs ps.1 k S y.2 := by
  intro y hy
  obtain ⟨_, _, i3, i4⟩ := @nextStep_iterate X L fs n ps
  obtain ⟨k, S, hg⟩ := (midPass_inv (L := L) ps h n i).group y (Or.inl hy)
  exact ⟨k, S, hg.congrGroup i3 i4⟩

end Reach2

/-- As long as no insertion rehashes the table: after `findGroups` on a
newly constructed object and after every later call of `nextStep`, no group of the table has an empty member map;
during a call of `nextStep` no group ahead of the walk, on which
`FilesGroup::isFinished` is going to be called, has one; and no group of a
table `find` returns has one.  So `m_group.begin()` is always an entry. -/
theorem no_group_is_empty_without_rehash (X : Externals) (L : Layout) (fs : FileSystem)
    (p : Process) (s : Searcher) (hbs : 0 < p.blockSize) (hempty : s.m_filesGroups = [])
    (hw : ∀ d ∈ s.m_includeDirs,
      (walk fs s.m_excludeDirs (s.m_recursiveLevel + 1).toNat d).Nodup) :
    (∀ n, ∀ x ∈ ((Searcher.nextStep X L fs)^[n] (s.findGroups X L fs p)).2.m_filesGroups,
      x.2 ≠ []) ∧
    (∀ n i, ∀ y ∈ (Searcher.midPass X L fs
        ((Searcher.nextStep X L fs)^[n] (s.findGroups X L fs p)) i).after, y.2 ≠ []) ∧
    ∀ fuel r, s.find X L fs fuel p = some r → ∀ x ∈ r.2.m_filesGroups, x.2 ≠ [] := by
  have hT := findGroups_tableOk X L fs p s hbs hempty hw
  have h1 : ∀ n, ∀ x ∈ ((Searcher.nextStep X L fs)^[n] (s.findGroups X L fs p)).2.m_filesGroups,
      x.2 ≠ [] := by
    intro n x hx
    obtain ⟨k, S, hg⟩ := reach_groupAt L _ hT n x hx
    exact hg.ne_nil
  refine ⟨h1, ?_, ?_⟩
  · intro n i y hy
    obtain ⟨k, S, hg⟩ := midPass_groupAt L _ hT n i y hy
    exact hg.ne_nil
  · intro fuel r hr
    obtain ⟨n, _, hrn, _, _⟩ := findLoop_some fuel _ r hr
    rw [hrn]
    exact h1 n

/-- As long as no insertion rehashes the table: after `findGroups` on a
newly constructed object and after every later call of `nextStep`, for every group of the table, and during a call
of `nextStep` for every group ahead of the walk, `FilesGroup::isFinished`
(which looks at the first member only) is true exactly when every member
is finished; the same holds in every table `find` returns. -/
theorem first_member_decides_without_rehash (X : Externals) (L : Layout)
    (fs : FileSystem) (p : Process) (s : Searcher) (hbs : 0 < p.blockSize)
    (hempty : s.m_filesGroups = [])
    (hw : ∀ d ∈ s.m_includeDirs,
      (walk fs s.m_excludeDirs (s.m_recursiveLevel + 1).toNat d).Nodup) :
    (∀ n, ∀ x ∈ ((Searcher.nextStep X L fs)^[n] (s.findGroups X L fs p)).2.m_filesGroups,
      (x.2.isFinished = true ↔ ∀ e ∈ x.2, e.2.isFinished = true)) ∧
    (∀ n i, ∀ y ∈ (Searcher.midPass X L fs
        ((Searcher.nextStep X L fs)^[n] (s.findGroups X L fs p)) i).after,
      (y.2.isFinished = true ↔ ∀ e ∈ y.2, e.2.isFinished = true)) ∧
    ∀ fuel r, s.find X L fs fuel p = some r → ∀ x ∈ r.2.m_filesGroups,
      (x.2.isFinished = true ↔ ∀ e ∈ x.2, e.2.isFinished = true) := by
  have hT := findGroups_tableOk X L fs p s hbs hempty hw
  have h1 : ∀ n, ∀ x ∈ ((Searcher.nextStep X L fs)^[n] (s.findGroups X L fs p)).2.m_filesGroups,
      (x.2.isFinished = true ↔ ∀ e ∈ x.2, e.2.isFinished = true) := by
    intro n x hx
    obtain ⟨k, S, hg⟩ := reach_groupAt L _ hT n x hx
    exact hg.finished_iff
  refine ⟨h1, ?_, ?_⟩
  · intro n i y hy
    obtain ⟨k, S, hg⟩ := midPass_groupAt L _ hT n i y hy
    exact hg.finished_iff
  · intro fuel r hr
    obtain ⟨n, _, hrn, _, _⟩ := findLoop_some fuel _ r hr
    rw [hrn]
    exact h1 n

/-- As long as no insertion rehashes the table: after `findGroups` on a
newly constructed object and after every
later call of `nextStep`, any two members of one group of the table have
the same `m_pos` and the same `m_hash`, the blocks of their files hash
alike at every index below `m_pos / blockSize`, and their sequences of block
hashes agree on that many blocks; `find` returns, and the same holds in the
table it returns. -/
theorem members_of_a_group_agree_without_rehash (X : Externals) (L : Layout) (fs : FileSystem)
    (p : Process) (s : Searcher) (hbs : 0 < p.blockSize) (hempty : s.m_filesGroups = [])
    (hw : ∀ d ∈ s.m_includeDirs,
      (walk fs s.m_excludeDirs (s.m_recursiveLevel + 1).toNat d).Nodup) :
    (∀ n, ∀ x ∈ ((Searcher.nextStep X L fs)^[n] (s.findGroups X L fs p)).2.m_filesGroups,
      ∀ e ∈ x.2, ∀ e' ∈ x.2,
        e.2.m_pos = e'.2.m_pos ∧ e.2.m_hash = e'.2.m_hash ∧
        (∀ i, i < e.2.m_pos / p.blockSize → hashAt X fs p e.1 i = hashAt X fs p e'.1 i) ∧
        (blockHashes X fs p e.1).take (e.2.m_pos / p.blockSize)
          = (blockHashes X fs p e'.1).take (e.2.m_pos / p.blockSize)) ∧
    (∃ r, s.find X L fs
      (blockCount p.blockSize (largestSize (s.findGroups X L fs p).2.m_filesGroups)) p
        = some r) ∧
    ∀ fuel r, s.find X L fs fuel p = some r → ∀ x ∈ r.2.m_filesGroups,
      ∀ e ∈ x.2, ∀ e' ∈ x.2,
        e.2.m_pos = e'.2.m_pos ∧ e.2.m_hash = e'.2.m_hash ∧
        (∀ i, i < e.2.m_pos / p.blockSize → hashAt X fs p e.1 i = hashAt X fs p e'.1 i) ∧
        (blockHashes X fs p e.1).take (e.2.m_pos / p.blockSize)
          = (blockHashes X fs p e'.1).take (e.2.m_pos / p.blockSize) := by
  have hT := findGroups_tableOk X L fs p s hbs hempty hw
  have h1 : ∀ n, ∀ x ∈ ((Searcher.nextStep X L fs)^[n] (s.findGroups X L fs p)).2.m_filesGroups,
      ∀ e ∈ x.2, ∀ e' ∈ x.2,
        e.2.m_pos = e'.2.m_pos ∧ e.2.m_hash = e'.2.m_hash ∧
        (∀ i, i < e.2.m_pos / p.blockSize → hashAt X fs p e.1 i = hashAt X fs p e'.1 i) ∧
        (blockHashes X fs p e.1).take (e.2.m_pos / p.blockSize)
          = (blockHashes X fs p e'.1).take (e.2.m_pos / p.blockSize) := by
    intro n x hx e he e' he'
    obtain ⟨k, S, hg⟩ := reach_groupAt L _ hT n x hx
    exact (GroupAt.congrGroup (p := (s.findGroups X L fs p).1) (q := p) rfl rfl hg).members_agree hbs he he'
  refine ⟨h1, find_returns X L fs p s hbs hempty hw, ?_⟩
  intro fuel r hr
  obtain ⟨n, _, hrn, _, _⟩ := findLoop_some fuel _ r hr
  rw [hrn]
  exact h1 n

section Calls

variable {X : Externals} {L : Layout} {fs : FileSystem} {p : Process}
  {T : List (Nat × FilesGroup)} {gid0 : Nat}

theorem turnCalls_nil {s : Pass} (h : s.after = []) : turnCalls s = [] := by
  unfold turnCalls
  rw [h]

theorem turnCalls_skip {s : Pass} {y : Nat × FilesGroup} {rest : List (Nat × FilesGroup)}
    (h : s.after = y :: rest) (hfin : y.2.isFinished = true) : turnCalls s = [] := by
  unfold turnCalls
  rw [h]
  simp [hfin]

theorem turnCalls_visit {s : Pass} {y : Nat × FilesGroup} {rest : List (Nat × FilesGroup)}
    (h : s.after = y :: rest) (hfin : y.2.isFinished = false) : turnCalls s = y.2 := by
  unfold turnCalls
  rw [h]
  simp [hfin]

theorem passCalls_of_nil (i : Nat) {s : Pass} (h : s.after = []) :
    passCalls X L fs p i s = [] := by
  induction i with
  | zero => rfl
  | succ i ih =>
    rw [passCalls, turnCalls_nil h, passTurn_nil h, ih]
    rfl

theorem passCalls_add (i j : Nat) :
    ∀ s : Pass, passCalls X L fs p (i + j) s
      = passCalls X L fs p i s ++ passCalls X L fs p j ((passTurn X L fs p)^[i] s) := by
  induction i with
  | zero =>
    intro s
    rw [Nat.zero_add]
    rfl
  | succ i ih =>
    intro s
    rw [Nat.succ_add, passCalls, passCalls, ih, Function.iterate_succ_apply,
      List.append_assoc]

theorem callsFor_append (fs : FileSystem) (c1 c2 : List (Path × FileInfo)) (a : Path) :
    callsFor fs (c1 ++ c2) a = callsFor fs c1 a ++ callsFor fs c2 a := by
  simp [callsFor]

theorem callsFor_of_not_mem {fs : FileSystem} {g : List (Path × FileInfo)} {a : Path}
    (h : a ∉ keys g) : callsFor fs g a = [] := by
  unfold callsFor
  rw [List.map_eq_nil_iff, List.filter_eq_nil_iff]
  intro c hc hca
  have hca' : c.1 = a := by simpa using hca
  exact h (hca' ▸ mem_keys_of_mem hc)

theorem callsFor_of_mem {fs : FileSystem} {g : FilesGroup} (hn : (keys g).Nodup)
    {e : Path × FileInfo} (he : e ∈ g) :
    callsFor fs g e.1 = [(e.2.m_pos, e.2.stream fs)] := by
  induction g with
  | nil => cases he
  | cons c g ih =>
    have hn' : c.1 ∉ keys g ∧ (keys g).Nodup := by
      simpa [keys] using hn
    have hcons : callsFor fs (c :: g) e.1 = callsFor fs [c] e.1 ++ callsFor fs g e.1 :=
      callsFor_append fs [c] g e.1
    rw [hcons]
    rcases List.mem_cons.1 he with h | h
    · subst h
      rw [callsFor_of_not_mem hn'.1]
      simp [callsFor]
    · have hne : c.1 ≠ e.1 := by
        intro hc
        exact hn'.1 (hc ▸ mem_keys_of_mem h)
      rw [ih hn'.2 h]
      simp [callsFor, hne]

theorem blockReads_succ (fs : FileSystem) (bs : Nat) (a : Path) (k : Nat) :
    blockReads fs bs a (k + 1)
      = blockReads fs bs a k ++ [(k * bs, (fs.content a).drop (k * bs))] := by
  unfold blockReads
  rw [List.range_succ, List.map_append]
  rfl

end Calls

section CallsStep

variable {X : Externals} {L : Layout} {fs : FileSystem} {p : Process}
  {T : List (Nat × FilesGroup)} {gid0 : Nat} {s : Pass} {y : Nat × FilesGroup}
  {rest : List (Nat × FilesGroup)}

theorem PassInv.live_skip (ha : s.after = y :: rest) (x : Nat × FilesGroup)
    (hx : Pass.live { s with before := s.before ++ [y], after := rest } x) : s.live x := by
  unfold Pass.live at hx ⊢
  rw [ha]
  rcases hx with h1 | ⟨h1, h2⟩
  · exact Or.inl (List.mem_cons_of_mem _ h1)
  · rcases List.mem_append.1 h1 with h3 | h3
    · exact Or.inr ⟨h3, h2⟩
    · rw [List.mem_singleton] at h3
      exact Or.inl (h3 ▸ List.mem_cons_self _ _)

/-- The groups that count after a visit are those that counted before,
the visited one apart, and groups made of hashed members of the visited
one. -/
theorem PassInv.live_visit (h : PassInv X L fs p T gid0 s) (ha : s.after = y :: rest)
    (hfin : y.2.isFinished = false) (x : Nat × FilesGroup)
    (hx : (visitGroup X L fs p s y rest).live x) :
    (s.live x ∧ x.1 ≠ y.1) ∨ ∀ e ∈ x.2, e ∈ hashMembers X fs p y.2 := by
  obtain ⟨a1, a2, a3, _⟩ := h.head_apart ha
  obtain ⟨k, S, hg, hlt⟩ := h.head_lt ha hfin
  have hyin : y ∈ s.after := by rw [ha]; exact List.mem_cons_self _ _
  obtain ⟨dead, nb, na, out⟩ := visitGroup_outcome L s y rest hg hlt
    (fun x hx => h.below x (List.mem_append_left _ hx))
    (h.below y (List.mem_append_right _ hyin))
    (fun x hx => h.below x
      (List.mem_append_right _ (by rw [ha]; exact List.mem_cons_of_mem _ hx)))
  obtain ⟨_, u2, u3, _, _, _⟩ := out.ids h ha
  rcases hx with h1 | ⟨h1, h2⟩
  · rcases List.mem_append.1 (out.after.mem_iff.1 h1) with h3 | h3
    · exact Or.inl ⟨Or.inl (by rw [ha]; exact List.mem_cons_of_mem _ h3), a2 x h3⟩
    · exact Or.inr (out.sub x (List.mem_append_right _ h3))
  · rw [out.before.mem_iff, List.mem_append, List.mem_append] at h1
    rcases h1 with (h3 | h3) | h3
    · refine Or.inl ⟨Or.inr ⟨h3, ?_⟩, a1 x h3⟩
      intro hc
      exact h2 ((u2 _).2 (Or.inl hc))
    · exfalso
      exact h2 ((u2 _).2 (Or.inr ⟨u3 x h3, List.ne_nil_of_mem h3⟩))
    · exact Or.inr (out.sub x (List.mem_append_left _ h3))

/-- A turn of the outer loop keeps the account of the calls. -/
theorem CallsInv.afterTurn (h : PassInv X L fs p T gid0 s) (hbs : 0 < p.blockSize)
    {calls : List (Path × FileInfo)} (hc : CallsInv fs p calls s) :
    CallsInv fs p (calls ++ turnCalls s) (passTurn X L fs p s) ∧
    ∀ c ∈ turnCalls s, c.2.m_pos < c.2.m_size ∧ c.2.stream fs ≠ [] ∧
      (c.2.nextHash X fs p).1 = hashAt X fs p c.1 (c.2.m_pos / p.blockSize) := by
  cases hafter : s.after with
  | nil =>
    rw [passTurn_nil hafter, turnCalls_nil hafter, List.append_nil]
    exact ⟨hc, fun c hcm => by cases hcm⟩
  | cons y rest =>
    by_cases hfin : y.2.isFinished = true
    · rw [passTurn_skip hafter hfin, turnCalls_skip hafter hfin, List.append_nil]
      refine ⟨?_, fun c hcm => by cases hcm⟩
      intro x hx
      exact hc x (PassInv.live_skip hafter x hx)
    · have hfin' : y.2.isFinished = false := by simpa using hfin
      rw [passTurn_visit hafter hfin', turnCalls_visit hafter hfin']
      obtain ⟨k, S, hg, hlt⟩ := h.head_lt hafter hfin'
      have hyl : s.live y := Or.inl (by rw [hafter]; exact List.mem_cons_self _ _)
      constructor
      · intro x hx e he
        rw [callsFor_append]
        rcases h.live_visit hafter hfin' x hx with ⟨h1, h2⟩ | h1
        · have hnot : e.1 ∉ keys y.2 := by
            intro hk
            have := h.disjoint x y h1 hyl e.1 (mem_keys_of_mem he) hk
            exact h2 (by rw [this])
          rw [callsFor_of_not_mem hnot, List.append_nil]
          exact hc x h1 e he
        · obtain ⟨e0, he0, hee⟩ := mem_hashMembers.1 (h1 e he)
          have hpos : e.2.m_pos = (k + 1) * p.blockSize := by
            exact (hg.fileAt_hashed hlt (h1 e he)).pos
          have hkey : e.1 = e0.1 := by rw [hee]
          rw [hpos, Nat.mul_div_cancel _ hbs, blockReads_succ, hkey,
            callsFor_of_mem hg.nodup he0, hc y hyl e0 he0, hg.pos_div hbs he0,
            (hg.file e0 he0).pos, (hg.file e0 he0).stream]
      · intro c hcm
        have hf := hg.file c hcm
        have hsz := hg.size c.1 (mem_keys_of_mem hcm)
        refine ⟨?_, ?_, ?_⟩
        · rw [hf.pos, hf.size, hsz]
          exact hlt
        · rw [hf.stream]
          intro hnil
          have := List.drop_eq_nil_iff.1 hnil
          unfold FileSystem.fileSize at hsz
          omega
        · rw [hg.pos_div hbs hcm]
          exact (nextHash_of_fileAt hf (by rw [hsz]; exact Nat.le_of_lt hlt)).1

end CallsStep

section CallsRun

variable {X : Externals} {L : Layout} {fs : FileSystem} {p : Process}
  {T : List (Nat × FilesGroup)} {gid0 : Nat}

theorem CallsInv.afterTurns (hbs : 0 < p.blockSize) (i : Nat) :
    ∀ (s : Pass) (calls : List (Path × FileInfo)), PassInv X L fs p T gid0 s →
      CallsInv fs p calls s →
      CallsInv fs p (calls ++ passCalls X L fs p i s) ((passTurn X L fs p)^[i] s) ∧
      ∀ c ∈ passCalls X L fs p i s, c.2.m_pos < c.2.m_size ∧ c.2.stream fs ≠ [] := by
  induction i with
  | zero =>
    intro s calls _ hc
    rw [passCalls, List.append_nil]
    exact ⟨hc, fun c hcm => by cases hcm⟩
  | succ i ih =>
    intro s calls h hc
    obtain ⟨t1, t2⟩ := CallsInv.afterTurn h hbs hc
    obtain ⟨r1, r2⟩ := ih _ _ h.turn t1
    rw [passCalls, Function.iterate_succ_apply, ← List.append_assoc]
    refine ⟨r1, ?_⟩
    intro c hcm
    rcases List.mem_append.1 hcm with h1 | h1
    · exact ⟨(t2 c h1).1, (t2 c h1).2.1⟩
    · exact r2 c h1

/-- One call of `nextStep` on a well-formed table keeps the account of the
calls, and makes every call on an object that has bytes left to read. -/
theorem stepTable_calls (L : Layout) {gid : Nat} (h : TableOk X fs p T gid)
    (hbs : 0 < p.blockSize) {calls : List (Path × FileInfo)} (hc : TableCalls fs p calls T) :
    TableCalls fs p
      (calls ++ passCalls X L fs p (passFuel T)
        { before := [], after := T, removed := [], groupId := gid })
      (stepTable X L fs p T gid).1 ∧
    ∀ c ∈ passCalls X L fs p (passFuel T)
        { before := [], after := T, removed := [], groupId := gid },
      c.2.m_pos < c.2.m_size ∧ c.2.stream fs ≠ [] := by
  obtain ⟨⟨r, hr, hst⟩, _⟩ := stepTable_spec L h
  obtain ⟨i, hi, hri, hra, _⟩ := passLoop_eq_turns _ _ _ hr
  have hstart : CallsInv fs p calls
      { before := [], after := T, removed := [], groupId := gid } := by
    intro x hx
    rcases hx with h1 | ⟨h1, _⟩
    · exact hc x h1
    · cases h1
  obtain ⟨r1, r2⟩ := CallsInv.afterTurns hbs i _ calls (h.passInv (L := L)) hstart
  have hsplit : passFuel T = i + (passFuel T - i) := by omega
  have hcalls : passCalls X L fs p (passFuel T)
        { before := [], after := T, removed := [], groupId := gid }
      = passCalls X L fs p i { before := [], after := T, removed := [], groupId := gid } := by
    rw [hsplit, passCalls_add, ← hri, passCalls_of_nil _ hra, List.append_nil]
  rw [hcalls, hst]
  refine ⟨?_, r2⟩
  intro x hx
  rw [mem_erase] at hx
  rw [← hri] at r1
  refine r1 x (Or.inr ⟨hx.1, ?_⟩)
  simpa using hx.2

theorem hashCalls_inv (L : Layout) (n : Nat) :
    ∀ (ps : Process × Searcher) (calls : List (Path × FileInfo)),
      TableOk X fs ps.1 ps.2.m_filesGroups ps.1.groupId → 0 < ps.1.blockSize →
      TableCalls fs ps.1 calls ps.2.m_filesGroups →
      TableCalls fs ps.1 (calls ++ Searcher.hashCalls X L fs n ps)
        ((Searcher.nextStep X L fs)^[n] ps).2.m_filesGroups ∧
      ∀ c ∈ Searcher.hashCalls X L fs n ps, c.2.m_pos < c.2.m_size ∧ c.2.stream fs ≠ [] := by
  induction n with
  | zero =>
    intro ps calls _ _ hc
    rw [Searcher.hashCalls, List.append_nil]
    exact ⟨hc, fun c hcm => by cases hcm⟩
  | succ n ih =>
    intro ps calls h hbs hc
    obtain ⟨s1, s2⟩ := stepTable_calls L h hbs hc
    have hok : TableOk X fs (Searcher.nextStep X L fs ps).1
        (Searcher.nextStep X L fs ps).2.m_filesGroups
        (Searcher.nextStep X L fs ps).1.groupId :=
      TableOk.congrTable (p := ps.1) (q := (Searcher.nextStep X L fs ps).1) rfl rfl
        (stepTable_spec L h).2.ok
    obtain ⟨r1, r2⟩ := ih (Searcher.nextStep X L fs ps) _ hok hbs s1
    rw [Searcher.hashCalls, Function.iterate_succ_apply, ← List.append_assoc]
    refine ⟨r1, ?_⟩
    intro c hcm
    rcases List.mem_append.1 hcm with h1 | h1
    · exact s2 c h1
    · exact r2 c h1

/-- A finished well-formed group has been hashed for as many blocks as
cover its files. -/
theorem GroupAt.blocks_of_finished {k S : Nat} {g : FilesGroup} (hg : GroupAt X fs p k S g)
    (hbs : 0 < p.blockSize) (hfin : g.isFinished = true) : k = blockCount p.blockSize S := by
  rw [hg.isFinished_eq] at hfin
  have hle : S ≤ k * p.blockSize := by simpa using hfin
  have h1 := blockCount_le_of_le_mul hbs hle
  have h2 := le_blockCount_mul hbs S
  have h3 := hg.bound
  apply Nat.le_antisymm _ h1
  by_contra hlt
  have h4 : blockCount p.blockSize S + 1 ≤ k := by omega
  have h5 := Nat.mul_le_mul_right p.blockSize h4
  rw [Nat.add_mul, Nat.one_mul] at h5
  omega

end CallsRun

/-- As long as no insertion rehashes the table: in a run of `find` on a
newly constructed object, with a block size
of at least 1, every call of `nextHash` is made on an object with
`m_pos < m_size` whose stream has bytes left, so the call reads a block and
moves `m_pos` on instead of returning the cached hash.  The loop of `find`
ends, and when it has returned after `n` passes, the calls made for a file
of a group of the table are, in order, the reads at the offsets
`0, blockSize, 2 * blockSize, ...` of its blocks, one per block: their
number is the number of blocks that cover `m_size` bytes. -/
theorem nextHash_is_called_once_per_block_without_rehash (X : Externals) (L : Layout) (fs : FileSystem)
    (p : Process) (s : Searcher) (hbs : 0 < p.blockSize) (hempty : s.m_filesGroups = [])
    (hw : ∀ d ∈ s.m_includeDirs,
      (walk fs s.m_excludeDirs (s.m_recursiveLevel + 1).toNat d).Nodup) :
    (∀ n, ∀ c ∈ Searcher.hashCalls X L fs n (s.findGroups X L fs p),
      c.2.m_pos < c.2.m_size ∧ c.2.stream fs ≠ [] ∧
      (c.2.nextHash X fs p).2.m_pos = c.2.m_pos + p.blockSize) ∧
    (∃ r, s.find X L fs
      (blockCount p.blockSize (largestSize (s.findGroups X L fs p).2.m_filesGroups)) p
        = some r) ∧
    ∀ fuel r, s.find X L fs fuel p = some r →
      ∃ n, r = (Searcher.nextStep X L fs)^[n] (s.findGroups X L fs p) ∧
        (∀ m, m < n → allFinished
          ((Searcher.nextStep X L fs)^[m] (s.findGroups X L fs p)).2.m_filesGroups = false) ∧
        ∀ y ∈ r.2.m_filesGroups, ∀ e ∈ y.2,
          ((Searcher.hashCalls X L fs n (s.findGroups X L fs p)).filter
              fun c => decide (c.1 = e.1)).length
            = blockCount p.blockSize e.2.m_size ∧
          callsFor fs (Searcher.hashCalls X L fs n (s.findGroups X L fs p)) e.1
            = blockReads fs p.blockSize e.1 (blockCount p.blockSize e.2.m_size) := by
  have hT := findGroups_tableOk X L fs p s hbs hempty hw
  have hstart : TableCalls fs (s.findGroups X L fs p).1 []
      (s.findGroups X L fs p).2.m_filesGroups := by
    intro x hx e he
    obtain ⟨_, hx'⟩ := loadGroups_tableOk X L fs p s hbs hempty
      (groupBySize_buckets X L fs s s.m_recursiveLevel hw)
    obtain ⟨i, b, _, hxe⟩ := (hx' x).1 hx
    rw [hxe] at he
    have := (makeGroup_spec L fs b.2).2.2 e he
    rw [this]
    simp [callsFor, blockReads, FileInfo.ofPath]
  have hinv := fun n => hashCalls_inv (X := X) L n (s.findGroups X L fs p) [] hT hbs hstart
  refine ⟨?_, find_returns X L fs p s hbs hempty hw, ?_⟩
  · intro n c hc
    obtain ⟨h1, h2⟩ := (hinv n).2 c hc
    refine ⟨h1, h2, ?_⟩
    rw [nextHash_eq_of_le (Nat.le_of_lt h1)]
  · intro fuel r hr
    obtain ⟨n, _, hrn, hfin, hmin⟩ := findLoop_some fuel _ r hr
    refine ⟨n, hrn, hmin, ?_⟩
    intro y hy e he
    have hcalls := (hinv n).1
    rw [List.nil_append, ← hrn] at hcalls
    have hce := hcalls y hy e he
    obtain ⟨k, S, hg⟩ := reach_groupAt L _ hT n y (hrn ▸ hy)
    have hg' : GroupAt X fs p k S y.2 :=
      GroupAt.congrGroup (p := (s.findGroups X L fs p).1) (q := p) rfl rfl hg
    have hyfin : y.2.isFinished = true := by
      unfold allFinished at hfin
      rw [List.all_eq_true] at hfin
      exact hfin y hy
    have hk : e.2.m_pos / p.blockSize = blockCount p.blockSize e.2.m_size := by
      rw [hg'.pos_div hbs he, (hg'.file e he).size, hg'.size e.1 (mem_keys_of_mem he)]
      exact hg'.blocks_of_finished hbs hyfin
    have hce' : callsFor fs (Searcher.hashCalls X L fs n (s.findGroups X L fs p)) e.1
        = blockReads fs p.blockSize e.1 (blockCount p.blockSize e.2.m_size) := by
      rw [← hk]
      exact hce
    refine ⟨?_, hce'⟩
    have hlen := congrArg List.length hce'
    simpa [callsFor, blockReads] using hlen

section Fresh

variable {X : Externals} {L : Layout} {fs : FileSystem} {p : Process}
  {T : List (Nat × FilesGroup)} {gid0 : Nat}

end Fresh

section Fresh2

variable {X : Externals} {L : Layout} {fs : FileSystem}

theorem midPass_succ (ps : Process × Searcher) (i : Nat) :
    Searcher.midPass X L fs ps (i + 1) = passTurn X L fs ps.1 (Searcher.midPass X L fs ps i) := by
  unfold Searcher.midPass
  rw [Function.iterate_succ_apply']

end Fresh2

section Fresh3

variable {X : Externals} {L : Layout} {fs : FileSystem} {p : Process}
  {T : List (Nat × FilesGroup)} {gid0 : Nat} {s : Pass} {y : Nat × FilesGroup}
  {rest : List (Nat × FilesGroup)}

end Fresh3

section Provenance

/-- Every file of a bucket after one include directory was in a bucket
before or has been found in the directory. -/
theorem buckets_mem (L : Layout) (fs : FileSystem) {sg : List (Nat × List Path)}
    (found : List Path) (hn : (keys sg).Nodup) :
    (keys (erase (found.foldl (fun m e => pushBack L.sizeSlot m (fs.fileSize e) e) sg)
        (fun item => decide (item.2.length = 1)))).Nodup ∧
    ∀ b ∈ erase (found.foldl (fun m e => pushBack L.sizeSlot m (fs.fileSize e) e) sg)
        (fun item => decide (item.2.length = 1)),
      ∀ a ∈ b.2, (∃ b' ∈ sg, a ∈ b'.2) ∨ a ∈ found := by
  have hfold : found.foldl (fun m e => pushBack L.sizeSlot m (fs.fileSize e) e) sg
      = (found.map fun e => (fs.fileSize e, e)).foldl
          (fun m x => pushBack L.sizeSlot m x.1 x.2) sg := by
    rw [List.foldl_map]
  obtain ⟨f1, _, f3⟩ := foldl_pushBack L.sizeSlot
    (found.map fun e => (fs.fileSize e, e)) sg hn
  rw [← hfold] at f1 f3
  generalize found.foldl (fun m e => pushBack L.sizeSlot m (fs.fileSize e) e) sg = filled
    at f1 f3
  constructor
  · exact f1.sublist ((List.filter_sublist _).map Prod.fst)
  · intro b hb a ha
    have hbf : b ∈ filled := (mem_erase.1 hb).1
    have hget := ((mem_iff_getD (d := ([] : List Path)) f1).1 hbf).2
    rw [f3, classOf_map_self] at hget
    rw [← hget] at ha
    rcases List.mem_append.1 ha with h1 | h1
    · left
      by_cases hk : b.1 ∈ keys sg
      · obtain ⟨v, hv⟩ := mem_keys_iff.1 hk
        rw [getD_of_mem hn hv] at h1
        exact ⟨(b.1, v), hv, h1⟩
      · rw [getD_of_not_mem hk] at h1
        cases h1
    · right
      exact (List.mem_filter.1 h1).1

theorem foldl_scanDirectory_mem (X : Externals) (L : Layout) (fs : FileSystem) (s : Searcher)
    (level : Int) (dirs : List Path) :
    ∀ sg : List (Nat × List Path), (keys sg).Nodup →
      ∀ b ∈ dirs.foldl (s.scanDirectory X L fs level) sg, ∀ a ∈ b.2,
        (∃ b' ∈ sg, a ∈ b'.2) ∨
        ∃ d ∈ dirs, a ∈ walk fs s.m_excludeDirs (level + 1).toNat d ∧
          s.isCandidate X fs a = true := by
  induction dirs with
  | nil =>
    intro sg _ b hb a ha
    exact Or.inl ⟨b, hb, ha⟩
  | cons d dirs ih =>
    intro sg hn b hb a ha
    rw [List.foldl_cons] at hb
    obtain ⟨m1, m2⟩ := buckets_mem L fs
      ((walk fs s.m_excludeDirs (level + 1).toNat d).filter (s.isCandidate X fs)) hn
    rcases ih (s.scanDirectory X L fs level sg d) m1 b hb a ha with ⟨b', hb', ha'⟩ | ⟨d', hd', h⟩
    · rcases m2 b' hb' a ha' with h1 | h1
      · exact Or.inl h1
      · obtain ⟨h2, h3⟩ := List.mem_filter.1 h1
        exact Or.inr ⟨d, List.mem_cons_self _ _, h2, h3⟩
    · exact Or.inr ⟨d', List.mem_cons_of_mem _ hd', h⟩

/-- Every file of a bucket `groupBySize` returns was reported by the walk
of an include directory and passed the tests on type, size and name. -/
theorem groupBySize_mem (X : Externals) (L : Layout) (fs : FileSystem) (s : Searcher)
    (level : Int) :
    ∀ b ∈ s.groupBySize X L fs level, ∀ a ∈ b.2,
      ∃ d ∈ s.m_includeDirs, a ∈ walk fs s.m_excludeDirs (level + 1).toNat d ∧
        s.isCandidate X fs a = true := by
  intro b hb a ha
  rcases foldl_scanDirectory_mem X L fs s level s.m_includeDirs [] (by simp [keys]) b hb a ha
    with ⟨b', hb', _⟩ | h
  · cases hb'
  · exact h

end Provenance

/-- As long as no insertion rehashes the table: when the table `findGroups`
builds in a newly constructed object has a group whose files all have length 0, the minimum file size is 0, the
group has at least two members and is finished from the start, `find`
returns, and the table it returns holds that group unchanged, under its id
and with all its members; no other group of that table holds a file of
length 0. -/
theorem zero_length_group_is_kept_without_rehash (X : Externals) (L : Layout)
    (fs : FileSystem) (p : Process) (s : Searcher) (x0 : Nat × FilesGroup)
    (hbs : 0 < p.blockSize) (hempty : s.m_filesGroups = [])
    (hw : ∀ d ∈ s.m_includeDirs,
      (walk fs s.m_excludeDirs (s.m_recursiveLevel + 1).toNat d).Nodup)
    (hx0 : x0 ∈ (s.findGroups X L fs p).2.m_filesGroups)
    (hzero : ∀ e ∈ x0.2, fs.fileSize e.1 = 0) :
    s.m_minSize = 0 ∧ 2 ≤ x0.2.length ∧ x0.2.isFinished = true ∧
    (∃ fuel r, s.find X L fs fuel p = some r) ∧
    ∀ fuel r, s.find X L fs fuel p = some r →
      x0 ∈ r.2.m_filesGroups ∧
      ∀ y ∈ r.2.m_filesGroups, ∀ e ∈ y.2, fs.fileSize e.1 = 0 → y = x0 := by
  have hsg := groupBySize_buckets X L fs s s.m_recursiveLevel hw
  obtain ⟨hT, hinit⟩ := loadGroups_tableOk X L fs p s hbs hempty hsg
  have hT' : TableOk X fs (s.findGroups X L fs p).1 (s.findGroups X L fs p).2.m_filesGroups
      (s.findGroups X L fs p).1.groupId := hT
  obtain ⟨k0, S0, hg0⟩ := hT'.group x0 hx0
  obtain ⟨e0, he0⟩ := List.exists_mem_of_ne_nil _ hg0.ne_nil
  have hS0 : S0 = 0 := by
    rw [← hg0.size e0.1 (mem_keys_of_mem he0)]
    exact hzero e0 he0
  have hfin0 : x0.2.isFinished = true := by
    rw [hg0.isFinished_eq, hS0]
    simp
  obtain ⟨i0, b0, hb0, hxb0⟩ := (hinit x0).1 hx0
  have hmin : s.m_minSize = 0 := by
    have hmem : e0.1 ∈ b0.2 := by
      rw [hxb0] at he0
      exact ((makeGroup_spec L fs b0.2).2.1 e0.1).1 (mem_keys_of_mem he0)
    obtain ⟨d, _, _, hc⟩ := groupBySize_mem X L fs s s.m_recursiveLevel b0
      (List.getElem?_mem hb0) e0.1 hmem
    unfold Searcher.isCandidate at hc
    simp only [Bool.and_eq_true, decide_eq_true_eq] at hc
    have := hc.1.2
    rw [hzero e0 he0] at this
    omega
  refine ⟨hmin, hg0.two, hfin0, ⟨_, find_returns X L fs p s hbs hempty hw⟩, ?_⟩
  · intro fuel r hr
    obtain ⟨n, _, hrn, _, _⟩ := findLoop_some fuel _ r hr
    have htab : r.2.m_filesGroups = (passes X L fs (s.findGroups X L fs p).1 n
        (s.findGroups X L fs p).2.m_filesGroups (s.findGroups X L fs p).1.groupId).1 := by
      rw [hrn]
      exact (nextStep_iterate _ _).1
    have hin : x0 ∈ r.2.m_filesGroups := by
      rw [htab]
      have := passes_finished (L := L) hT' 0 n x0 hx0 hfin0
      rwa [Nat.zero_add] at this
    refine ⟨hin, ?_⟩
    intro y hy e he hez
    have hokn := (passes_spec (L := L) hT' n).1
    rw [← htab] at hokn
    obtain ⟨x', hx', hsub⟩ := passes_lineage (L := L) hT' n y (htab ▸ hy)
    have hex' : e.1 ∈ keys x'.2 := hsub e.1 (mem_keys_of_mem he)
    obtain ⟨i', b', hb', hxb'⟩ := (hinit x').1 hx'
    have hsize : ∀ {i : Nat} {b : Nat × List Path} {x : Nat × FilesGroup} {a : Path},
        (s.groupBySize X L fs s.m_recursiveLevel)[i]? = some b →
        x = (p.groupId + i, makeGroup L fs b.2) → a ∈ keys x.2 → fs.fileSize a = b.1 := by
      intro i b x a hb hx ha
      rw [hx] at ha
      exact hsg.2.1 b (List.getElem?_mem hb) a (((makeGroup_spec L fs b.2).2.1 a).1 ha)
    have hb0z : b0.1 = 0 := by
      rw [← hsize hb0 hxb0 (mem_keys_of_mem he0)]
      exact hzero e0 he0
    have hb'z : b'.1 = 0 := by
      rw [← hsize hb' hxb' hex']
      exact hez
    have hii : i' = i0 := index_eq_of_key_eq hsg.1 hb' hb0 (by rw [hb0z, hb'z])
    have hxx : x' = x0 := by
      rw [hxb', hxb0]
      rw [hii] at hb'
      rw [hb0] at hb'
      cases hb'
      rw [hii]
    rw [hxx] at hex'
    exact hokn.disjoint y hy x0 hin e.1 (mem_keys_of_mem he) hex'

section LayoutFree

/-- The buckets after one include directory do not depend on the layout of
`sizeGroups`, apart from their order. -/
theorem buckets_layout (L1 L2 : Layout) (fs : FileSystem) {sg1 sg2 : List (Nat × List Path)}
    (found : List Path) (hn1 : (keys sg1).Nodup) (hn2 : (keys sg2).Nodup)
    (hmem : ∀ b, b ∈ sg1 ↔ b ∈ sg2) :
    ∀ b, b ∈ erase (found.foldl (fun m e => pushBack L1.sizeSlot m (fs.fileSize e) e) sg1)
          (fun item => decide (item.2.length = 1)) ↔
        b ∈ erase (found.foldl (fun m e => pushBack L2.sizeSlot m (fs.fileSize e) e) sg2)
          (fun item => decide (item.2.length = 1)) := by
  have hfold : ∀ (L : Layout) (sg : List (Nat × List Path)),
      found.foldl (fun m e => pushBack L.sizeSlot m (fs.fileSize e) e) sg
        = (found.map fun e => (fs.fileSize e, e)).foldl
            (fun m x => pushBack L.sizeSlot m x.1 x.2) sg := by
    intro L sg
    rw [List.foldl_map]
  obtain ⟨f1, f2, f3⟩ := foldl_pushBack L1.sizeSlot
    (found.map fun e => (fs.fileSize e, e)) sg1 hn1
  obtain ⟨g1, g2, g3⟩ := foldl_pushBack L2.sizeSlot
    (found.map fun e => (fs.fileSize e, e)) sg2 hn2
  rw [← hfold] at f1 f2 f3 g1 g2 g3
  have hkeys : ∀ h, h ∈ keys sg1 ↔ h ∈ keys sg2 := by
    intro h
    rw [mem_keys_iff, mem_keys_iff]
    exact ⟨fun ⟨v, hv⟩ => ⟨v, (hmem _).1 hv⟩, fun ⟨v, hv⟩ => ⟨v, (hmem _).2 hv⟩⟩
  intro b
  rw [mem_erase, mem_erase, mem_iff_getD (d := ([] : List Path)) f1,
    mem_iff_getD (d := ([] : List Path)) g1, f2, g2, f3, g3, hkeys,
    getD_congr hn1 hn2 hmem]

theorem foldl_scanDirectory_layout (X : Externals) (L1 L2 : Layout) (fs : FileSystem)
    (s : Searcher) (level : Int) (dirs : List Path) :
    ∀ sg1 sg2 : List (Nat × List Path), (keys sg1).Nodup → (keys sg2).Nodup →
      (∀ b, b ∈ sg1 ↔ b ∈ sg2) →
      ∀ b, b ∈ dirs.foldl (s.scanDirectory X L1 fs level) sg1 ↔
        b ∈ dirs.foldl (s.scanDirectory X L2 fs level) sg2 := by
  induction dirs with
  | nil =>
    intro sg1 sg2 _ _ h
    exact h
  | cons d dirs ih =>
    intro sg1 sg2 hn1 hn2 h
    rw [List.foldl_cons, List.foldl_cons]
    exact ih _ _
      (buckets_mem L1 fs
        ((walk fs s.m_excludeDirs (level + 1).toNat d).filter (s.isCandidate X fs)) hn1).1
      (buckets_mem L2 fs
        ((walk fs s.m_excludeDirs (level + 1).toNat d).filter (s.isCandidate X fs)) hn2).1
      (buckets_layout L1 L2 fs _ hn1 hn2 h)

/-- The buckets `groupBySize` returns are the same under every layout of
`sizeGroups`, apart from their order. -/
theorem groupBySize_layout (X : Externals) (L1 L2 : Layout) (fs : FileSystem) (s : Searcher)
    (level : Int) :
    ∀ b, b ∈ s.groupBySize X L1 fs level ↔ b ∈ s.groupBySize X L2 fs level :=
  foldl_scanDirectory_layout X L1 L2 fs s level s.m_includeDirs [] []
    (by simp [keys]) (by simp [keys]) (fun _ => Iff.rfl)

end LayoutFree

section LayoutFree2

variable {X : Externals} {fs : FileSystem}

/-- The files of a finished well-formed group hash alike at every block
index. -/
theorem GroupAt.hashAt_eq_of_finished {p : Process} {k S : Nat} {g : FilesGroup}
    (hg : GroupAt X fs p k S g) (hbs : 0 < p.blockSize) (hfin : g.isFinished = true)
    {a b : Path} (ha : a ∈ keys g) (hb : b ∈ keys g) (i : Nat) :
    hashAt X fs p a i = hashAt X fs p b i :=
  (blockHashes_eq_iff X fs p hbs (by rw [hg.size a ha, hg.size b hb])).1
    (hg.blockHashes_eq hbs hfin ha hb) i

/-- Two runs of the passes from tables whose groups hold the same files end,
when all groups are finished, with tables whose groups hold the same files:
neither the layouts nor the ids matter. -/
theorem finished_tables_correspond {L1 L2 : Layout} {p1 p2 : Process}
    {T1 T2 : List (Nat × FilesGroup)} {gid1 gid2 : Nat}
    (h1 : TableOk X fs p1 T1 gid1) (h2 : TableOk X fs p2 T2 gid2)
    (hbs : 0 < p1.blockSize) (hpb : p1.blockSize = p2.blockSize)
    (hpc : p1.checkSum = p2.checkSum)
    (hcorr : ∀ x1 ∈ T1, ∃ x2 ∈ T2, ∀ a, a ∈ keys x1.2 ↔ a ∈ keys x2.2)
    (n1 n2 : Nat) (hf1 : allFinished (passes X L1 fs p1 n1 T1 gid1).1 = true)
    (hf2 : allFinished (passes X L2 fs p2 n2 T2 gid2).1 = true) :
    ∀ y1 ∈ (passes X L1 fs p1 n1 T1 gid1).1, ∃ y2 ∈ (passes X L2 fs p2 n2 T2 gid2).1,
      ∀ a, a ∈ keys y1.2 ↔ a ∈ keys y2.2 := by
  have hbs2 : 0 < p2.blockSize := hpb ▸ hbs
  have ok1 := (passes_spec (L := L1) h1 n1).1
  have ok2 := (passes_spec (L := L2) h2 n2).1
  have fin1 : ∀ y ∈ (passes X L1 fs p1 n1 T1 gid1).1, y.2.isFinished = true := by
    unfold allFinished at hf1
    rw [List.all_eq_true] at hf1
    exact hf1
  have fin2 : ∀ y ∈ (passes X L2 fs p2 n2 T2 gid2).1, y.2.isFinished = true := by
    unfold allFinished at hf2
    rw [List.all_eq_true] at hf2
    exact hf2
  intro y1 hy1
  obtain ⟨k1, S1, hg1⟩ := ok1.group y1 hy1
  obtain ⟨a, ha, a', ha', hne⟩ := exists_ne_of_two_le hg1.nodup
    (by simpa [keys] using hg1.two)
  obtain ⟨x1, hx1, hsub1⟩ := passes_lineage (L := L1) h1 n1 y1 hy1
  obtain ⟨x2, hx2, hkeys⟩ := hcorr x1 hx1
  have hall1 : ∀ c ∈ keys y1.2, ∀ i, hashAt X fs p2 c i = hashAt X fs p2 a i := by
    intro c hc i
    rw [← hashAt_congr hpb hpc, ← hashAt_congr hpb hpc]
    exact hg1.hashAt_eq_of_finished hbs (fin1 y1 hy1) hc ha i
  obtain ⟨y2, hy2, hay2, _⟩ := passes_complete (L := L2) h2 n2 x2 hx2
    a ((hkeys a).1 (hsub1 a ha)) a' ((hkeys a').1 (hsub1 a' ha')) hne
    (fun i => (hall1 a' ha' i).symm)
  refine ⟨y2, hy2, ?_⟩
  intro c
  constructor
  · intro hc
    by_cases hca : c = a
    · rw [hca]
      exact hay2
    · obtain ⟨y2', hy2', h3, h4⟩ := passes_complete (L := L2) h2 n2 x2 hx2
        c ((hkeys c).1 (hsub1 c hc)) a ((hkeys a).1 (hsub1 a ha)) hca (hall1 c hc)
      have := ok2.disjoint y2' hy2' y2 hy2 a h4 hay2
      rw [← this]
      exact h3
  · intro hc
    by_cases hca : c = a
    · rw [hca]
      exact ha
    · obtain ⟨k2, S2, hg2⟩ := ok2.group y2 hy2
      obtain ⟨x2', hx2', hsub2⟩ := passes_lineage (L := L2) h2 n2 y2 hy2
      have hxx : x2' = x2 :=
        h2.disjoint x2' hx2' x2 hx2 a (hsub2 a hay2) ((hkeys a).1 (hsub1 a ha))
      rw [hxx] at hsub2
      have hall2 : ∀ i, hashAt X fs p1 c i = hashAt X fs p1 a i := by
        intro i
        rw [hashAt_congr hpb hpc, hashAt_congr hpb hpc]
        exact hg2.hashAt_eq_of_finished hbs2 (fin2 y2 hy2) hc hay2 i
      obtain ⟨y1', hy1', h3, h4⟩ := passes_complete (L := L1) h1 n1 x1 hx1
        c ((hkeys c).2 (hsub2 c hc)) a (hsub1 a ha) hca hall2
      have := ok1.disjoint y1' hy1' y1 hy1 a h4 ha
      rw [← this]
      exact h3

/-- The tables `findGroups` builds under two layouts hold the same files in
their groups. -/
theorem findGroups_layout (X : Externals) (L1 L2 : Layout) (fs : FileSystem)
    (p1 p2 : Process) (s : Searcher) (hbs1 : 0 < p1.blockSize) (hbs2 : 0 < p2.blockSize)
    (hempty : s.m_filesGroups = [])
    (hw : ∀ d ∈ s.m_includeDirs,
      (walk fs s.m_excludeDirs (s.m_recursiveLevel + 1).toNat d).Nodup) :
    ∀ x1 ∈ (s.findGroups X L1 fs p1).2.m_filesGroups,
      ∃ x2 ∈ (s.findGroups X L2 fs p2).2.m_filesGroups,
        ∀ a, a ∈ keys x1.2 ↔ a ∈ keys x2.2 := by
  obtain ⟨_, i1⟩ := loadGroups_tableOk X L1 fs p1 s hbs1 hempty
    (groupBySize_buckets X L1 fs s s.m_recursiveLevel hw)
  obtain ⟨_, i2⟩ := loadGroups_tableOk X L2 fs p2 s hbs2 hempty
    (groupBySize_buckets X L2 fs s s.m_recursiveLevel hw)
  intro x1 hx1
  obtain ⟨i, b, hb, hxb⟩ := (i1 x1).1 hx1
  have hb2 : b ∈ s.groupBySize X L2 fs s.m_recursiveLevel :=
    (groupBySize_layout X L1 L2 fs s s.m_recursiveLevel b).1 (List.getElem?_mem hb)
  obtain ⟨j, hj, hjb⟩ := List.getElem_of_mem hb2
  refine ⟨(p2.groupId + j, makeGroup L2 fs b.2),
    (i2 _).2 ⟨j, b, by rw [List.getElem?_eq_getElem hj, hjb], rfl⟩, ?_⟩
  intro a
  rw [hxb]
  show a ∈ keys (makeGroup L1 fs b.2) ↔ a ∈ keys (makeGroup L2 fs b.2)
  rw [(makeGroup_spec L1 fs b.2).2.1, (makeGroup_spec L2 fs b.2).2.1]

end LayoutFree2

/-- As long as no insertion rehashes the table: two runs of `find` on newly
constructed objects with the same
options over the same disk, with the same block size and checksum, under
any two layouts of the hash containers (which fix the iteration order of
the groups and of the members of a group, and whether a group made during a
pass is met again in that pass) and from any two values of the id counter,
both return, with tables whose groups hold the same sets of paths: every group of one
table has a group of the other with exactly its paths. -/
theorem find_result_does_not_depend_on_layout_without_rehash (X : Externals) (L1 L2 : Layout)
    (fs : FileSystem) (p1 p2 : Process) (s : Searcher) (hbs : 0 < p1.blockSize)
    (hpb : p1.blockSize = p2.blockSize) (hpc : p1.checkSum = p2.checkSum)
    (hempty : s.m_filesGroups = [])
    (hw : ∀ d ∈ s.m_includeDirs,
      (walk fs s.m_excludeDirs (s.m_recursiveLevel + 1).toNat d).Nodup) :
    (∃ r1, s.find X L1 fs
      (blockCount p1.blockSize (largestSize (s.findGroups X L1 fs p1).2.m_filesGroups)) p1
        = some r1) ∧
    (∃ r2, s.find X L2 fs
      (blockCount p2.blockSize (largestSize (s.findGroups X L2 fs p2).2.m_filesGroups)) p2
        = some r2) ∧
    ∀ fuel1 fuel2 r1 r2, s.find X L1 fs fuel1 p1 = some r1 →
      s.find X L2 fs fuel2 p2 = some r2 →
      (∀ y1 ∈ r1.2.m_filesGroups, ∃ y2 ∈ r2.2.m_filesGroups,
        ∀ a, a ∈ keys y1.2 ↔ a ∈ keys y2.2) ∧
      ∀ y2 ∈ r2.2.m_filesGroups, ∃ y1 ∈ r1.2.m_filesGroups,
        ∀ a, a ∈ keys y2.2 ↔ a ∈ keys y1.2 := by
  have hbs2 : 0 < p2.blockSize := hpb ▸ hbs
  have hT1 := findGroups_tableOk X L1 fs p1 s hbs hempty hw
  have hT2 := findGroups_tableOk X L2 fs p2 s hbs2 hempty hw
  refine ⟨find_returns X L1 fs p1 s hbs hempty hw, find_returns X L2 fs p2 s hbs2 hempty hw, ?_⟩
  intro fuel1 fuel2 r1 r2 hr1 hr2
  obtain ⟨n1, _, hrn1, hfin1, _⟩ := findLoop_some fuel1 _ r1 hr1
  obtain ⟨n2, _, hrn2, hfin2, _⟩ := findLoop_some fuel2 _ r2 hr2
  have htab1 : r1.2.m_filesGroups = (passes X L1 fs (s.findGroups X L1 fs p1).1 n1
      (s.findGroups X L1 fs p1).2.m_filesGroups (s.findGroups X L1 fs p1).1.groupId).1 := by
    rw [hrn1]
    exact (nextStep_iterate _ _).1
  have htab2 : r2.2.m_filesGroups = (passes X L2 fs (s.findGroups X L2 fs p2).1 n2
      (s.findGroups X L2 fs p2).2.m_filesGroups (s.findGroups X L2 fs p2).1.groupId).1 := by
    rw [hrn2]
    exact (nextStep_iterate _ _).1
  rw [htab1] at hfin1
  rw [htab2] at hfin2
  rw [htab1, htab2]
  constructor
  · exact finished_tables_correspond hT1 hT2 hbs hpb hpc
      (findGroups_layout X L1 L2 fs p1 p2 s hbs hbs2 hempty hw) n1 n2 hfin1 hfin2
  · exact finished_tables_correspond hT2 hT1 hbs2 hpb.symm hpc.symm
      (findGroups_layout X L2 L1 fs p2 p1 s hbs2 hbs hempty hw) n2 n1 hfin2 hfin1

section Exclude

end Exclude

section StdTableLemmas

theorem linkNode_perm (buckets : Nat) (nodes : List (Nat × FilesGroup))
    (node : Nat × FilesGroup) : (linkNode buckets nodes node).Perm (node :: nodes) := by
  unfold linkNode
  split
  · exact insertAt_perm _ _ _
  · exact List.Perm.refl _

theorem foldl_linkNode_perm (buckets : Nat) (nodes : List (Nat × FilesGroup)) :
    ∀ acc : List (Nat × FilesGroup),
      (nodes.foldl (linkNode buckets) acc).Perm (acc ++ nodes) := by
  induction nodes with
  | nil =>
    intro acc
    simp
  | cons x nodes ih =>
    intro acc
    rw [List.foldl_cons]
    refine (ih _).trans ?_
    refine ((linkNode_perm buckets acc x).append_right nodes).trans ?_
    simp only [List.cons_append]
    exact List.perm_middle.symm

theorem relink_perm (buckets : Nat) (nodes : List (Nat × FilesGroup)) :
    (relink buckets nodes).Perm nodes := by
  have := foldl_linkNode_perm buckets nodes []
  simpa [relink] using this

theorem StdTable.assign_perm {t : StdTable} {id : Nat} (group : FilesGroup)
    (h : id ∉ keys t.nodes) : (t.assign id group).nodes.Perm ((id, group) :: t.nodes) := by
  unfold StdTable.assign
  rw [if_neg h]
  split
  · exact (linkNode_perm _ _ _).trans ((relink_perm _ _).cons _)
  · exact linkNode_perm _ _ _

theorem keys_perm {K V : Type} {m m' : List (K × V)} (h : m.Perm m') :
    (keys m).Perm (keys m') :=
  h.map Prod.fst

end StdTableLemmas

section LevelLemmas

variable {X : Externals} {L : Layout} {fs : FileSystem} {p : Process}

theorem sum_map_put {K V : Type} [DecidableEq K] (f : V → Nat) (d v : V) {k : K} :
    ∀ {m : List (K × V)}, (keys m).Nodup → k ∈ keys m →
      ((put m k v).map fun z => f z.2).sum + f (getD d m k)
        = (m.map fun z => f z.2).sum + f v := by
  intro m
  induction m with
  | nil =>
    intro _ hk
    cases hk
  | cons a m ih =>
    intro hn hk
    have hn2 : (a.1 :: keys m).Nodup := hn
    obtain ⟨ha, hn'⟩ := List.nodup_cons.1 hn2
    by_cases hak : a.1 = k
    · have hkm : k ∉ keys m := by
        rw [← hak]
        simpa [keys] using ha
      have h1 : put (a :: m) k v = (a.1, v) :: m := by
        have := put_of_not_mem (v := v) hkm
        simp only [put, List.map_cons, hak, if_true] at this ⊢
        rw [this]
      have h2 : getD d (a :: m) k = a.2 := by
        simp [getD, List.find?_cons, hak]
      rw [h1, h2]
      simp only [List.map_cons, List.sum_cons]
      omega
    · have hk2 : k ∈ a.1 :: keys m := hk
      have hkm : k ∈ keys m := by
        rcases List.mem_cons.1 hk2 with h | h
        · exact absurd h.symm hak
        · exact h
      have h1 : put (a :: m) k v = a :: put m k v := by
        simp [put, hak]
      have h2 : getD d (a :: m) k = getD d m k := by
        simp [getD, List.find?_cons, hak]
      have := ih hn' hkm
      rw [h1, h2]
      simp only [List.map_cons, List.sum_cons]
      omega

theorem sum_lengths_pushBack {K α : Type} [DecidableEq K] (slot : K → List K → Nat)
    {m : List (K × List α)} (hn : (keys m).Nodup) (k : K) (x : α) :
    ((pushBack slot m k x).map fun z => z.2.length).sum
      = (m.map fun z => z.2.length).sum + 1 := by
  unfold pushBack
  have hn1 : (keys (subscript slot [] m k)).Nodup := nodup_keys_subscript hn
  have hk1 : k ∈ keys (subscript slot [] m k) := mem_keys_subscript.2 (Or.inl rfl)
  have h := sum_map_put (fun l : List α => l.length) []
    (getD [] (subscript slot [] m k) k ++ [x]) hn1 hk1
  simp only [List.length_append, List.length_singleton] at h
  have h2 : ((subscript slot [] m k).map fun z => z.2.length).sum
      = (m.map fun z => z.2.length).sum := by
    by_cases hk : k ∈ keys m
    · rw [subscript_of_mem hk]
    · have hp := subscript_perm_of_not_mem slot ([] : List α) hk
      rw [(hp.map _).sum_eq]
      simp
  simp only at h ⊢
  omega

theorem sum_lengths_foldl_pushBack {K α : Type} [DecidableEq K] (slot : K → List K → Nat)
    (xs : List (K × α)) :
    ∀ m : List (K × List α), (keys m).Nodup →
      ((xs.foldl (fun m e => pushBack slot m e.1 e.2) m).map fun z => z.2.length).sum
        = (m.map fun z => z.2.length).sum + xs.length := by
  induction xs with
  | nil =>
    intro m _
    simp
  | cons e xs ih =>
    intro m hn
    rw [List.foldl_cons, ih _ (nodup_keys_pushBack hn), sum_lengths_pushBack slot hn,
      List.length_cons]
    omega

theorem classOf_sublist {K α : Type} [DecidableEq K] (xs : List (K × α)) (h : K) :
    (classOf xs h).Sublist (xs.map Prod.snd) := by
  unfold classOf
  exact (List.filter_sublist _).map _

/-- The map `hashGroups` of a group with distinct paths: its keys are
distinct, every bucket holds distinct paths of the group, and the buckets
together hold as many paths as the group has members. -/
theorem hashGroupsOf_files (X : Externals) (L : Layout) (fs : FileSystem) (p : Process)
    {g : FilesGroup} (hn : (keys g).Nodup) :
    (keys (hashGroupsOf X L fs p g)).Nodup ∧
    (∀ c ∈ hashGroupsOf X L fs p g, c.2.Nodup ∧ ∀ a ∈ c.2, a ∈ keys g) ∧
    ((hashGroupsOf X L fs p g).map fun c => c.2.length).sum = g.length := by
  obtain ⟨h1, _, h3⟩ := foldl_pushBack L.hashSlot
    (g.map fun file => ((file.2.nextHash X fs p).1, file.1)) [] (by simp [keys])
  have h4 := sum_lengths_foldl_pushBack L.hashSlot
    (g.map fun file => ((file.2.nextHash X fs p).1, file.1)) [] (by simp [keys])
  rw [← hashGroupsOf_eq] at h1 h3 h4
  have hsnd : (g.map fun file => ((file.2.nextHash X fs p).1, file.1)).map Prod.snd = keys g := by
    simp [keys, List.map_map, Function.comp_def]
  refine ⟨h1, ?_, by simpa using h4⟩
  intro c hc
  have hget := ((mem_iff_getD (d := ([] : List Path)) h1).1 hc).2
  rw [h3] at hget
  have hsub := classOf_sublist (g.map fun file => ((file.2.nextHash X fs p).1, file.1)) c.1
  rw [hsnd] at hsub
  have hc2 : c.2 = classOf (g.map fun file => ((file.2.nextHash X fs p).1, file.1)) c.1 := by
    rw [← hget]
    simp [getD]
  rw [hc2]
  exact ⟨hn.sublist hsub, fun a ha => hsub.subset ha⟩

theorem Level.nonempty {pos size : Nat} {g : FilesGroup} (h : Level pos size g) : g ≠ [] := h.1

theorem Level.finished_eq {pos size : Nat} {g : FilesGroup} (h : Level pos size g) :
    g.isFinished = decide (pos ≥ size) := by
  obtain ⟨hne, _, hm⟩ := h
  cases g with
  | nil => exact absurd rfl hne
  | cons e g =>
    obtain ⟨h1, h2⟩ := hm e (List.mem_cons_self _ _)
    simp [FilesGroup.isFinished, FileInfo.isFinished, h1, h2]

theorem Level.first_finished_iff {pos size : Nat} {g : FilesGroup} (h : Level pos size g) :
    g.isFinished = true ↔ ∀ e ∈ g, e.2.isFinished = true := by
  rw [h.finished_eq]
  obtain ⟨hne, _, hm⟩ := h
  constructor
  · intro hd e he
    obtain ⟨h1, h2⟩ := hm e he
    simpa [FileInfo.isFinished, h1, h2] using hd
  · intro hall
    obtain ⟨e, he⟩ := List.exists_mem_of_ne_nil _ hne
    obtain ⟨h1, h2⟩ := hm e he
    have := hall e he
    simpa [FileInfo.isFinished, h1, h2] using this

theorem Level.after_hash (X : Externals) (fs : FileSystem) (p : Process) {pos size : Nat}
    {g : FilesGroup} (h : Level pos size g) (hlt : pos < size) :
    Level (pos + p.blockSize) size (hashMembers X fs p g) := by
  obtain ⟨hne, hn, hm⟩ := h
  refine ⟨?_, ?_, ?_⟩
  · intro hc
    apply hne
    simpa [hashMembers] using hc
  · rw [keys_hashMembers]
    exact hn
  · intro e he
    obtain ⟨e0, he0, rfl⟩ := mem_hashMembers.1 he
    obtain ⟨h1, h2⟩ := hm e0 he0
    have hle : ¬ size < pos := by omega
    simp [FileInfo.nextHash, hle, h1, h2]

theorem length_eq_of_keys_iff {g g' : FilesGroup} (hn : (keys g).Nodup) (hn' : (keys g').Nodup)
    (h : ∀ a, a ∈ keys g ↔ a ∈ keys g') : g.length = g'.length := by
  have hp : (keys g).Perm (keys g') := (List.perm_ext_iff_of_nodup hn hn').2 h
  have := hp.length_eq
  simpa [keys] using this

/-- The loop that fills `newGroup` from distinct paths of a group whose
members stand at one position: the new group and what is left of the group
are such groups too, with as many members as there are paths and as the
group had. -/
theorem Level.after_move (L : Layout) {pos size : Nat} {g : FilesGroup} {files : List Path}
    (h : Level pos size g) (hn : files.Nodup) (hsub : ∀ a ∈ files, a ∈ keys g)
    (hne : files ≠ []) :
    Level pos size (moveMembers L files g).1 ∧ Level pos size (moveMembers L files g).2 ∧
    (moveMembers L files g).1.length = files.length ∧
    (moveMembers L files g).2.length = g.length ∧
    (∀ a, a ∈ keys (moveMembers L files g).1 ↔ a ∈ files) ∧
    (∀ a, a ∈ keys (moveMembers L files g).2 ↔ a ∈ keys g) := by
  obtain ⟨hgne, hgn, hm⟩ := h
  obtain ⟨r1, r2, r3, r4, r5, r6⟩ :=
    foldl_moveMember L files ([], g) (by simp [keys]) hgn hn
  have k1 : ∀ a, a ∈ keys (moveMembers L files g).1 ↔ a ∈ files := by
    intro a
    have := r3 a
    simpa [keys] using this
  have k2 : ∀ a, a ∈ keys (moveMembers L files g).2 ↔ a ∈ keys g := by
    intro a
    have := r4 a
    simp only at this
    constructor
    · intro ha
      rcases (this.1 ha) with h1 | h1
      · exact hsub a h1
      · exact h1
    · intro ha
      exact this.2 (Or.inr ha)
  have hget : ∀ a ∈ keys g, (getD FileInfo.default g a).m_pos = pos ∧
      (getD FileInfo.default g a).m_size = size := by
    intro a ha
    obtain ⟨v, hv⟩ := mem_keys_iff.1 ha
    rw [getD_of_mem hgn hv]
    exact hm (a, v) hv
  have l1 : (moveMembers L files g).1.length = files.length := by
    have hp : (keys (moveMembers L files g).1).Perm files :=
      (List.perm_ext_iff_of_nodup r1 hn).2 k1
    have := hp.length_eq
    simpa [keys] using this
  have l2 : (moveMembers L files g).2.length = g.length :=
    length_eq_of_keys_iff r2 hgn k2
  refine ⟨⟨?_, r1, ?_⟩, ⟨?_, r2, ?_⟩, l1, l2, k1, k2⟩
  · intro hc
    rw [hc] at l1
    apply hne
    exact List.length_eq_zero.1 l1.symm
  · intro e he
    have hk : e.1 ∈ files := (k1 e.1).1 (mem_keys_of_mem he)
    have h5 := r5 e.1
    rw [if_pos hk] at h5
    have h6 : getD FileInfo.default (moveMembers L files g).1 e.1 = e.2 :=
      ((mem_iff_getD (d := FileInfo.default) r1).1 he).2
    have h7 : getD FileInfo.default (moveMembers L files g).1 e.1
        = getD FileInfo.default g e.1 := h5
    rw [← h6, h7]
    exact hget e.1 (hsub e.1 hk)
  · intro hc
    rw [hc] at l2
    apply hgne
    exact List.length_eq_zero.1 l2.symm
  · intro e he
    have hk : e.1 ∈ keys g := (k2 e.1).1 (mem_keys_of_mem he)
    have h5 := r6 e.1
    have h6 : getD FileInfo.default (moveMembers L files g).2 e.1 = e.2 :=
      ((mem_iff_getD (d := FileInfo.default) r2).1 he).2
    have h7 : getD FileInfo.default (moveMembers L files g).2 e.1
        = if e.1 ∈ files then (getD FileInfo.default g e.1).movedFrom
          else getD FileInfo.default g e.1 := h5
    rw [← h6, h7]
    by_cases hf : e.1 ∈ files
    · rw [if_pos hf]
      exact hget e.1 hk
    · rw [if_neg hf]
      exact hget e.1 hk

end LevelLemmas

section VisitLemmas

variable {X : Externals} {L : Layout} {fs : FileSystem} {p : Process}

theorem remaining_step {bs pos size : Nat} (hbs : 0 < bs) (hlt : pos < size) :
    remaining bs pos size = remaining bs (pos + bs) size + 1 := by
  unfold remaining
  by_cases h : pos + bs ≤ size
  · have e1 : size - pos + bs - 1 = (size - (pos + bs) + bs - 1) + bs := by omega
    rw [e1, Nat.add_div_right _ hbs]
  · have e1 : size - (pos + bs) + bs - 1 = bs - 1 := by omega
    have e2 : size - pos + bs - 1 = (size - pos - 1) + bs := by omega
    rw [e1, e2, Nat.add_div_right _ hbs, Nat.div_eq_of_lt (by omega),
      Nat.div_eq_of_lt (by omega)]

theorem Level.weight_of {pos size : Nat} {g : FilesGroup} (h : Level pos size g) (bs : Nat) :
    weight bs g = g.length * 3 ^ remaining bs pos size := by
  obtain ⟨hne, _, hm⟩ := h
  cases g with
  | nil => exact absurd rfl hne
  | cons e g =>
    obtain ⟨h1, h2⟩ := hm e (List.mem_cons_self _ _)
    simp [weight, h1, h2]

theorem potential_perm {bs : Nat} {l1 l2 : List (Nat × FilesGroup)} (h : l1.Perm l2) :
    potential bs l1 = potential bs l2 :=
  (h.map _).sum_eq

theorem potential_cons (bs : Nat) (x : Nat × FilesGroup) (l : List (Nat × FilesGroup)) :
    potential bs (x :: l) = weight bs x.2 + potential bs l := by
  simp [potential]

theorem potential_put (bs : Nat) {nodes : List (Nat × FilesGroup)} (hn : (keys nodes).Nodup)
    {id : Nat} (hid : id ∈ keys nodes) (g : FilesGroup) :
    potential bs (put nodes id g) + weight bs (getD [] nodes id)
      = potential bs nodes + weight bs g :=
  sum_map_put (weight bs) [] g hn hid

theorem potential_erase_le (bs : Nat) (nodes : List (Nat × FilesGroup))
    (func : Nat × FilesGroup → Bool) : potential bs (erase nodes func) ≤ potential bs nodes := by
  unfold potential erase
  exact List.Sublist.sum_le_sum ((List.filter_sublist _).map _) (fun _ _ => Nat.zero_le _)

theorem StdOk.level_at {nodes : List (Nat × FilesGroup)} {gid id : Nat}
    (h : StdOk nodes gid) (hid : id ∈ keys nodes) :
    (id, getD [] nodes id) ∈ nodes ∧ ∃ pos size, Level pos size (getD [] nodes id) := by
  obtain ⟨v, hv⟩ := mem_keys_iff.1 hid
  have hg : getD [] nodes id = v := getD_of_mem h.ids hv
  rw [hg]
  exact ⟨hv, h.level _ hv⟩

theorem StdOk.after_put {nodes : List (Nat × FilesGroup)} {gid id pos size : Nat}
    (h : StdOk nodes gid) {g : FilesGroup} (hg : Level pos size g) :
    StdOk (put nodes id g) gid := by
  refine ⟨by rw [keys_put]; exact h.ids, ?_, ?_⟩
  · intro x hx
    rcases mem_put.1 hx with ⟨rfl, hk⟩ | ⟨hx', _⟩
    · obtain ⟨v, hv⟩ := mem_keys_iff.1 hk
      exact h.below (id, v) hv
    · exact h.below x hx'
  · intro x hx
    rcases mem_put.1 hx with ⟨rfl, _⟩ | ⟨hx', _⟩
    · exact ⟨pos, size, hg⟩
    · exact h.level x hx'

theorem StdOk.after_assign {t : StdTable} {gid pos size : Nat} (h : StdOk t.nodes gid)
    {g : FilesGroup} (hg : Level pos size g) :
    StdOk (t.assign gid g).nodes (gid + 1) ∧
    (t.assign gid g).nodes.Perm ((gid, g) :: t.nodes) := by
  have hfresh : gid ∉ keys t.nodes := by
    intro hc
    obtain ⟨v, hv⟩ := mem_keys_iff.1 hc
    exact Nat.lt_irrefl _ (h.below _ hv)
  have hp := StdTable.assign_perm g hfresh
  refine ⟨⟨?_, ?_, ?_⟩, hp⟩
  · rw [(keys_perm hp).nodup_iff]
    exact List.nodup_cons.2 ⟨hfresh, h.ids⟩
  · intro x hx
    rcases List.mem_cons.1 (hp.mem_iff.1 hx) with rfl | hx'
    · exact Nat.lt_succ_self _
    · exact Nat.lt_succ_of_lt (h.below x hx')
  · intro x hx
    rcases List.mem_cons.1 (hp.mem_iff.1 hx) with rfl | hx'
    · exact ⟨pos, size, hg⟩
    · exact h.level x hx'

theorem SplitSpec.same {bs id pos size : Nat} {s : StdPass}
    (hok : StdOk s.table.nodes s.groupId) (hid : id ∈ keys s.table.nodes)
    (hlev : Level pos size (getD [] s.table.nodes id)) : SplitSpec bs id pos size s s 0 :=
  { ok := hok, here := hid, level := hlev, paths := fun _ => Iff.rfl, length := rfl,
    mono := Nat.le_refl _, removed := rfl, calls := rfl, cursor := rfl,
    kept := fun _ hx _ => hx, origin := fun _ hx => Or.inr (Or.inl hx), potential := rfl }

theorem SplitSpec.chain {bs id pos size : Nat} {s s1 s2 : StdPass} {n1 n2 : Nat}
    (h1 : SplitSpec bs id pos size s s1 n1) (h2 : SplitSpec bs id pos size s1 s2 n2) :
    SplitSpec bs id pos size s s2 (n1 + n2) :=
  { ok := h2.ok, here := h2.here, level := h2.level
    paths := fun a => (h2.paths a).trans (h1.paths a)
    length := h2.length.trans h1.length
    mono := Nat.le_trans h1.mono h2.mono
    removed := h2.removed.trans h1.removed
    calls := h2.calls.trans h1.calls
    cursor := h2.cursor.trans h1.cursor
    kept := fun x hx hne => h2.kept x (h1.kept x hx hne) hne
    origin := by
      intro x hx
      rcases h2.origin x hx with h | h | ⟨h, h'⟩
      · exact Or.inl h
      · exact h1.origin x h
      · exact Or.inr (Or.inr ⟨Nat.le_trans h1.mono h, fun a ha => (h1.paths a).1 (h' a ha)⟩)
    potential := by rw [h2.potential, h1.potential, Nat.add_assoc] }

/-- The two statements of the body of the loop over `hashGroups`: what is
left of the group goes back under its key and the new group is inserted
under the next id. -/
theorem splitSpec_assign (bs : Nat) {id pos size : Nat} {s : StdPass}
    (hok : StdOk s.table.nodes s.groupId) (hid : id ∈ keys s.table.nodes)
    (hlev : Level pos size (getD [] s.table.nodes id)) {files : List Path}
    {mv1 mv2 : FilesGroup} (m1 : Level pos size mv1) (m2 : Level pos size mv2)
    (m3 : mv1.length = files.length) (m4 : mv2.length = (getD [] s.table.nodes id).length)
    (m5 : ∀ a, a ∈ keys mv1 → a ∈ keys (getD [] s.table.nodes id))
    (m6 : ∀ a, a ∈ keys mv2 ↔ a ∈ keys (getD [] s.table.nodes id)) (s' : StdPass)
    (h1 : s'.table = StdTable.assign
      { buckets := s.table.buckets, nodes := put s.table.nodes id mv2 } s.groupId mv1)
    (h2 : s'.groupId = s.groupId + 1) (h3 : s'.removed = s.removed)
    (h4 : s'.calls = s.calls) (h5 : s'.cursor = s.cursor) :
    SplitSpec bs id pos size s s' (files.length * 3 ^ remaining bs pos size) := by
  have hok1 : StdOk (put s.table.nodes id mv2) s.groupId := hok.after_put m2
  obtain ⟨hok2, hp⟩ := StdOk.after_assign
    (t := { buckets := s.table.buckets, nodes := put s.table.nodes id mv2 }) hok1 m1
  rw [← h1] at hok2 hp
  have hmem2 : (id, mv2) ∈ s'.table.nodes := by
    rw [hp.mem_iff]
    exact List.mem_cons_of_mem _ (mem_put.2 (Or.inl ⟨rfl, hid⟩))
  have hget2 : getD [] s'.table.nodes id = mv2 := getD_of_mem hok2.ids hmem2
  refine
    { ok := h2 ▸ hok2, here := mem_keys_of_mem hmem2, level := ?_, paths := ?_, length := ?_,
      mono := by omega, removed := h3, calls := h4, cursor := h5, kept := ?_,
      origin := ?_, potential := ?_ }
  · rw [hget2]
    exact m2
  · intro a
    rw [hget2]
    exact m6 a
  · rw [hget2]
    exact m4
  · intro x hx hne'
    rw [hp.mem_iff]
    exact List.mem_cons_of_mem _ (mem_put.2 (Or.inr ⟨hx, hne'⟩))
  · intro x hx
    rcases List.mem_cons.1 (hp.mem_iff.1 hx) with rfl | h
    · right
      right
      exact ⟨Nat.le_refl _, m5⟩
    · rcases mem_put.1 h with ⟨rfl, _⟩ | ⟨h1, _⟩
      · exact Or.inl rfl
      · exact Or.inr (Or.inl h1)
  · rw [potential_perm hp, potential_cons]
    have h1 := potential_put bs hok.ids hid mv2
    rw [hlev.weight_of bs, m2.weight_of bs, m4] at h1
    simp only
    rw [m1.weight_of bs, m3]
    omega

/-- The body of the loop over `hashGroups` for one bucket of distinct paths
of the group. -/
theorem stdSplitOne_spec (L : Layout) (bs : Nat) {id pos size : Nat} {s : StdPass}
    (hok : StdOk s.table.nodes s.groupId) (hid : id ∈ keys s.table.nodes)
    (hlev : Level pos size (getD [] s.table.nodes id)) (c : String × List Path)
    (hn : c.2.Nodup) (hsub : ∀ a ∈ c.2, a ∈ keys (getD [] s.table.nodes id)) :
    SplitSpec bs id pos size s (stdSplitOne L id s c)
      (if c.2.length > 1 then c.2.length * 3 ^ remaining bs pos size else 0) := by
  unfold stdSplitOne
  by_cases hc : c.2.length > 1
  · rw [if_pos hc, if_pos hc]
    have hne : c.2 ≠ [] := by
      intro h0
      rw [h0] at hc
      simp at hc
    obtain ⟨m1, m2, m3, m4, m5, m6⟩ := hlev.after_move L hn hsub hne
    exact splitSpec_assign bs hok hid hlev m1 m2 m3 m4
      (fun a ha => hsub a ((m5 a).1 ha)) m6 _ rfl rfl rfl rfl rfl
  · rw [if_neg hc, if_neg hc]
    exact SplitSpec.same hok hid hlev

/-- The loop over `hashGroups` for buckets of distinct paths of the
group. -/
theorem foldl_stdSplitOne_spec (L : Layout) (bs : Nat) {id pos size : Nat}
    (hgs : List (String × List Path)) :
    ∀ s : StdPass, StdOk s.table.nodes s.groupId → id ∈ keys s.table.nodes →
      Level pos size (getD [] s.table.nodes id) →
      (∀ c ∈ hgs, c.2.Nodup ∧ ∀ a ∈ c.2, a ∈ keys (getD [] s.table.nodes id)) →
      SplitSpec bs id pos size s (hgs.foldl (stdSplitOne L id) s)
        ((hgs.map fun c => if c.2.length > 1 then c.2.length * 3 ^ remaining bs pos size
          else 0).sum) := by
  induction hgs with
  | nil =>
    intro s hok hid hlev _
    exact SplitSpec.same hok hid hlev
  | cons c hgs ih =>
    intro s hok hid hlev hall
    obtain ⟨hn, hsub⟩ := hall c (List.mem_cons_self _ _)
    have h1 := stdSplitOne_spec L bs hok hid hlev c hn hsub
    have h2 := ih (stdSplitOne L id s c) h1.ok h1.here h1.level (by
      intro c' hc'
      obtain ⟨hn', hsub'⟩ := hall c' (List.mem_cons_of_mem _ hc')
      exact ⟨hn', fun a ha => (h1.paths a).2 (hsub' a ha)⟩)
    rw [List.foldl_cons, List.map_cons, List.sum_cons]
    exact h1.chain h2

end VisitLemmas

section TurnLemmas

variable {X : Externals} {L : Layout} {fs : FileSystem} {p : Process}

theorem sum_split_le (K : Nat) (hgs : List (String × List Path)) :
    (hgs.map fun c => if c.2.length > 1 then c.2.length * K else 0).sum
      ≤ (hgs.map fun c => c.2.length).sum * K := by
  induction hgs with
  | nil => simp
  | cons c hgs ih =>
    simp only [List.map_cons, List.sum_cons, Nat.add_mul]
    have : (if c.2.length > 1 then c.2.length * K else 0) ≤ c.2.length * K := by
      split_ifs
      · exact Nat.le_refl _
      · exact Nat.zero_le _
    omega

/-- The body of the outer loop of `nextStep` for a node of the table. -/
theorem stdVisit_spec (X : Externals) (L : Layout) (fs : FileSystem) (p : Process)
    (hbs : 0 < p.blockSize) {s : StdPass} {id : Nat}
    (hok : StdOk s.table.nodes s.groupId) (hid : id ∈ keys s.table.nodes) :
    VisitSpec p.blockSize id s (stdVisit X L fs p s id) := by
  obtain ⟨hmem, pos, size, hlev⟩ := hok.level_at hid
  by_cases hfin : FilesGroup.isFinished (getD [] s.table.nodes id) = true
  · have hs : stdVisit X L fs p s id = s := by
      simp [stdVisit, hfin]
    rw [hs]
    exact
      { ok := hok, here := hid, mono := Nat.le_refl _, cursor := rfl,
        paths := fun _ => Iff.rfl, kept := fun _ hx _ => hx,
        origin := fun _ hx => Or.inr (Or.inl hx), skip := fun _ => rfl,
        hashed := fun h => absurd hfin (by rw [h]; simp) }
  · have hfin' : FilesGroup.isFinished (getD [] s.table.nodes id) = false := by
      simpa using hfin
    have hlt : pos < size := by
      have := hlev.finished_eq
      rw [hfin'] at this
      simpa using this.symm
    have hlev1 := hlev.after_hash X fs p hlt
    have hrem := remaining_step hbs hlt
    -- the state after the first inner loop
    have hok1 : StdOk (put s.table.nodes id (hashMembers X fs p (getD [] s.table.nodes id)))
        s.groupId := hok.after_put hlev1
    have hid1 : id ∈ keys (put s.table.nodes id
        (hashMembers X fs p (getD [] s.table.nodes id))) := by
      rw [keys_put]
      exact hid
    have hget1 : getD [] (put s.table.nodes id
        (hashMembers X fs p (getD [] s.table.nodes id))) id
        = hashMembers X fs p (getD [] s.table.nodes id) := by
      rw [getD_put hok.ids]
      simp [hid]
    have hpot1 := potential_put p.blockSize hok.ids hid
      (hashMembers X fs p (getD [] s.table.nodes id))
    rw [hlev.weight_of, hlev1.weight_of, hrem] at hpot1
    have hlen1 : (hashMembers X fs p (getD [] s.table.nodes id)).length
        = (getD [] s.table.nodes id).length := by
      simp [hashMembers]
    rw [hlen1] at hpot1
    have hpos : 0 < (getD [] s.table.nodes id).length :=
      List.length_pos.2 hlev.nonempty
    have hkept1 : ∀ x ∈ s.table.nodes, x.1 ≠ id →
        x ∈ put s.table.nodes id (hashMembers X fs p (getD [] s.table.nodes id)) :=
      fun x hx hne => mem_put.2 (Or.inr ⟨hx, hne⟩)
    have horigin1 : ∀ x ∈ put s.table.nodes id
        (hashMembers X fs p (getD [] s.table.nodes id)), x.1 = id ∨ x ∈ s.table.nodes := by
      intro x hx
      rcases mem_put.1 hx with ⟨rfl, _⟩ | ⟨h, _⟩
      · exact Or.inl rfl
      · exact Or.inr h
    have hpow : 3 ^ (remaining p.blockSize (pos + p.blockSize) size + 1)
        = 3 * 3 ^ remaining p.blockSize (pos + p.blockSize) size := by
      rw [pow_succ, Nat.mul_comm]
    by_cases hmany : (hashGroupsOf X L fs p (getD [] s.table.nodes id)).length > 1
    · obtain ⟨_, f2, f3⟩ := hashGroupsOf_files X L fs p hlev.2.1
      have hsp := @foldl_stdSplitOne_spec L p.blockSize id (pos + p.blockSize)
        size (hashGroupsOf X L fs p (getD [] s.table.nodes id))
        { s with
          table := { s.table with
            nodes := put s.table.nodes id (hashMembers X fs p (getD [] s.table.nodes id)) },
          calls := s.calls ++ getD [] s.table.nodes id,
          removed := id :: s.removed }
        hok1 hid1 (by rw [hget1]; exact hlev1)
        (by
          intro c hc
          obtain ⟨g1, g2⟩ := f2 c hc
          refine ⟨g1, fun a ha => ?_⟩
          show a ∈ keys (getD [] (put s.table.nodes id _) id)
          rw [hget1, keys_hashMembers]
          exact g2 a ha)
      have hs : stdVisit X L fs p s id
          = (hashGroupsOf X L fs p (getD [] s.table.nodes id)).foldl (stdSplitOne L id)
            { s with
              table := { s.table with
                nodes := put s.table.nodes id (hashMembers X fs p (getD [] s.table.nodes id)) },
              calls := s.calls ++ getD [] s.table.nodes id,
              removed := id :: s.removed } := by
        simp [stdVisit, hfin', hmany]
      rw [hs]
      have hsum := sum_split_le (3 ^ remaining p.blockSize (pos + p.blockSize) size)
        (hashGroupsOf X L fs p (getD [] s.table.nodes id))
      rw [f3] at hsum
      refine
        { ok := hsp.ok, here := hsp.here, mono := hsp.mono, cursor := hsp.cursor,
          paths := ?_, kept := ?_, origin := ?_, skip := fun h => absurd h hfin,
          hashed := fun _ => ⟨?_, ?_, hsp.calls⟩ }
      · intro a
        rw [hsp.paths a]
        show a ∈ keys (getD [] (put s.table.nodes id _) id) ↔ _
        rw [hget1, keys_hashMembers]
      · intro x hx hne
        exact hsp.kept x (hkept1 x hx hne) hne
      · intro x hx
        rcases hsp.origin x hx with h | h | ⟨h, h'⟩
        · exact Or.inl h
        · rcases horigin1 x h with h1 | h1
          · exact Or.inl h1
          · exact Or.inr (Or.inl h1)
        · refine Or.inr (Or.inr ⟨h, fun a ha => ?_⟩)
          have := h' a ha
          have h2 : a ∈ keys (getD [] (put s.table.nodes id
            (hashMembers X fs p (getD [] s.table.nodes id))) id) := this
          rw [hget1, keys_hashMembers] at h2
          exact h2
      · have := hsp.potential
        simp only at this
        rw [this]
        rw [hpow] at hpot1
        have hK : 0 < 3 ^ remaining p.blockSize (pos + p.blockSize) size :=
          Nat.pos_pow_of_pos _ (by decide)
        have hmul : 0 < (getD [] s.table.nodes id).length
            * 3 ^ remaining p.blockSize (pos + p.blockSize) size := Nat.mul_pos hpos hK
        have e3 : (getD [] s.table.nodes id).length
            * (3 * 3 ^ remaining p.blockSize (pos + p.blockSize) size)
            = 3 * ((getD [] s.table.nodes id).length
              * 3 ^ remaining p.blockSize (pos + p.blockSize) size) := by
          rw [Nat.mul_left_comm]
        rw [e3] at hpot1
        omega
      · intro i hi
        rw [hsp.removed] at hi
        rcases List.mem_cons.1 hi with h | h
        · exact Or.inr h
        · exact Or.inl h
    · have hs : stdVisit X L fs p s id
          = { s with
              table := { s.table with
                nodes := put s.table.nodes id (hashMembers X fs p (getD [] s.table.nodes id)) },
              calls := s.calls ++ getD [] s.table.nodes id } := by
        simp [stdVisit, hfin', hmany]
      rw [hs]
      refine
        { ok := hok1, here := hid1, mono := Nat.le_refl _, cursor := rfl,
          paths := ?_, kept := hkept1, origin := ?_, skip := fun h => absurd h hfin,
          hashed := fun _ => ⟨?_, fun i hi => Or.inl hi, rfl⟩ }
      · intro a
        show a ∈ keys (getD [] (put s.table.nodes id _) id) ↔ _
        rw [hget1, keys_hashMembers]
      · intro x hx
        rcases horigin1 x hx with h1 | h1
        · exact Or.inl h1
        · exact Or.inr (Or.inl h1)
      · show potential p.blockSize (put s.table.nodes id _) < _
        rw [hpow] at hpot1
        have hK : 0 < 3 ^ remaining p.blockSize (pos + p.blockSize) size :=
          Nat.pos_pow_of_pos _ (by decide)
        have hmul : 0 < (getD [] s.table.nodes id).length
            * 3 ^ remaining p.blockSize (pos + p.blockSize) size := Nat.mul_pos hpos hK
        have e3 : (getD [] s.table.nodes id).length
            * (3 * 3 ^ remaining p.blockSize (pos + p.blockSize) size)
            = 3 * ((getD [] s.table.nodes id).length
              * 3 ^ remaining p.blockSize (pos + p.blockSize) size) := by
          rw [Nat.mul_left_comm]
        rw [e3] at hpot1
        omega

end TurnLemmas

section LoopLemmas

variable {X : Externals} {L : Layout} {fs : FileSystem} {p : Process}

theorem nodeAfter_mem {nodes : List (Nat × FilesGroup)} {id y : Nat}
    (h : nodeAfter nodes id = some y) : y ∈ keys nodes := by
  unfold nodeAfter at h
  split at h
  · next a b rest heq =>
    have hy : y = b.1 := by
      simpa using h.symm
    have hb : b ∈ nodes.dropWhile fun x => !decide (x.1 = id) := by
      rw [heq]
      simp
    have hb' : b ∈ nodes := (List.dropWhile_sublist _).subset hb
    rw [hy]
    exact mem_keys_of_mem hb'
  · cases h

theorem dropWhile_cons_of_ne {a : Nat × FilesGroup} {nodes : List (Nat × FilesGroup)} {id : Nat}
    (h : a.1 ≠ id) :
    (a :: nodes).dropWhile (fun x => !decide (x.1 = id))
      = nodes.dropWhile fun x => !decide (x.1 = id) := by
  simp [List.dropWhile_cons, h]

theorem dropWhile_cons_of_eq {a : Nat × FilesGroup} {nodes : List (Nat × FilesGroup)} {id : Nat}
    (h : a.1 = id) :
    (a :: nodes).dropWhile (fun x => !decide (x.1 = id)) = a :: nodes := by
  simp [List.dropWhile_cons, h]

/-- Without an insertion `++it` brings the iterator nearer to the end. -/
theorem ahead_nodeAfter {nodes : List (Nat × FilesGroup)} (hn : (keys nodes).Nodup) {id : Nat}
    (hid : id ∈ keys nodes) : ahead nodes (nodeAfter nodes id) < ahead nodes (some id) := by
  induction nodes with
  | nil => cases hid
  | cons a nodes ih =>
    have hn2 : (a.1 :: keys nodes).Nodup := hn
    obtain ⟨ha, hn'⟩ := List.nodup_cons.1 hn2
    by_cases hae : a.1 = id
    · have h1 : ahead (a :: nodes) (some id) = nodes.length + 1 := by
        simp [ahead, dropWhile_cons_of_eq hae]
      rw [h1]
      cases nodes with
      | nil =>
        have : nodeAfter [a] id = none := by
          simp [nodeAfter, dropWhile_cons_of_eq hae]
        rw [this]
        simp [ahead]
      | cons b rest =>
        have : nodeAfter (a :: b :: rest) id = some b.1 := by
          simp [nodeAfter, dropWhile_cons_of_eq hae]
        rw [this]
        have hab : a.1 ≠ b.1 := by
          intro hc
          apply ha
          rw [hc]
          exact List.mem_cons_self _ _
        have h2 : ahead (a :: b :: rest) (some b.1) = rest.length + 1 := by
          simp [ahead, dropWhile_cons_of_ne hab, dropWhile_cons_of_eq (rfl : b.1 = b.1)]
        rw [h2]
        simp
    · have hid2 : id ∈ a.1 :: keys nodes := hid
      have hid' : id ∈ keys nodes := by
        rcases List.mem_cons.1 hid2 with h | h
        · exact absurd h.symm hae
        · exact h
      have h1 : ahead (a :: nodes) (some id) = ahead nodes (some id) := by
        simp [ahead, dropWhile_cons_of_ne hae]
      have h2 : nodeAfter (a :: nodes) id = nodeAfter nodes id := by
        simp [nodeAfter, dropWhile_cons_of_ne hae]
      rw [h1, h2]
      have := ih hn' hid'
      cases hcur : nodeAfter nodes id with
      | none =>
        rw [hcur] at this
        simpa [ahead] using this
      | some y =>
        rw [hcur] at this
        have hy : y ∈ keys nodes := nodeAfter_mem hcur
        have hay : a.1 ≠ y := fun hc => ha (hc ▸ hy)
        have h3 : ahead (a :: nodes) (some y) = ahead nodes (some y) := by
          simp [ahead, dropWhile_cons_of_ne hay]
        rw [h3]
        exact this

theorem stdTurn_none {s : StdPass} (h : s.cursor = none) : stdTurn X L fs p s = s := by
  simp [stdTurn, h]

theorem stdTurn_some {s : StdPass} {id : Nat} (h : s.cursor = some id) :
    stdTurn X L fs p s
      = { stdVisit X L fs p s id with
          cursor := nodeAfter (stdVisit X L fs p s id).table.nodes id } := by
  simp [stdTurn, h]

/-- One turn of the outer loop of `nextStep` keeps the table well formed
and the iterator in it. -/
theorem PassOk.after_turn (hbs : 0 < p.blockSize) {s : StdPass} (h : PassOk s) :
    PassOk (stdTurn X L fs p s) := by
  cases hc : s.cursor with
  | none =>
    rw [stdTurn_none hc]
    exact h
  | some id =>
    rw [stdTurn_some hc]
    have hv := stdVisit_spec X L fs p hbs h.ok (h.cursor id hc)
    exact ⟨hv.ok, fun y hy => nodeAfter_mem hy⟩

theorem PassOk.after_turns (hbs : 0 < p.blockSize) {s : StdPass} (h : PassOk s) (i : Nat) :
    PassOk ((stdTurn X L fs p)^[i] s) := by
  induction i with
  | zero => exact h
  | succ i ih =>
    rw [Function.iterate_succ_apply']
    exact ih.after_turn hbs

/-- The outer loop of `nextStep`, when it ends, has made some number of
turns and left the iterator past the end. -/
theorem stdPassLoop_some :
    ∀ (fuel : Nat) (s s' : StdPass), stdPassLoop X L fs p fuel s = some s' →
      s'.cursor = none ∧ ∃ i, s' = (stdTurn X L fs p)^[i] s := by
  intro fuel
  induction fuel with
  | zero =>
    intro s s' h
    simp [stdPassLoop] at h
  | succ fuel ih =>
    intro s s' h
    cases hc : s.cursor with
    | none =>
      have : stdPassLoop X L fs p (fuel + 1) s = some s := by
        simp [stdPassLoop, hc]
      rw [this] at h
      cases h
      exact ⟨hc, 0, rfl⟩
    | some id =>
      have : stdPassLoop X L fs p (fuel + 1) s
          = stdPassLoop X L fs p fuel (stdTurn X L fs p s) := by
        simp [stdPassLoop, hc]
      rw [this] at h
      obtain ⟨h1, i, h2⟩ := ih _ _ h
      exact ⟨h1, i + 1, by rw [h2, Function.iterate_succ_apply]⟩

/-- More turns than the outer loop of `nextStep` needs change nothing. -/
theorem stdPassLoop_mono :
    ∀ (fuel : Nat) (s s' : StdPass), stdPassLoop X L fs p fuel s = some s' →
      ∀ fuel', fuel ≤ fuel' → stdPassLoop X L fs p fuel' s = some s' := by
  intro fuel
  induction fuel with
  | zero =>
    intro s s' h
    simp [stdPassLoop] at h
  | succ fuel ih =>
    intro s s' h fuel' hle
    obtain ⟨k, rfl⟩ : ∃ k, fuel' = k + 1 := ⟨fuel' - 1, by omega⟩
    cases hc : s.cursor with
    | none =>
      have e1 : stdPassLoop X L fs p (fuel + 1) s = some s := by
        simp [stdPassLoop, hc]
      have e2 : stdPassLoop X L fs p (k + 1) s = some s := by
        simp [stdPassLoop, hc]
      rw [e1] at h
      rw [e2]
      exact h
    | some id =>
      have e1 : stdPassLoop X L fs p (fuel + 1) s
          = stdPassLoop X L fs p fuel (stdTurn X L fs p s) := by
        simp [stdPassLoop, hc]
      have e2 : stdPassLoop X L fs p (k + 1) s
          = stdPassLoop X L fs p k (stdTurn X L fs p s) := by
        simp [stdPassLoop, hc]
      rw [e1] at h
      rw [e2]
      exact ih _ _ h k (by omega)

/-- The outer loop of `nextStep` ends: every turn hashes a group that is
not finished, which lowers the weight of the table, or passes over a
finished group, which brings the iterator nearer to the end of a list that
stays as it is. -/
theorem stdPassLoop_terminates (hbs : 0 < p.blockSize) :
    ∀ (N d : Nat) (s : StdPass), PassOk s → potential p.blockSize s.table.nodes ≤ N →
      ahead s.table.nodes s.cursor ≤ d →
      ∃ fuel s', stdPassLoop X L fs p fuel s = some s' := by
  intro N
  induction N using Nat.strong_induction_on with
  | _ N ihN =>
    intro d
    induction d with
    | zero =>
      intro s hs _ hd
      cases hc : s.cursor with
      | none => exact ⟨1, s, by simp [stdPassLoop, hc]⟩
      | some id =>
        exfalso
        have hid := hs.cursor id hc
        have := ahead_nodeAfter hs.ok.ids hid
        rw [hc] at hd
        omega
    | succ d ihd =>
      intro s hs hN hd
      cases hc : s.cursor with
      | none => exact ⟨1, s, by simp [stdPassLoop, hc]⟩
      | some id =>
        have hid := hs.cursor id hc
        have hv := stdVisit_spec X L fs p hbs hs.ok hid
        have hs' : PassOk (stdTurn X L fs p s) := hs.after_turn hbs
        have hnext : ∃ fuel s', stdPassLoop X L fs p fuel (stdTurn X L fs p s) = some s' := by
          by_cases hfin : FilesGroup.isFinished (getD [] s.table.nodes id) = true
          · have hsame := hv.skip hfin
            have ht : stdTurn X L fs p s = { s with cursor := nodeAfter s.table.nodes id } := by
              rw [stdTurn_some hc, hsame]
            have ha := ahead_nodeAfter hs.ok.ids hid
            rw [hc] at hd
            apply ihd _ hs'
            · rw [ht]
              exact hN
            · rw [ht]
              show ahead s.table.nodes (nodeAfter s.table.nodes id) ≤ d
              omega
          · have hfin' : FilesGroup.isFinished (getD [] s.table.nodes id) = false := by
              simpa using hfin
            obtain ⟨hlt, _, _⟩ := hv.hashed hfin'
            have hpot : potential p.blockSize (stdTurn X L fs p s).table.nodes
                < potential p.blockSize s.table.nodes := by
              rw [stdTurn_some hc]
              exact hlt
            exact ihN (potential p.blockSize (stdTurn X L fs p s).table.nodes)
              (by omega) _ _ hs' (Nat.le_refl _) (Nat.le_refl _)
        obtain ⟨fuel, s', h⟩ := hnext
        exact ⟨fuel + 1, s', by simp [stdPassLoop, hc, h]⟩

end LoopLemmas

section RunLemmas

variable {X : Externals} {L : Layout} {fs : FileSystem}

theorem StdOk.after_erase {nodes : List (Nat × FilesGroup)} {gid : Nat} (h : StdOk nodes gid)
    (func : Nat × FilesGroup → Bool) : StdOk (erase nodes func) gid := by
  have hsub : (Bayan.erase nodes func).Sublist nodes := List.filter_sublist _
  refine ⟨h.ids.sublist (hsub.map Prod.fst), ?_, ?_⟩
  · intro x hx
    exact h.below x (hsub.subset hx)
  · intro x hx
    exact h.level x (hsub.subset hx)

theorem PassOk.at_start {bs : Nat} {r : StdRun} (h : RunOk bs r) : PassOk (StdPass.start r) := by
  refine ⟨h.ok, ?_⟩
  intro id hid
  unfold StdPass.start at hid
  simp only at hid
  cases hT : r.searcher.m_filesGroups with
  | nil =>
    rw [hT] at hid
    simp at hid
  | cons a T =>
    rw [hT] at hid
    simp only [List.head?_cons, Option.map_some', Option.some.injEq] at hid
    show id ∈ keys r.searcher.m_filesGroups
    rw [hT, ← hid]
    exact List.mem_cons_self _ _

/-- What a call of `nextStep` that ends returns: the state the outer loop
reaches in some number of turns, with the ids marked for removal erased. -/
theorem stdNextStep_some {fuel : Nat} {r r' : StdRun}
    (h : stdNextStep X L fs fuel r = some r') :
    ∃ i, ((stdTurn X L fs r.process)^[i] (StdPass.start r)).cursor = none ∧
      stdPassLoop X L fs r.process fuel (StdPass.start r)
        = some ((stdTurn X L fs r.process)^[i] (StdPass.start r)) ∧
      r'.process = { r.process with
        groupId := ((stdTurn X L fs r.process)^[i] (StdPass.start r)).groupId } ∧
      r'.searcher = { r.searcher with
        m_filesGroups := erase ((stdTurn X L fs r.process)^[i] (StdPass.start r)).table.nodes
          (fun item => decide (item.1
            ∈ ((stdTurn X L fs r.process)^[i] (StdPass.start r)).removed)) } ∧
      r'.buckets = ((stdTurn X L fs r.process)^[i] (StdPass.start r)).table.buckets ∧
      r'.calls = ((stdTurn X L fs r.process)^[i] (StdPass.start r)).calls := by
  unfold stdNextStep at h
  cases hl : stdPassLoop X L fs r.process fuel (StdPass.start r) with
  | none =>
    rw [hl] at h
    cases h
  | some s' =>
    rw [hl] at h
    simp only [Option.some.injEq] at h
    obtain ⟨h1, i, h2⟩ := stdPassLoop_some fuel _ _ hl
    refine ⟨i, ?_, ?_, ?_, ?_, ?_, ?_⟩
    · rw [← h2]
      exact h1
    · rw [← h2]
    · rw [← h2, ← h]
    · rw [← h2, ← h]
    · rw [← h2, ← h]
    · rw [← h2, ← h]

/-- A call of `nextStep` keeps the table well formed. -/
theorem RunOk.after_step {bs : Nat} (hbs : 0 < bs) {fuel : Nat} {r r' : StdRun} (h : RunOk bs r)
    (hr : stdNextStep X L fs fuel r = some r') : RunOk bs r' := by
  obtain ⟨i, _, _, h3, h4, _, _⟩ := stdNextStep_some hr
  have hbs' : 0 < r.process.blockSize := by
    rw [h.blockSize]
    exact hbs
  have hp := @PassOk.after_turns X L fs _ hbs' _ (PassOk.at_start h) i
  refine ⟨?_, ?_⟩
  · rw [h3, h4]
    exact hp.ok.after_erase _
  · rw [h3]
    exact h.blockSize

theorem stdPasses_succ (fuel n : Nat) (r : StdRun) :
    stdPasses X L fs fuel (n + 1) r
      = (stdPasses X L fs fuel n r).bind (stdNextStep X L fs fuel) := rfl

/-- Every state of a run is well formed. -/
theorem RunOk.after_passes {bs : Nat} (hbs : 0 < bs) {fuel : Nat} {r0 : StdRun} (h : RunOk bs r0) :
    ∀ (n : Nat) (r : StdRun), stdPasses X L fs fuel n r0 = some r → RunOk bs r := by
  intro n
  induction n with
  | zero =>
    intro r hr
    simp only [stdPasses, Option.some.injEq] at hr
    rw [← hr]
    exact h
  | succ n ih =>
    intro r hr
    rw [stdPasses_succ] at hr
    cases h1 : stdPasses X L fs fuel n r0 with
    | none =>
      rw [h1] at hr
      cases hr
    | some r1 =>
      rw [h1] at hr
      exact (ih r1 h1).after_step hbs hr

theorem stdPasses_shift (fuel : Nat) (r : StdRun) :
    ∀ k, stdPasses X L fs fuel (k + 1) r
      = (stdNextStep X L fs fuel r).bind (stdPasses X L fs fuel k) := by
  intro k
  induction k with
  | zero =>
    cases h : stdNextStep X L fs fuel r <;> simp [stdPasses, h]
  | succ k ih =>
    rw [stdPasses_succ, ih]
    cases h : stdNextStep X L fs fuel r with
    | none => rfl
    | some r1 => simp [stdPasses]

/-- What `find` returns is a state the calls of `nextStep` reach, and all
its groups are finished. -/
theorem stdFindLoop_some (fuel : Nat) :
    ∀ (n : Nat) (r r' : StdRun), stdFindLoop X L fs fuel n r = some r' →
      allFinished r'.searcher.m_filesGroups = true ∧
      ∃ k, stdPasses X L fs fuel k r = some r' := by
  intro n
  induction n with
  | zero =>
    intro r r' h
    unfold stdFindLoop at h
    split_ifs at h with hf
    cases h
    exact ⟨hf, 0, rfl⟩
  | succ n ih =>
    intro r r' h
    unfold stdFindLoop at h
    split_ifs at h with hf
    · cases h
      exact ⟨hf, 0, rfl⟩
    · cases h1 : stdNextStep X L fs fuel r with
      | none =>
        rw [h1] at h
        cases h
      | some r1 =>
        rw [h1] at h
        obtain ⟨h2, k, h3⟩ := ih r1 r' h
        refine ⟨h2, k + 1, ?_⟩
        rw [stdPasses_shift, h1]
        exact h3

end RunLemmas

section Progress

variable {X : Externals} {L : Layout} {fs : FileSystem}

/-- The list from the node with key `id` on: that node, and then the list
from the node `++it` goes to. -/
theorem dropWhile_at {nodes : List (Nat × FilesGroup)} (hn : (keys nodes).Nodup) {id : Nat}
    (hid : id ∈ keys nodes) :
    ∃ tail, nodes.dropWhile (fun x => !decide (x.1 = id)) = (id, getD [] nodes id) :: tail ∧
      (nodeAfter nodes id = none → tail = []) ∧
      ∀ y, nodeAfter nodes id = some y →
        nodes.dropWhile (fun x => !decide (x.1 = y)) = tail := by
  induction nodes with
  | nil => cases hid
  | cons a nodes ih =>
    have hn2 : (a.1 :: keys nodes).Nodup := hn
    obtain ⟨ha, hn'⟩ := List.nodup_cons.1 hn2
    by_cases hae : a.1 = id
    · have hget : getD [] (a :: nodes) id = a.2 := by
        simp [getD, List.find?_cons, hae]
      refine ⟨nodes, ?_, ?_, ?_⟩
      · rw [dropWhile_cons_of_eq hae, hget, ← hae]
      · intro h
        cases nodes with
        | nil => rfl
        | cons b rest =>
          simp [nodeAfter, dropWhile_cons_of_eq hae] at h
      · intro y hy
        cases nodes with
        | nil =>
          simp [nodeAfter, dropWhile_cons_of_eq hae] at hy
        | cons b rest =>
          have hyb : y = b.1 := by
            simpa [nodeAfter, dropWhile_cons_of_eq hae] using hy.symm
          have hab : a.1 ≠ y := by
            intro hc
            apply ha
            rw [hc, hyb]
            exact List.mem_cons_self _ _
          rw [dropWhile_cons_of_ne hab, dropWhile_cons_of_eq hyb.symm]
    · have hid2 : id ∈ a.1 :: keys nodes := hid
      have hid' : id ∈ keys nodes := by
        rcases List.mem_cons.1 hid2 with h | h
        · exact absurd h.symm hae
        · exact h
      obtain ⟨tail, t1, t2, t3⟩ := ih hn' hid'
      have hget : getD [] (a :: nodes) id = getD [] nodes id := by
        simp [getD, List.find?_cons, hae]
      have hna : nodeAfter (a :: nodes) id = nodeAfter nodes id := by
        simp [nodeAfter, dropWhile_cons_of_ne hae]
      refine ⟨tail, ?_, ?_, ?_⟩
      · rw [dropWhile_cons_of_ne hae, hget]
        exact t1
      · rw [hna]
        exact t2
      · intro y hy
        rw [hna] at hy
        have hyk : y ∈ keys nodes := nodeAfter_mem hy
        have hay : a.1 ≠ y := fun hc => ha (hc ▸ hyk)
        rw [dropWhile_cons_of_ne hay]
        exact t3 y hy

/-- A turn of the outer loop of `nextStep` does not raise the weight of the
table. -/
theorem potential_turn {p : Process} (hbs : 0 < p.blockSize) {s : StdPass} (h : PassOk s) :
    potential p.blockSize (stdTurn X L fs p s).table.nodes
      ≤ potential p.blockSize s.table.nodes := by
  cases hc : s.cursor with
  | none => rw [stdTurn_none hc]
  | some id =>
    rw [stdTurn_some hc]
    have hv := stdVisit_spec X L fs p hbs h.ok (h.cursor id hc)
    by_cases hfin : FilesGroup.isFinished (getD [] s.table.nodes id) = true
    · show potential p.blockSize (stdVisit X L fs p s id).table.nodes ≤ _
      rw [hv.skip hfin]
    · have hfin' : FilesGroup.isFinished (getD [] s.table.nodes id) = false := by
        simpa using hfin
      exact Nat.le_of_lt (hv.hashed hfin').1

/-- As long as the outer loop of `nextStep` has not hashed a group, the
table is as it was and the first group that is not finished is still on
the way of the iterator. -/
theorem pass_lowers {p : Process} (hbs : 0 < p.blockSize) {s0 : StdPass} (h0 : PassOk s0)
    (hu : Unmet s0.table.nodes s0.cursor) :
    ∀ i, potential p.blockSize ((stdTurn X L fs p)^[i] s0).table.nodes
          < potential p.blockSize s0.table.nodes ∨
        (((stdTurn X L fs p)^[i] s0).table = s0.table ∧
          Unmet s0.table.nodes ((stdTurn X L fs p)^[i] s0).cursor) := by
  intro i
  induction i with
  | zero => exact Or.inr ⟨rfl, hu⟩
  | succ i ih =>
    rw [Function.iterate_succ_apply']
    have hi : PassOk ((stdTurn X L fs p)^[i] s0) := h0.after_turns hbs i
    rcases ih with h | ⟨ht, id, hc, x, hx, hxf⟩
    · exact Or.inl (Nat.lt_of_le_of_lt (potential_turn hbs hi) h)
    · have hid := hi.cursor id hc
      have hv := stdVisit_spec X L fs p hbs hi.ok hid
      rw [stdTurn_some hc]
      by_cases hfin : FilesGroup.isFinished
          (getD [] ((stdTurn X L fs p)^[i] s0).table.nodes id) = true
      · right
        have hsame := hv.skip hfin
        obtain ⟨tail, t1, t2, t3⟩ := dropWhile_at hi.ok.ids hid
        rw [ht] at t1 t2 t3 hfin
        rw [t1] at hx
        have hxt : x ∈ tail := by
          rcases List.mem_cons.1 hx with h | h
          · rw [h] at hxf
            rw [hfin] at hxf
            cases hxf
          · exact h
        refine ⟨?_, ?_⟩
        · show (stdVisit X L fs p _ id).table = _
          rw [hsame, ht]
        · show Unmet s0.table.nodes (nodeAfter (stdVisit X L fs p _ id).table.nodes id)
          rw [hsame, ht]
          cases hna : nodeAfter s0.table.nodes id with
          | none =>
            rw [t2 hna] at hxt
            cases hxt
          | some y =>
            refine ⟨y, rfl, x, ?_, hxf⟩
            rw [t3 y hna]
            exact hxt
      · left
        have hfin' : FilesGroup.isFinished
            (getD [] ((stdTurn X L fs p)^[i] s0).table.nodes id) = false := by
          simpa using hfin
        have := (hv.hashed hfin').1
        rw [ht] at this
        exact this

/-- A call of `nextStep` on a table with a group that is not finished
lowers the weight of the table. -/
theorem stdNextStep_lowers {bs : Nat} (hbs : 0 < bs) {fuel : Nat} {r r' : StdRun}
    (h : RunOk bs r) (hf : allFinished r.searcher.m_filesGroups = false)
    (hr : stdNextStep X L fs fuel r = some r') :
    potential bs r'.searcher.m_filesGroups < potential bs r.searcher.m_filesGroups := by
  obtain ⟨i, h1, _, _, h4, _, _⟩ := stdNextStep_some hr
  have hbs' : 0 < r.process.blockSize := by
    rw [h.blockSize]
    exact hbs
  have hu : Unmet (StdPass.start r).table.nodes (StdPass.start r).cursor := by
    have hex : ∃ x ∈ r.searcher.m_filesGroups, FilesGroup.isFinished x.2 = false := by
      unfold allFinished at hf
      rw [List.all_eq_false] at hf
      obtain ⟨x, hx, hxf⟩ := hf
      exact ⟨x, hx, by simpa using hxf⟩
    obtain ⟨x, hx, hxf⟩ := hex
    cases hT : r.searcher.m_filesGroups with
    | nil =>
      rw [hT] at hx
      cases hx
    | cons a T =>
      refine ⟨a.1, ?_, x, ?_, hxf⟩
      · simp [StdPass.start, hT]
      · show x ∈ List.dropWhile _ r.searcher.m_filesGroups
        rw [hT, dropWhile_cons_of_eq rfl, ← hT]
        exact hx
  have hl := @pass_lowers X L fs _ hbs' _ (PassOk.at_start h) hu i
  rcases hl with hlt | ⟨_, id, hc, _⟩
  · rw [h4]
    have hle := potential_erase_le r.process.blockSize
      ((stdTurn X L fs r.process)^[i] (StdPass.start r)).table.nodes
      (fun item => decide (item.1
        ∈ ((stdTurn X L fs r.process)^[i] (StdPass.start r)).removed))
    rw [h.blockSize] at hle hlt
    exact Nat.lt_of_le_of_lt hle hlt
  · rw [h1] at hc
    cases hc

theorem stdNextStep_mono {fuel fuel' : Nat} {r r' : StdRun}
    (h : stdNextStep X L fs fuel r = some r') (hle : fuel ≤ fuel') :
    stdNextStep X L fs fuel' r = some r' := by
  unfold stdNextStep at h ⊢
  cases hl : stdPassLoop X L fs r.process fuel (StdPass.start r) with
  | none =>
    rw [hl] at h
    cases h
  | some s' =>
    rw [hl] at h
    rw [stdPassLoop_mono fuel _ _ hl fuel' hle]
    exact h

theorem stdFindLoop_mono {fuel fuel' : Nat} (hle : fuel ≤ fuel') :
    ∀ (n : Nat) (r r' : StdRun), stdFindLoop X L fs fuel n r = some r' →
      stdFindLoop X L fs fuel' n r = some r' := by
  intro n
  induction n with
  | zero =>
    intro r r' h
    exact h
  | succ n ih =>
    intro r r' h
    unfold stdFindLoop at h ⊢
    split_ifs at h ⊢ with hf
    · exact h
    · cases h1 : stdNextStep X L fs fuel r with
      | none =>
        rw [h1] at h
        cases h
      | some r1 =>
        rw [h1] at h
        rw [stdNextStep_mono h1 hle]
        exact ih r1 r' h

/-- A call of `nextStep` on a well-formed table ends. -/
theorem stdNextStep_terminates {bs : Nat} (hbs : 0 < bs) {r : StdRun} (h : RunOk bs r) :
    ∃ fuel r', stdNextStep X L fs fuel r = some r' := by
  have hbs' : 0 < r.process.blockSize := by
    rw [h.blockSize]
    exact hbs
  obtain ⟨fuel, s', hs⟩ := @stdPassLoop_terminates X L fs _ hbs' _ _
    (StdPass.start r) (PassOk.at_start h) (Nat.le_refl _) (Nat.le_refl _)
  have hn : stdNextStep X L fs fuel r
      = some { process := { r.process with groupId := s'.groupId },
               searcher := { r.searcher with
                 m_filesGroups := erase s'.table.nodes
                   (fun item => decide (item.1 ∈ s'.removed)) },
               buckets := s'.table.buckets,
               calls := s'.calls } := by
    unfold stdNextStep
    rw [hs]
  exact ⟨fuel, _, hn⟩

/-- The loop of `find` on a well-formed table ends: every call of
`nextStep` ends and lowers the weight of the table. -/
theorem stdFindLoop_terminates {bs : Nat} (hbs : 0 < bs) :
    ∀ (N : Nat) (r : StdRun), RunOk bs r → potential bs r.searcher.m_filesGroups ≤ N →
      ∃ fuel passes r', stdFindLoop X L fs fuel passes r = some r' := by
  intro N
  induction N using Nat.strong_induction_on with
  | _ N ih =>
    intro r h hN
    by_cases hf : allFinished r.searcher.m_filesGroups = true
    · exact ⟨0, 0, r, by simp [stdFindLoop, hf]⟩
    · have hf' : allFinished r.searcher.m_filesGroups = false := by
        simpa using hf
      obtain ⟨f1, r1, h1⟩ := @stdNextStep_terminates X L fs _ hbs _ h
      have hlow := stdNextStep_lowers hbs h hf' h1
      obtain ⟨f2, n2, r', h2⟩ := ih (potential bs r1.searcher.m_filesGroups) (by omega) r1
        (h.after_step hbs h1) (Nat.le_refl _)
      refine ⟨max f1 f2, n2 + 1, r', ?_⟩
      unfold stdFindLoop
      rw [if_neg hf, stdNextStep_mono h1 (Nat.le_max_left _ _)]
      exact stdFindLoop_mono (Nat.le_max_right _ _) n2 r1 r' h2

end Progress

section Initial

variable {X : Externals} {L : Layout} {fs : FileSystem}

theorem GroupAt.to_level {p : Process} {k S : Nat} {g : FilesGroup} (h : GroupAt X fs p k S g) :
    Level (k * p.blockSize) S g := by
  refine ⟨h.ne_nil, h.nodup, ?_⟩
  intro e he
  refine ⟨(h.file e he).pos, ?_⟩
  rw [(h.file e he).size]
  exact h.size e.1 (mem_keys_of_mem he)

theorem mem_stdAssign {t : StdTable} {id : Nat} {g : FilesGroup} (h : id ∉ keys t.nodes)
    {x : Nat × FilesGroup} : x ∈ (t.assign id g).nodes ↔ x = (id, g) ∨ x ∈ t.nodes := by
  rw [(StdTable.assign_perm g h).mem_iff, List.mem_cons]

theorem stdFillGroups_spec (L : Layout) (fs : FileSystem) (sg : List (Nat × List Path)) :
    ∀ (t : StdTable) (gid : Nat), (keys t.nodes).Nodup →
      (∀ x ∈ t.nodes, x.1 < gid) →
      (stdFillGroups L fs sg t gid).2 = gid + sg.length ∧
      (keys (stdFillGroups L fs sg t gid).1.nodes).Nodup ∧
      (∀ x ∈ (stdFillGroups L fs sg t gid).1.nodes, x.1 < gid + sg.length) ∧
      ∀ x, x ∈ (stdFillGroups L fs sg t gid).1.nodes ↔
        x ∈ t.nodes ∨ ∃ i b, sg[i]? = some b ∧ x = (gid + i, makeGroup L fs b.2) := by
  induction sg with
  | nil =>
    intro t gid h1 h2
    exact ⟨rfl, h1, h2, fun x => by simp [stdFillGroups]⟩
  | cons b sg ih =>
    intro t gid h1 h2
    have hstep : stdFillGroups L fs (b :: sg) t gid
        = stdFillGroups L fs sg (t.assign gid (makeGroup L fs b.2)) (gid + 1) := by
      simp [stdFillGroups]
    have hfresh : gid ∉ keys t.nodes := by
      intro hc
      obtain ⟨v, hv⟩ := mem_keys_iff.1 hc
      exact Nat.lt_irrefl _ (h2 _ hv)
    have hp := StdTable.assign_perm (makeGroup L fs b.2) hfresh
    have h3 : ∀ x ∈ (t.assign gid (makeGroup L fs b.2)).nodes, x.1 < gid + 1 := by
      intro x hx
      rcases (mem_stdAssign hfresh).1 hx with h | h
      · rw [h]
        exact Nat.lt_succ_self _
      · exact Nat.lt_succ_of_lt (h2 x h)
    have h4 : (keys (t.assign gid (makeGroup L fs b.2)).nodes).Nodup := by
      rw [(keys_perm hp).nodup_iff]
      exact List.nodup_cons.2 ⟨hfresh, h1⟩
    obtain ⟨r1, r2, r3, r4⟩ := ih _ (gid + 1) h4 h3
    rw [hstep]
    refine ⟨?_, r2, ?_, ?_⟩
    · rw [r1, List.length_cons]
      omega
    · intro x hx
      have := r3 x hx
      rw [List.length_cons]
      omega
    · intro x
      rw [r4, mem_stdAssign hfresh]
      constructor
      · rintro ((h | h) | ⟨i, b', h, rfl⟩)
        · exact Or.inr ⟨0, b, by simp, h⟩
        · exact Or.inl h
        · exact Or.inr ⟨i + 1, b', by simpa using h, by rw [Nat.add_assoc, Nat.add_comm 1 i]⟩
      · rintro (h | ⟨i, b', h, rfl⟩)
        · exact Or.inl (Or.inr h)
        · cases i with
          | zero =>
            simp only [List.getElem?_cons_zero, Option.some.injEq] at h
            subst h
            exact Or.inl (Or.inl rfl)
          | succ i =>
            refine Or.inr ⟨i, b', by simpa using h, ?_⟩
            rw [Nat.add_assoc, Nat.add_comm 1 i]

/-- The table `findGroups` builds in a newly constructed object holds the
same groups under the same ids, whether the table is kept as the GNU C++
library keeps it or as a layout has it. -/
theorem stdFindGroups_mem (X : Externals) (L : Layout) (fs : FileSystem) (p : Process)
    (s : Searcher) (hempty : s.m_filesGroups = []) (x : Nat × FilesGroup) :
    (x ∈ (stdFindGroups X L fs p s).searcher.m_filesGroups ↔
      ∃ i b, (s.groupBySize X L fs s.m_recursiveLevel)[i]? = some b ∧
        x = (p.groupId + i, makeGroup L fs b.2)) ∧
    (x ∈ (stdFindGroups X L fs p s).searcher.m_filesGroups ↔
      x ∈ (s.findGroups X L fs p).2.m_filesGroups) := by
  obtain ⟨_, _, _, r4⟩ := stdFillGroups_spec L fs (s.groupBySize X L fs s.m_recursiveLevel)
    { buckets := 0, nodes := s.m_filesGroups } p.groupId (by rw [hempty]; simp [keys])
    (by rw [hempty]; simp)
  obtain ⟨_, _, _, q4⟩ := fillGroups_spec L fs (s.groupBySize X L fs s.m_recursiveLevel)
    s.m_filesGroups p.groupId (by rw [hempty]; simp [keys]) (by rw [hempty]; simp)
  have e1 : (stdFindGroups X L fs p s).searcher.m_filesGroups
      = (stdFillGroups L fs (s.groupBySize X L fs s.m_recursiveLevel)
          { buckets := 0, nodes := s.m_filesGroups } p.groupId).1.nodes := rfl
  have e2 : (s.findGroups X L fs p).2.m_filesGroups
      = (fillGroups L fs (s.groupBySize X L fs s.m_recursiveLevel) s.m_filesGroups
          p.groupId).1 := rfl
  rw [e1, e2, r4 x, q4 x, hempty]
  simp

/-- The state after `findGroups` on a newly constructed object is well
formed. -/
theorem stdFindGroups_runOk (X : Externals) (L : Layout) (fs : FileSystem) (p : Process)
    (s : Searcher) (hbs : 0 < p.blockSize) (hempty : s.m_filesGroups = [])
    (hw : ∀ d ∈ s.m_includeDirs,
      (walk fs s.m_excludeDirs (s.m_recursiveLevel + 1).toNat d).Nodup) :
    RunOk p.blockSize (stdFindGroups X L fs p s) := by
  obtain ⟨r1, r2, r3, _⟩ := stdFillGroups_spec L fs (s.groupBySize X L fs s.m_recursiveLevel)
    { buckets := 0, nodes := s.m_filesGroups } p.groupId (by rw [hempty]; simp [keys])
    (by rw [hempty]; simp)
  have hT := findGroups_tableOk X L fs p s hbs hempty hw
  refine ⟨⟨r2, ?_, ?_⟩, rfl⟩
  · intro x hx
    show x.1 < (stdFillGroups L fs (s.groupBySize X L fs s.m_recursiveLevel)
      { buckets := 0, nodes := s.m_filesGroups } p.groupId).2
    rw [r1]
    exact r3 x hx
  · intro x hx
    have hx' := ((stdFindGroups_mem X L fs p s hempty x).2).1 hx
    obtain ⟨k, S, hg⟩ := hT.group x hx'
    exact ⟨_, _, hg.to_level⟩

end Initial

section ZeroGroup

variable {X : Externals} {L : Layout} {fs : FileSystem}

theorem Aside.over_turn {p : Process} (hbs : 0 < p.blockSize) {x0 : Nat × FilesGroup}
    (hfin : FilesGroup.isFinished x0.2 = true) {s : StdPass} (hs : PassOk s)
    (h : Aside fs x0 s.table.nodes s.removed) :
    Aside fs x0 (stdTurn X L fs p s).table.nodes (stdTurn X L fs p s).removed := by
  cases hc : s.cursor with
  | none =>
    rw [stdTurn_none hc]
    exact h
  | some id =>
    rw [stdTurn_some hc]
    show Aside fs x0 (stdVisit X L fs p s id).table.nodes (stdVisit X L fs p s id).removed
    have hid := hs.cursor id hc
    have hv := stdVisit_spec X L fs p hbs hs.ok hid
    have hx0 : getD [] s.table.nodes x0.1 = x0.2 := getD_of_mem hs.ok.ids h.here
    by_cases hid0 : id = x0.1
    · have : FilesGroup.isFinished (getD [] s.table.nodes id) = true := by
        rw [hid0, hx0]
        exact hfin
      rw [hv.skip this]
      exact h
    · have hne : x0.1 ≠ id := fun hc' => hid0 hc'.symm
      obtain ⟨hold, _⟩ := hs.ok.level_at hid
      have hnz : ∀ a ∈ keys (getD [] s.table.nodes id), fs.fileSize a ≠ 0 := by
        rcases h.apart _ hold with h1 | h1
        · exact absurd (congrArg Prod.fst h1) hid0
        · exact h1
      refine ⟨hv.kept x0 h.here hne, ?_, ?_⟩
      · by_cases hf : FilesGroup.isFinished (getD [] s.table.nodes id) = true
        · rw [hv.skip hf]
          exact h.alive
        · have hf' : FilesGroup.isFinished (getD [] s.table.nodes id) = false := by
            simpa using hf
          intro hc'
          rcases (hv.hashed hf').2.1 _ hc' with h1 | h1
          · exact h.alive h1
          · exact hne h1
      · intro y hy
        rcases hv.origin y hy with h1 | h1 | ⟨_, h1⟩
        · right
          have hy2 : getD [] (stdVisit X L fs p s id).table.nodes id = y.2 := by
            have hy' : (y.1, y.2) ∈ (stdVisit X L fs p s id).table.nodes := hy
            rw [h1] at hy'
            exact getD_of_mem hv.ok.ids hy'
          intro a ha
          rw [← hy2] at ha
          exact hnz a ((hv.paths a).1 ha)
        · exact h.apart y h1
        · right
          intro a ha
          exact hnz a (h1 a ha)

theorem Aside.over_turns {p : Process} (hbs : 0 < p.blockSize) {x0 : Nat × FilesGroup}
    (hfin : FilesGroup.isFinished x0.2 = true) {s : StdPass} (hs : PassOk s)
    (h : Aside fs x0 s.table.nodes s.removed) (i : Nat) :
    Aside fs x0 ((stdTurn X L fs p)^[i] s).table.nodes ((stdTurn X L fs p)^[i] s).removed := by
  induction i with
  | zero => exact h
  | succ i ih =>
    rw [Function.iterate_succ_apply']
    exact ih.over_turn hbs hfin (hs.after_turns hbs i)

/-- A call of `nextStep` leaves a finished group that holds every file of
length 0 of the table as it is, and the only group with such a file. -/
theorem zero_group_step {bs : Nat} (hbs : 0 < bs) {x0 : Nat × FilesGroup}
    (hfin : FilesGroup.isFinished x0.2 = true) {fuel : Nat} {r r' : StdRun} (hr : RunOk bs r)
    (h : Aside fs x0 r.searcher.m_filesGroups [])
    (hstep : stdNextStep X L fs fuel r = some r') :
    Aside fs x0 r'.searcher.m_filesGroups [] := by
  obtain ⟨i, _, _, _, h4, _, _⟩ := stdNextStep_some hstep
  have hbs' : 0 < r.process.blockSize := by
    rw [hr.blockSize]
    exact hbs
  have ha := Aside.over_turns (X := X) (L := L) hbs' hfin (PassOk.at_start hr)
    (s := StdPass.start r) h i
  rw [h4]
  refine ⟨?_, List.not_mem_nil _, ?_⟩
  · exact mem_erase.2 ⟨ha.here, by simpa using ha.alive⟩
  · intro y hy
    exact ha.apart y (mem_erase.1 hy).1

theorem zero_group_passes {bs : Nat} (hbs : 0 < bs) {x0 : Nat × FilesGroup}
    (hfin : FilesGroup.isFinished x0.2 = true) {fuel : Nat} {r0 : StdRun} (hr : RunOk bs r0)
    (h : Aside fs x0 r0.searcher.m_filesGroups []) :
    ∀ (n : Nat) (r : StdRun), stdPasses X L fs fuel n r0 = some r →
      Aside fs x0 r.searcher.m_filesGroups [] := by
  intro n
  induction n with
  | zero =>
    intro r hn
    simp only [stdPasses, Option.some.injEq] at hn
    rw [← hn]
    exact h
  | succ n ih =>
    intro r hn
    rw [stdPasses_succ] at hn
    cases h1 : stdPasses X L fs fuel n r0 with
    | none =>
      rw [h1] at hn
      cases hn
    | some r1 =>
      rw [h1] at hn
      exact zero_group_step hbs hfin (hr.after_passes hbs n r1 h1) (ih r1 h1) hn

end ZeroGroup

section Reached

/-- Every state of a run on a newly constructed object, between two calls
of `nextStep` and between two turns of the outer loop of a call, has a well
formed table. -/
theorem reach_stdOk (X : Externals) (L : Layout) (fs : FileSystem) (p : Process)
    (s : Searcher) (hbs : 0 < p.blockSize) (hempty : s.m_filesGroups = [])
    (hw : ∀ d ∈ s.m_includeDirs,
      (walk fs s.m_excludeDirs (s.m_recursiveLevel + 1).toNat d).Nodup)
    {fuel n : Nat} {r : StdRun}
    (hr : stdPasses X L fs fuel n (stdFindGroups X L fs p s) = some r) (i : Nat) :
    StdOk ((stdTurn X L fs r.process)^[i] (StdPass.start r)).table.nodes
      ((stdTurn X L fs r.process)^[i] (StdPass.start r)).groupId := by
  have h0 := stdFindGroups_runOk X L fs p s hbs hempty hw
  have h1 := @RunOk.after_passes X L fs _ hbs _ _ h0 n r hr
  have hbs' : 0 < r.process.blockSize := by
    rw [h1.blockSize]
    exact hbs
  exact ((PassOk.at_start h1).after_turns hbs' i).ok

/-- The table `find` returns is one that calls of `nextStep` reach. -/
theorem stdFind_some {X : Externals} {L : Layout} {fs : FileSystem} {p : Process}
    {s : Searcher} {fuel passes : Nat} {r : StdRun}
    (h : stdFind X L fs fuel passes p s = some r) :
    ∃ k, stdPasses X L fs fuel k (stdFindGroups X L fs p s) = some r :=
  (stdFindLoop_some fuel passes _ r h).2

/-- C19: in every state of a run of `find` on a newly constructed object,
with the table of groups as the GNU C++ library keeps it, no group of the
table has an empty member map: not between two calls of `nextStep`, not
between two turns of the outer loop of a call (also when the walk has left
groups out or met a split group again after a rehash), and not in a table
`find` returns.  The same holds, under every layout of the hash containers,
as long as no insertion rehashes the table.  So `m_group.begin()` is an
entry wherever `allFinished` and `nextStep` call
`FilesGroup::isFinished`. -/
theorem groups_are_never_empty (X : Externals) (L : Layout) (fs : FileSystem)
    (p : Process) (s : Searcher) (hbs : 0 < p.blockSize) (hempty : s.m_filesGroups = [])
    (hw : ∀ d ∈ s.m_includeDirs,
      (walk fs s.m_excludeDirs (s.m_recursiveLevel + 1).toNat d).Nodup) :
    (∀ fuel n r, stdPasses X L fs fuel n (stdFindGroups X L fs p s) = some r →
      (∀ x ∈ r.searcher.m_filesGroups, x.2 ≠ []) ∧
      ∀ i, ∀ x ∈ ((stdTurn X L fs r.process)^[i] (StdPass.start r)).table.nodes,
        x.2 ≠ []) ∧
    (∀ fuel passes r, stdFind X L fs fuel passes p s = some r →
      ∀ x ∈ r.searcher.m_filesGroups, x.2 ≠ []) ∧
    (∀ n, ∀ x ∈ ((Searcher.nextStep X L fs)^[n] (s.findGroups X L fs p)).2.m_filesGroups,
      x.2 ≠ []) ∧
    (∀ n i, ∀ y ∈ (Searcher.midPass X L fs
        ((Searcher.nextStep X L fs)^[n] (s.findGroups X L fs p)) i).after, y.2 ≠ []) ∧
    ∀ fuel r, s.find X L fs fuel p = some r → ∀ x ∈ r.2.m_filesGroups, x.2 ≠ [] := by
  have hstd : ∀ fuel n r, stdPasses X L fs fuel n (stdFindGroups X L fs p s) = some r →
      ∀ i, ∀ x ∈ ((stdTurn X L fs r.process)^[i] (StdPass.start r)).table.nodes,
        x.2 ≠ [] := by
    intro fuel n r hr i x hx
    obtain ⟨_, _, hl⟩ := (reach_stdOk X L fs p s hbs hempty hw hr i).level x hx
    exact hl.nonempty
  obtain ⟨o1, o2, o3⟩ := no_group_is_empty_without_rehash X L fs p s hbs hempty hw
  refine ⟨fun fuel n r hr => ⟨hstd fuel n r hr 0, hstd fuel n r hr⟩, ?_, o1, o2, o3⟩
  intro fuel passes r hr
  obtain ⟨k, hk⟩ := stdFind_some hr
  exact hstd fuel k r hk 0

/-- C15: in every state of a run of `find` on a newly constructed object,
with the table of groups as the GNU C++ library keeps it, the members of a
group stand at one position and have one size, so that
`FilesGroup::isFinished`, which looks at the first member only, is true
exactly when every member is finished: between two calls of `nextStep`,
between two turns of the outer loop of a call (also when the walk has left
groups out or met a split group again after a rehash), and in a table
`find` returns.  The same holds, under every layout of the hash containers,
as long as no insertion rehashes the table. -/
theorem group_finished_iff_all_members_finished (X : Externals) (L : Layout)
    (fs : FileSystem) (p : Process) (s : Searcher) (hbs : 0 < p.blockSize)
    (hempty : s.m_filesGroups = [])
    (hw : ∀ d ∈ s.m_includeDirs,
      (walk fs s.m_excludeDirs (s.m_recursiveLevel + 1).toNat d).Nodup) :
    (∀ fuel n r, stdPasses X L fs fuel n (stdFindGroups X L fs p s) = some r →
      (∀ x ∈ r.searcher.m_filesGroups,
        (FilesGroup.isFinished x.2 = true ↔ ∀ e ∈ x.2, e.2.isFinished = true)) ∧
      ∀ i, ∀ x ∈ ((stdTurn X L fs r.process)^[i] (StdPass.start r)).table.nodes,
        (FilesGroup.isFinished x.2 = true ↔ ∀ e ∈ x.2, e.2.isFinished = true)) ∧
    (∀ fuel passes r, stdFind X L fs fuel passes p s = some r →
      ∀ x ∈ r.searcher.m_filesGroups,
        (FilesGroup.isFinished x.2 = true ↔ ∀ e ∈ x.2, e.2.isFinished = true)) ∧
    (∀ n, ∀ x ∈ ((Searcher.nextStep X L fs)^[n] (s.findGroups X L fs p)).2.m_filesGroups,
      (x.2.isFinished = true ↔ ∀ e ∈ x.2, e.2.isFinished = true)) ∧
    (∀ n i, ∀ y ∈ (Searcher.midPass X L fs
        ((Searcher.nextStep X L fs)^[n] (s.findGroups X L fs p)) i).after,
      (y.2.isFinished = true ↔ ∀ e ∈ y.2, e.2.isFinished = true)) ∧
    ∀ fuel r, s.find X L fs fuel p = some r → ∀ x ∈ r.2.m_filesGroups,
      (x.2.isFinished = true ↔ ∀ e ∈ x.2, e.2.isFinished = true) := by
  have hstd : ∀ fuel n r, stdPasses X L fs fuel n (stdFindGroups X L fs p s) = some r →
      ∀ i, ∀ x ∈ ((stdTurn X L fs r.process)^[i] (StdPass.start r)).table.nodes,
        (FilesGroup.isFinished x.2 = true ↔ ∀ e ∈ x.2, e.2.isFinished = true) := by
    intro fuel n r hr i x hx
    obtain ⟨_, _, hl⟩ := (reach_stdOk X L fs p s hbs hempty hw hr i).level x hx
    exact hl.first_finished_iff
  obtain ⟨o1, o2, o3⟩ := first_member_decides_without_rehash X L fs p s hbs hempty hw
  refine ⟨fun fuel n r hr => ⟨hstd fuel n r hr 0, hstd fuel n r hr⟩, ?_, o1, o2, o3⟩
  intro fuel passes r hr
  obtain ⟨k, hk⟩ := stdFind_some hr
  exact hstd fuel k r hk 0

/-- The loop of `find` on a newly constructed object ends, however the
insertions made on the way rearrange the table. -/
theorem stdFind_terminates (X : Externals) (L : Layout) (fs : FileSystem) (p : Process)
    (s : Searcher) (hbs : 0 < p.blockSize) (hempty : s.m_filesGroups = [])
    (hw : ∀ d ∈ s.m_includeDirs,
      (walk fs s.m_excludeDirs (s.m_recursiveLevel + 1).toNat d).Nodup) :
    ∃ fuel passes r, stdFind X L fs fuel passes p s = some r :=
  stdFindLoop_terminates hbs _ _ (stdFindGroups_runOk X L fs p s hbs hempty hw)
    (Nat.le_refl _)

/-- C11: when the table `findGroups` builds in a newly constructed object
has a group whose files all have length 0, the minimum file size is 0, the
group has at least two members and is finished from the start; `find`
returns, and the table it returns holds that group unchanged, under its id
and with all its members, and no other group of that table holds a file of
length 0.  This holds with the table of groups as the GNU C++ library keeps
it, however the insertions made during the passes rearrange it, and, under
every layout of the hash containers, as long as no insertion rehashes the
table. -/
theorem zero_length_files_are_reported_together (X : Externals) (L : Layout)
    (fs : FileSystem) (p : Process) (s : Searcher) (x0 : Nat × FilesGroup)
    (hbs : 0 < p.blockSize) (hempty : s.m_filesGroups = [])
    (hw : ∀ d ∈ s.m_includeDirs,
      (walk fs s.m_excludeDirs (s.m_recursiveLevel + 1).toNat d).Nodup)
    (hx0 : x0 ∈ (stdFindGroups X L fs p s).searcher.m_filesGroups)
    (hzero : ∀ e ∈ x0.2, fs.fileSize e.1 = 0) :
    s.m_minSize = 0 ∧ 2 ≤ x0.2.length ∧ FilesGroup.isFinished x0.2 = true ∧
    (∃ fuel passes r, stdFind X L fs fuel passes p s = some r) ∧
    (∀ fuel passes r, stdFind X L fs fuel passes p s = some r →
      x0 ∈ r.searcher.m_filesGroups ∧
      ∀ y ∈ r.searcher.m_filesGroups, ∀ e ∈ y.2, fs.fileSize e.1 = 0 → y = x0) ∧
    x0 ∈ (s.findGroups X L fs p).2.m_filesGroups ∧
    (∃ fuel r, s.find X L fs fuel p = some r) ∧
    ∀ fuel r, s.find X L fs fuel p = some r →
      x0 ∈ r.2.m_filesGroups ∧
      ∀ y ∈ r.2.m_filesGroups, ∀ e ∈ y.2, fs.fileSize e.1 = 0 → y = x0 := by
  have hx0' : x0 ∈ (s.findGroups X L fs p).2.m_filesGroups :=
    ((stdFindGroups_mem X L fs p s hempty x0).2).1 hx0
  obtain ⟨o1, o2, o3, o4, o5⟩ :=
    zero_length_group_is_kept_without_rehash X L fs p s x0 hbs hempty hw hx0' hzero
  have h0 := stdFindGroups_runOk X L fs p s hbs hempty hw
  -- no other group of the first table holds a file of length 0
  have hinit : Aside fs x0 (stdFindGroups X L fs p s).searcher.m_filesGroups [] := by
    refine ⟨hx0, List.not_mem_nil _, ?_⟩
    intro y hy
    by_cases hall : ∀ a ∈ keys y.2, fs.fileSize a ≠ 0
    · exact Or.inr hall
    · left
      push_neg at hall
      obtain ⟨a, ha, haz⟩ := hall
      have hsg := groupBySize_buckets X L fs s s.m_recursiveLevel hw
      obtain ⟨i, b, hb, hyb⟩ := ((stdFindGroups_mem X L fs p s hempty y).1).1 hy
      obtain ⟨i0, b0, hb0, hxb0⟩ := ((stdFindGroups_mem X L fs p s hempty x0).1).1 hx0
      obtain ⟨_, _, hl0⟩ := h0.ok.level x0 hx0
      obtain ⟨e0, he0⟩ := List.exists_mem_of_ne_nil _ hl0.nonempty
      have hsize : ∀ {i : Nat} {b : Nat × List Path} {x : Nat × FilesGroup} {a : Path},
          (s.groupBySize X L fs s.m_recursiveLevel)[i]? = some b →
          x = (p.groupId + i, makeGroup L fs b.2) → a ∈ keys x.2 → fs.fileSize a = b.1 := by
        intro i b x a hb hx ha
        rw [hx] at ha
        exact hsg.2.1 b (List.getElem?_mem hb) a (((makeGroup_spec L fs b.2).2.1 a).1 ha)
      have hbz : b.1 = 0 := by
        rw [← hsize hb hyb ha]
        exact haz
      have hb0z : b0.1 = 0 := by
        rw [← hsize hb0 hxb0 (mem_keys_of_mem he0)]
        exact hzero e0 he0
      have hii : i = i0 := index_eq_of_key_eq hsg.1 hb hb0 (by rw [hbz, hb0z])
      rw [hyb, hxb0]
      rw [hii] at hb
      rw [hb0] at hb
      cases hb
      rw [hii]
  refine ⟨o1, o2, o3, stdFind_terminates X L fs p s hbs hempty hw, ?_, hx0', o4, o5⟩
  intro fuel passes r hr
  obtain ⟨k, hk⟩ := stdFind_some hr
  have ha := zero_group_passes (X := X) (L := L) hbs o3 h0 hinit k r hk
  refine ⟨ha.here, ?_⟩
  intro y hy e he hez
  rcases ha.apart y hy with h | h
  · exact h
  · exact absurd hez (h e.1 (mem_keys_of_mem he))

end Reached

section OnSamples

set_option maxRecDepth 100000

/-- C19, on the directory `t` of `fsTwelve` after the first call of
`nextStep`, in which an insertion rehashes the table and a split group is
met again: every group of the table has members. -/
theorem groups_are_never_empty_witness :
    ∃ r ∈ sampleRun frontLayout fsTwelve searcherT 1,
      keys r.searcher.m_filesGroups = [14, 13, 0, 1, 2, 3, 4, 5, 6, 7, 8, 9] ∧
      ∀ x ∈ r.searcher.m_filesGroups, x.2 ≠ [] := by
  have hs : ∃ r ∈ sampleRun frontLayout fsTwelve searcherT 1,
      keys r.searcher.m_filesGroups = [14, 13, 0, 1, 2, 3, 4, 5, 6, 7, 8, 9] := by
    decide
  obtain ⟨r, hr, hk⟩ := hs
  exact ⟨r, hr, hk, ((groups_are_never_empty sampleExternals frontLayout fsTwelve
    processThirteen searcherT (by decide) rfl (by decide)).1 100 1 r hr).1⟩

/-- C15, on the directory `t` of `fsTwelve` after the first call of
`nextStep`: in every group of the table, also in the one made of what
`std::move` left behind, the first member is finished exactly when every
member is. -/
theorem group_finished_iff_all_members_finished_witness :
    ∃ r ∈ sampleRun frontLayout fsTwelve searcherT 1,
      keys r.searcher.m_filesGroups = [14, 13, 0, 1, 2, 3, 4, 5, 6, 7, 8, 9] ∧
      ∀ x ∈ r.searcher.m_filesGroups,
        (FilesGroup.isFinished x.2 = true ↔ ∀ e ∈ x.2, e.2.isFinished = true) := by
  have hs : ∃ r ∈ sampleRun frontLayout fsTwelve searcherT 1,
      keys r.searcher.m_filesGroups = [14, 13, 0, 1, 2, 3, 4, 5, 6, 7, 8, 9] := by
    decide
  obtain ⟨r, hr, hk⟩ := hs
  exact ⟨r, hr, hk, ((group_finished_iff_all_members_finished sampleExternals frontLayout
    fsTwelve processThirteen searcherT (by decide) rfl (by decide)).1 100 1 r hr).1⟩

/-- C11, on the directory `z` with a minimum file size of 0: the two empty
files form the group with id 0, `find` returns, and the table it returns
holds that group. -/
theorem zero_length_files_are_reported_together_witness :
    keys (makeGroup backLayout fsZero ["z/a", "z/b"]) = ["z/a", "z/b"] ∧
    searcherZero.m_minSize = 0 ∧
    ∃ fuel passes r,
      stdFind sampleExternals backLayout fsZero fuel passes Process.start searcherZero
        = some r ∧
      (0, makeGroup backLayout fsZero ["z/a", "z/b"]) ∈ r.searcher.m_filesGroups := by
  obtain ⟨h1, _, _, ⟨fuel, passes, r, hr⟩, h5, _⟩ :=
    zero_length_files_are_reported_together sampleExternals backLayout fsZero Process.start
      searcherZero (0, makeGroup backLayout fsZero ["z/a", "z/b"]) (by decide) rfl
      (by decide) (by decide) (by decide)
  exact ⟨by decide, h1, fuel, passes, r, hr, (h5 fuel passes r hr).1⟩

end OnSamples

section Rehash

set_option maxRecDepth 100000

/-- C4 fails in the program.  The directory `t` holds thirteen sizes of
files, 1 to 13 bytes, and the block size is 13, so the largest size takes
one block.  `findGroups` makes thirteen groups.  The first call of
`nextStep` splits the group it meets first; the insertion of the new group
is the fourteenth into the table and rehashes it, after which the node of
the iterator is the last of the list, so the other twelve groups are not
hashed in this pass.  The table is not finished after one call, `find`
calls `nextStep` a second time and returns after it. -/
theorem find_needs_more_passes_than_blocks :
    (∃ r ∈ sampleRun frontLayout fsThirteen searcherT 0,
      r.searcher.m_filesGroups.length = 13 ∧
      largestSize r.searcher.m_filesGroups = 13 ∧
      blockCount processThirteen.blockSize (largestSize r.searcher.m_filesGroups) = 1) ∧
    (∃ r ∈ sampleRun frontLayout fsThirteen searcherT 1,
      allFinished r.searcher.m_filesGroups = false ∧
      ∀ id ∈ List.range 12, ∀ e ∈ getD [] r.searcher.m_filesGroups id, e.2.m_pos = 0) ∧
    (∃ r ∈ sampleRun frontLayout fsThirteen searcherT 2,
      allFinished r.searcher.m_filesGroups = true) ∧
    (stdFind sampleExternals frontLayout fsThirteen 100 1 processThirteen searcherT).isSome
      = false ∧
    (stdFind sampleExternals frontLayout fsThirteen 100 2 processThirteen searcherT).isSome
      = true := by
  decide

/-- C8 fails in the program.  In the directory `t` of `fsThirteen` each of
the thirteen groups has three members whose first blocks hash to two
values.  One call of `nextStep` splits the group with id 12 only: the
groups with the ids 0 to 11 are unfinished, their next hashes take two
values, and after the call they are in the table as they were, under their
ids, with no member hashed. -/
theorem nextStep_leaves_disagreeing_groups :
    ∃ r0 ∈ sampleRun frontLayout fsThirteen searcherT 0,
    ∃ r1 ∈ sampleRun frontLayout fsThirteen searcherT 1,
      keys r0.searcher.m_filesGroups = [12, 11, 10, 9, 8, 7, 6, 5, 4, 3, 2, 1, 0] ∧
      positions r1 = (13, [("t/0a", 13), ("t/0b", 13)]) ::
        (List.range 12).map (fun id => (id, (getD [] r0.searcher.m_filesGroups id).map
          fun e => (e.1, 0))) ∧
      ∀ id ∈ List.range 12,
        (keys (getD [] r0.searcher.m_filesGroups id)).length = 3 ∧
        FilesGroup.isFinished (getD [] r0.searcher.m_filesGroups id) = false ∧
        (hashGroupsOf sampleExternals frontLayout fsThirteen processThirteen
          (getD [] r0.searcher.m_filesGroups id)).length = 2 ∧
        (id, getD [] r0.searcher.m_filesGroups id) ∈ r1.searcher.m_filesGroups := by
  decide

/-- C1 fails in the program.  In the directory `t` of `fsTwelve` the files
`t/0a` and `t/0b` have 14 bytes, agree in the first 13 and differ in the
last, so with blocks of 13 bytes their second block hashes differ and no
file of any size has the block hashes of another.  `find` returns after
three calls of `nextStep`, and the table it returns holds one group, of
`t/0a` and `t/0b`.  (The first call of `nextStep` splits the group of
`t/0a`, `t/0b`, `t/0c`, moves `t/0a` and `t/0b` to a new group, and after
the rehash by the next insertion meets the split group again: the two
objects left behind by `std::move` read nothing, hash a block of zeros each
and are moved to a group of their own, which is finished.) -/
theorem find_reports_files_that_differ :
    (∃ r0 ∈ sampleRun frontLayout fsTwelve searcherT 0,
      (11, makeGroup frontLayout fsTwelve ["t/0a", "t/0b", "t/0c"])
        ∈ r0.searcher.m_filesGroups) ∧
    (∃ r ∈ stdFind sampleExternals frontLayout fsTwelve 100 3 processThirteen searcherT,
      pathSets r = [["t/0a", "t/0b"]]) ∧
    fsTwelve.content "t/0a" = List.replicate 14 1 ∧
    fsTwelve.content "t/0b" = List.replicate 13 1 ++ [3] ∧
    blockHashes sampleExternals fsTwelve processThirteen "t/0a"
      ≠ blockHashes sampleExternals fsTwelve processThirteen "t/0b" := by
  decide

/-- C16 fails in the program.  After the first call of `nextStep` on the
directory `t` of `fsTwelve` the table holds, under the id 14, a group of
`t/0a` and `t/0b` whose members stand at position 26, two blocks of 13
bytes, and cache the same hash, that of a block of zeros, while the two
files differ in their fourteenth byte, so that their second blocks hash
differently. -/
theorem revisited_group_joins_files_that_differ :
    ∃ r ∈ sampleRun frontLayout fsTwelve searcherT 1,
    ∃ x ∈ r.searcher.m_filesGroups,
      x.1 = 14 ∧ keys x.2 = ["t/0a", "t/0b"] ∧
      (∀ e ∈ x.2, e.2.m_pos = 26 ∧
        e.2.m_hash = sampleExternals.md5 (List.replicate 13 0)) ∧
      26 / processThirteen.blockSize = 2 ∧
      fsTwelve.content "t/0a" = List.replicate 14 1 ∧
      fsTwelve.content "t/0b" = List.replicate 13 1 ++ [3] ∧
      hashAt sampleExternals fsTwelve processThirteen "t/0a" 1
        ≠ hashAt sampleExternals fsTwelve processThirteen "t/0b" 1 := by
  decide

/-- C18 fails in the program, in its second part.  In the run of `find` on
the directory `t` of `fsTwelve` every call of `nextHash` is made with
`m_pos < m_size`, but for the file `t/0a` of the reported group, which has
14 bytes and so two blocks of 13, `nextHash` is called three times: at
position 0; at position 13 on the object `std::move` left behind, which has
no path and no bytes to read; and at position 13 on the object that was
moved, which reads the last byte.  The entry of the reported group is the
one that read nothing in its second call. -/
theorem reported_file_is_hashed_three_times :
    ∃ r ∈ stdFind sampleExternals frontLayout fsTwelve 100 3 processThirteen searcherT,
      pathSets r = [["t/0a", "t/0b"]] ∧
      fsTwelve.fileSize "t/0a" = 14 ∧ blockCount processThirteen.blockSize 14 = 2 ∧
      (∀ c ∈ r.calls, c.2.m_pos < c.2.m_size) ∧
      callsFor fsTwelve r.calls "t/0a" = [(0, List.replicate 14 1), (13, []), (13, [1])] ∧
      (r.calls.filter fun c => decide (c.1 = "t/0a")).map (fun c => c.2.m_path)
        = ["t/0a", "", "t/0a"] ∧
      ∀ x ∈ r.searcher.m_filesGroups, ∀ e ∈ x.2,
        e.2.m_path = "" ∧ e.2.m_hash = sampleExternals.md5 (List.replicate 13 0) := by
  decide

/-- C9 fails in the program.  In the directory `t` of `fsAgreeing` twelve
groups are pairs of equal files of two blocks, and the group with id 6 has
a third file that differs.  In the first call of `nextStep` the groups with
the ids 12 to 7 are hashed, then the group with id 6 is split and the
insertion of the new group rehashes the table; the walk goes on from the
node of id 6 in the new list, where the groups with the ids 7 to 12 follow
and are hashed a second time, and the groups with the ids 0 to 5 are left
out.  After the call no group whose members agree has advanced by the block
size: six have advanced by twice the block size, six not at all. -/
theorem nextStep_hashes_agreeing_groups_twice_or_not :
    ∃ r0 ∈ sampleRun frontLayout fsAgreeing searcherT 0,
    ∃ r1 ∈ sampleRun frontLayout fsAgreeing searcherT 1,
      processThirteen.blockSize = 13 ∧
      (∀ id ∈ [0, 1, 2, 3, 4, 5, 7, 8, 9, 10, 11, 12],
        FilesGroup.isFinished (getD [] r0.searcher.m_filesGroups id) = false ∧
        (hashGroupsOf sampleExternals frontLayout fsAgreeing processThirteen
          (getD [] r0.searcher.m_filesGroups id)).length = 1 ∧
        (getD [] r0.searcher.m_filesGroups id).map (fun e => e.2.m_pos) = [0, 0] ∧
        keys (getD [] r1.searcher.m_filesGroups id)
          = keys (getD [] r0.searcher.m_filesGroups id)) ∧
      (∀ id ∈ [0, 1, 2, 3, 4, 5],
        (getD [] r1.searcher.m_filesGroups id).map (fun e => e.2.m_pos) = [0, 0]) ∧
      (∀ id ∈ [7, 8, 9, 10, 11, 12],
        (getD [] r1.searcher.m_filesGroups id).map (fun e => e.2.m_pos) = [26, 26]) := by
  decide

/-- C10 fails in the program.  With include directories `d1;d2` of
`fsBlockSized` and blocks of 13 bytes, the two equal files of `d2`, of 13
bytes each, form the group with id 0, which is not finished.  The first
call of `nextStep` splits the group with id 12, the insertion of the new
group rehashes the table, and the walk ends without meeting the group with
id 0: after exactly one call it is in the table with the same members and
still not finished.  The second call hashes it. -/
theorem block_sized_group_is_left_out_of_first_pass :
    (∀ e ∈ makeGroup frontLayout fsBlockSized ["d2/x", "d2/y"],
      e.2.m_size = processThirteen.blockSize ∧ e.2.m_pos = 0) ∧
    fsBlockSized.content "d2/x" = fsBlockSized.content "d2/y" ∧
    FilesGroup.isFinished (makeGroup frontLayout fsBlockSized ["d2/x", "d2/y"]) = false ∧
    (∃ r0 ∈ sampleRun frontLayout fsBlockSized searcherBlockSized 0,
      (0, makeGroup frontLayout fsBlockSized ["d2/x", "d2/y"])
        ∈ r0.searcher.m_filesGroups) ∧
    (∃ r1 ∈ sampleRun frontLayout fsBlockSized searcherBlockSized 1,
      (0, makeGroup frontLayout fsBlockSized ["d2/x", "d2/y"])
        ∈ r1.searcher.m_filesGroups ∧
      FilesGroup.isFinished (getD [] r1.searcher.m_filesGroups 0) = false) ∧
    (∃ r2 ∈ sampleRun frontLayout fsBlockSized searcherBlockSized 2,
      keys (getD [] r2.searcher.m_filesGroups 0) = ["d2/y", "d2/x"] ∧
      FilesGroup.isFinished (getD [] r2.searcher.m_filesGroups 0) = true) := by
  decide

/-- C14 fails in the program.  The disks `fsOddFirst` and `fsOddLast` hold
the same files with the same bytes in the directory `t`; the directory
iterator yields them in a different order, so the groups get their ids in
a different order.  `t/Pa` and `t/Pb` differ in their second block.  When
their size is listed first, their group is the one the first call of
`nextStep` meets again after it has been split, and `find` returns a table
with a group of `t/Pa` and `t/Pb`; when it is listed last, no group of the
table `find` returns holds either file.  The same difference shows on one
disk between a layout of `sizeGroups` that puts new sizes first and one
that puts them last. -/
theorem find_result_depends_on_order_of_groups :
    fsOddFirst.children "t" = keys (oddFiles ++ evenFiles) ∧
    fsOddLast.children "t" = keys (evenFiles ++ oddFiles) ∧
    (∀ a ∈ keys (oddFiles ++ evenFiles), fsOddFirst.content a = fsOddLast.content a) ∧
    fsOddFirst.content "t/Pa" = List.replicate 14 1 ∧
    fsOddFirst.content "t/Pb" = List.replicate 13 1 ++ [3] ∧
    hashAt sampleExternals fsOddFirst processThirteen "t/Pa" 1
      ≠ hashAt sampleExternals fsOddFirst processThirteen "t/Pb" 1 ∧
    (∃ r ∈ stdFind sampleExternals frontLayout fsOddFirst 100 3 processThirteen searcherT,
      ["t/Pa", "t/Pb"] ∈ pathSets r) ∧
    (∃ r ∈ stdFind sampleExternals frontLayout fsOddLast 100 3 processThirteen searcherT,
      ∀ g ∈ pathSets r, "t/Pa" ∉ g ∧ "t/Pb" ∉ g) ∧
    (∃ r ∈ stdFind sampleExternals backLayout fsOddFirst 100 3 processThirteen searcherT,
      ∀ g ∈ pathSets r, "t/Pa" ∉ g ∧ "t/Pb" ∉ g) := by
  decide

end Rehash

end Bayan
